import Mathlib

/-!
Verification of the cerver storage core: the B+ tree index
(src/database/physical/b_plus_tree.c) and the table/row store built on it
(the logical database layer).  Every definition is a shallow embedding of
the corresponding C function; line numbers in doc comments refer to the C
sources.  Machine pointers are replaced by structural values: a tree node
owns its children, and the pool of nodes reachable from the root is
represented as an inductive tree.  Only the live portion of each node's
arrays (indices below num_keys) is represented, since the C code never
reads beyond num_keys.
-/

namespace Cerver

/-- MAX_KEYS, b_plus_tree.h line 10. -/
def MAX_KEYS : Nat := 4

/-- MIN_KEYS = MAX_KEYS / 2, b_plus_tree.h line 11. -/
def MIN_KEYS : Nat := MAX_KEYS / 2

/-- A B+ tree node (struct BPlusTreeNode, b_plus_tree.h lines 16-24).
A leaf holds parallel arrays of keys and file offsets; an internal node
holds keys and child pointers (children[0..num_keys]).  The parent and
next pointers of the C struct are navigation aids reconstructed from the
structure and are not stored. -/
inductive BNode where
  | leaf (keys : List Int) (offs : List Int)
  | node (keys : List Int) (children : List BNode)

instance : Inhabited BNode := ⟨.leaf [] []⟩

/-- The tree handle (struct BPlusTree, b_plus_tree.h lines 27-30).
The order field is the constant MAX_KEYS + 1 and carries no state. -/
structure BPlusTree where
  root : BNode

/-- initialize_tree (b_plus_tree.c lines 27-42): the root starts as an
empty leaf. -/
def initialize_tree : BPlusTree := ⟨.leaf [] []⟩

/-- The descent step of find_leaf_node (b_plus_tree.c lines 85-87):
advance i while key >= keys[i]; the resulting child index. -/
def childIndex (keys : List Int) (k : Int) : Nat :=
  (keys.takeWhile (fun x => decide (x ≤ k))).length

/-- find_leaf_node (b_plus_tree.c lines 77-93): walk down to the leaf
whose range contains the key, returning its key/offset arrays.  A missing
child (out-of-range index) yields none, mirroring the C NULL check. -/
def find_leaf_node : BNode → Int → Option (List Int × List Int)
  | .leaf ks os, _ => some (ks, os)
  | .node ks cs, k =>
    if hlt : childIndex ks k < cs.length then find_leaf_node cs[childIndex ks k] k
    else none
termination_by n => sizeOf n
decreasing_by
  have : sizeOf cs[childIndex ks k] < sizeOf cs := List.sizeOf_lt_of_mem (cs.getElem_mem hlt)
  simp only [BNode.node.sizeOf_spec]
  omega

/-- The linear scan inside search_key (b_plus_tree.c lines 110-114):
walk the parallel key/offset arrays, returning the offset of the first
matching key, or -1. -/
def leafLookup : List Int → List Int → Int → Int
  | k0 :: ks, o0 :: os, k => if k0 = k then o0 else leafLookup ks os k
  | _, _, _ => -1

/-- search_key (b_plus_tree.c lines 102-116). -/
def search_key (t : BPlusTree) (k : Int) : Int :=
  match find_leaf_node t.root k with
  | none => -1
  | some (ks, os) => leafLookup ks os k

/-- The insertion position used by insert_into_leaf (b_plus_tree.c lines
215-222): scanning from the right, shift entries while key < keys[i]; the
pair lands after the scan stops. -/
def insPos (keys : List Int) (k : Int) : Nat :=
  keys.length - (keys.reverse.takeWhile (fun x => decide (k < x))).length

/-- insert_into_leaf (b_plus_tree.c lines 214-227). -/
def insert_into_leaf (ks os : List Int) (k off : Int) : List Int × List Int :=
  (ks.take (insPos ks k) ++ k :: ks.drop (insPos ks k),
   os.take (insPos ks k) ++ off :: os.drop (insPos ks k))

/-- The merge position of the full-leaf split (b_plus_tree.c lines
161-166): advance i while key > keys[i]. -/
def mergePos (keys : List Int) (k : Int) : Nat :=
  (keys.takeWhile (fun x => decide (x < k))).length

/-- Result of inserting into a subtree: either the updated node, or the
two halves of a split together with the separator key handed to
insert_into_parent. -/
inductive InsRes where
  | one (n : BNode)
  | split (l : BNode) (sep : Int) (r : BNode)

/-- The recursive body of insert_key / insert_into_parent (b_plus_tree.c
lines 128-205 and 237-327).  The C code finds the leaf by descending with
the find_leaf_node index and then propagates splits upward through parent
pointers; here the same descent happens structurally and the split
propagates up through the recursion.  A full leaf (lines 154-204) merges
its MAX_KEYS entries with the new one and keeps the first
(MAX_KEYS+1)/2 of them, handing the first key of the new right leaf to
the parent.  A full internal node (lines 266-326) splits at key index
MAX_KEYS/2, promoting that key without copying it into either half. -/
def insertRec : BNode → Int → Int → InsRes
  | .leaf ks os, k, off =>
    if ks.length < MAX_KEYS then
      .one (.leaf (insert_into_leaf ks os k off).1 (insert_into_leaf ks os k off).2)
    else
      let p := mergePos ks k
      let tks := ks.take p ++ k :: ks.drop p
      let tos := os.take p ++ off :: os.drop p
      let sp := (MAX_KEYS + 1) / 2
      .split (.leaf (tks.take sp) (tos.take sp)) ((tks.drop sp).headD 0)
        (.leaf (tks.drop sp) (tos.drop sp))
  | .node ks cs, k, off =>
    if hlt : childIndex ks k < cs.length then
      match insertRec cs[childIndex ks k] k off with
      | .one c' => .one (.node ks (cs.set (childIndex ks k) c'))
      | .split l sep r =>
        let i := childIndex ks k
        let nks := ks.take i ++ sep :: ks.drop i
        let ncs := cs.take i ++ l :: r :: cs.drop (i + 1)
        if ks.length < MAX_KEYS then .one (.node nks ncs)
        else
          let spk := MAX_KEYS / 2
          .split (.node (nks.take spk) (ncs.take (spk + 1))) (nks.getD spk 0)
            (.node (nks.drop (spk + 1)) (ncs.drop (spk + 1)))
    else .one (.node ks cs)
termination_by n => sizeOf n
decreasing_by
  have : sizeOf cs[childIndex ks k] < sizeOf cs := List.sizeOf_lt_of_mem (cs.getElem_mem hlt)
  simp only [BNode.node.sizeOf_spec]
  omega

/-- insert_key (b_plus_tree.c lines 128-205).  An empty root leaf is
filled directly (lines 132-135); a root split creates a new internal
root with a single separator (insert_into_parent lines 241-253). -/
def insert_key (t : BPlusTree) (k off : Int) : BPlusTree :=
  match t.root with
  | .leaf [] _ => ⟨.leaf [k] [off]⟩
  | root =>
    match insertRec root k off with
    | .one n => ⟨n⟩
    | .split l sep r => ⟨.node [sep] [l, r]⟩

/-- The key-removal position of delete_entry (b_plus_tree.c lines
402-405): advance index while keys[index] < key. -/
def delPos (keys : List Int) (k : Int) : Nat :=
  (keys.takeWhile (fun x => decide (x < k))).length

/-- The removal step of delete_entry on a leaf (b_plus_tree.c lines
408-426): if the key is present at the scan position, shift the
subsequent keys and offsets left; otherwise the node is unchanged. -/
def delete_from_leaf (ks os : List Int) (k : Int) : List Int × List Int :=
  let i := delPos ks k
  if ks.getD i (k + 1) = k then (ks.eraseIdx i, os.eraseIdx i) else (ks, os)

/-- Number of keys of a node (the num_keys field). -/
def numKeys : BNode → Nat
  | .leaf ks _ => ks.length
  | .node ks _ => ks.length

/-- Keys list of a node. -/
def bkeys : BNode → List Int
  | .leaf ks _ => ks
  | .node ks _ => ks

/-- Offsets list of a leaf (empty for internal nodes). -/
def boffs : BNode → List Int
  | .leaf _ os => os
  | .node _ _ => []

/-- Children list of an internal node (empty for leaves). -/
def bchildren : BNode → List BNode
  | .leaf _ _ => []
  | .node _ cs => cs

/-- handle_underflow and merge_nodes (b_plus_tree.c lines 454-653), seen
from the parent's frame: the parent has separator keys ks and children cs,
and its child at position i has just underflowed to the node c.  Exactly
as in the C code: first try to borrow from the left sibling if it has more
than MIN_KEYS keys (lines 477-515), then from the right sibling (lines
518-560), otherwise merge with the left sibling if one exists, else with
the right (lines 564-576, 590-653).  Leaf and internal variants follow the
corresponding C branches; for internal nodes the parent separator is
pulled down into the merged node. -/
def rebalance (ks : List Int) (cs : List BNode) (i : Nat) (c : BNode) : BNode :=
  if 0 < i ∧ MIN_KEYS < numKeys (cs.getD (i - 1) default) then
    -- borrow from left sibling
    let ls := cs.getD (i - 1) default
    match c with
    | .leaf cks cos =>
      let bk := (bkeys ls).getLastD 0
      let bo := (boffs ls).getLastD 0
      let c' : BNode := .leaf (bk :: cks) (bo :: cos)
      let ls' : BNode := .leaf (bkeys ls).dropLast (boffs ls).dropLast
      .node (ks.set (i - 1) bk) ((cs.set (i - 1) ls').set i c')
    | .node cks ccs =>
      let c' : BNode := .node (ks.getD (i - 1) 0 :: cks) ((bchildren ls).getLastD default :: ccs)
      let ls' : BNode := .node (bkeys ls).dropLast (bchildren ls).dropLast
      .node (ks.set (i - 1) ((bkeys ls).getLastD 0)) ((cs.set (i - 1) ls').set i c')
  else if i < ks.length ∧ MIN_KEYS < numKeys (cs.getD (i + 1) default) then
    -- borrow from right sibling
    let rs := cs.getD (i + 1) default
    match c with
    | .leaf cks cos =>
      let c' : BNode := .leaf (cks ++ [(bkeys rs).headD 0]) (cos ++ [(boffs rs).headD 0])
      let rs' : BNode := .leaf (bkeys rs).tail (boffs rs).tail
      .node (ks.set i ((bkeys rs).getD 1 0)) ((cs.set i c').set (i + 1) rs')
    | .node cks ccs =>
      let c' : BNode := .node (cks ++ [ks.getD i 0]) (ccs ++ [(bchildren rs).headD default])
      let rs' : BNode := .node (bkeys rs).tail (bchildren rs).tail
      .node (ks.set i ((bkeys rs).headD 0)) ((cs.set i c').set (i + 1) rs')
  else if 0 < i then
    -- merge c into the left sibling
    let ls := cs.getD (i - 1) default
    let merged : BNode :=
      match c with
      | .leaf cks cos => .leaf (bkeys ls ++ cks) (boffs ls ++ cos)
      | .node cks ccs => .node (bkeys ls ++ ks.getD (i - 1) 0 :: cks) (bchildren ls ++ ccs)
    .node (ks.eraseIdx (i - 1)) (((cs.set (i - 1) merged).set i c).eraseIdx i)
  else
    -- merge the right sibling into c
    let rs := cs.getD (i + 1) default
    let merged : BNode :=
      match c with
      | .leaf cks cos => .leaf (cks ++ bkeys rs) (cos ++ boffs rs)
      | .node cks ccs => .node (cks ++ ks.getD i 0 :: bkeys rs) (ccs ++ bchildren rs)
    .node (ks.eraseIdx i) (((cs.set i merged).set (i + 1) rs).eraseIdx (i + 1))

/-- The recursive spine of delete_key: delete_entry removes the key from
the containing leaf (b_plus_tree.c lines 400-445); on the way back up,
each parent runs handle_underflow for a child that dropped below
MIN_KEYS, exactly as the C code does through parent pointers. -/
def deleteRec : BNode → Int → BNode
  | .leaf ks os, k =>
    .leaf (delete_from_leaf ks os k).1 (delete_from_leaf ks os k).2
  | .node ks cs, k =>
    if hlt : childIndex ks k < cs.length then
      let c' := deleteRec cs[childIndex ks k] k
      if numKeys c' < MIN_KEYS then rebalance ks cs (childIndex ks k) c'
      else .node ks (cs.set (childIndex ks k) c')
    else .node ks cs
termination_by n => sizeOf n
decreasing_by
  have : sizeOf cs[childIndex ks k] < sizeOf cs := List.sizeOf_lt_of_mem (cs.getElem_mem hlt)
  simp only [BNode.node.sizeOf_spec]
  omega

/-- delete_key (b_plus_tree.c lines 362-389): find the leaf; if the key
is not there the tree is left untouched (lines 373-385).  Otherwise run
the deletion; if the root ends as an internal node with zero keys its
first child is promoted (delete_entry lines 435-440 and merge_nodes lines
646-652). -/
def delete_key (t : BPlusTree) (k : Int) : BPlusTree :=
  match find_leaf_node t.root k with
  | none => t
  | some (ks, _) =>
    if k ∈ ks then
      match deleteRec t.root k with
      | .node [] (c :: _) => ⟨c⟩
      | r => ⟨r⟩
    else t

/-! ## Table / row store

Shallow embedding of the logical database layer (database.h and its
implementation): a table is its column count, the byte contents of its
data file, and its primary B+ tree index.  The mutex serializes every
operation in the C code, so each operation is modelled as a pure state
transformation.  The file-system calls of compact_table (remove, rename,
reopen) are abstracted into the replacement of the file contents and the
index. -/

/-- DELETED_MARKER (database.h line 13). -/
def DELETED_MARKER : Char := '#'

/-- MAX_ROW_LEN (database.h line 11). -/
def MAX_ROW_LEN : Nat := 4096

/-- The character replacement of the sanitization loop in insert_row
(lines 615-620): the delimiter, newline and the delete marker each become
an underscore. -/
def sanitizeChar (c : Char) : Char :=
  if c = '|' ∨ c = '\n' ∨ c = DELETED_MARKER then '_' else c

/-- The full sanitization of one column value (insert_row lines 611-620):
a NULL pointer becomes the empty string, strncpy truncates to
MAX_ROW_LEN - 1 bytes, then forbidden characters are replaced. -/
def sanitize (v : Option String) : List Char :=
  (((v.getD "").toList).take (MAX_ROW_LEN - 1)).map sanitizeChar

/-- The bytes produced by the column write loop of insert_row (lines
609-629): each sanitized value followed by the delimiter, the last one by
a newline. -/
def rowColsBytes (ncols : Nat) (vals : List (Option String)) : List Char :=
  ((List.range ncols).map
    (fun i => sanitize (vals.getD i none) ++ [if i = ncols - 1 then '\n' else '|'])).flatten

/-- One encoded row: the valid status marker followed by the column
bytes (insert_row lines 602-629). -/
def encodeRow (ncols : Nat) (vals : List (Option String)) : List Char :=
  ' ' :: rowColsBytes ncols vals

/-- A table (struct Table, database.h lines 18-25): column count, the
data file contents, and the primary index.  Name, column names and the
mutex carry no row-store state. -/
structure TableM where
  ncols : Nat
  file : List Char
  index : BPlusTree

/-- The per-column write loop of insert_row (lines 609-629) with an I/O
oracle: io.getD (3 + i) true is the success of the i-th column write; on
a failed write the already appended bytes remain and the loop aborts
returning false.  Earlier oracle slots belong to fseek, ftell and the
marker write. -/
def writeColsEff (ncols : Nat) (vals : List (Option String)) (io : List Bool) :
    Nat → List Char → List Char × Bool
  | i, file =>
    if _h : i < ncols then
      if io.getD (3 + i) true then
        writeColsEff ncols vals io (i + 1)
          (file ++ sanitize (vals.getD i none) ++ [if i = ncols - 1 then '\n' else '|'])
      else (file, false)
    else (file, true)
termination_by i _ => ncols - i

/-- insert_row (part_003 lines 568-648) with an I/O oracle recording
which fallible calls succeed (fseek to end, ftell, marker write, one
write per column, final fflush; a missing oracle entry means success).
The primary-key probe comes first and performs no I/O; the index is only
updated after every write and the flush have succeeded. -/
def insert_row_io (t : TableM) (k : Int) (vals : List (Option String)) (io : List Bool) :
    Option Int × TableM :=
  if search_key t.index k ≠ -1 then (none, t)
  else if io.getD 0 true = false then (none, t)
  else if io.getD 1 true = false then (none, t)
  else if io.getD 2 true = false then (none, t)
  else
    let off : Int := (t.file.length : Int)
    let w := writeColsEff t.ncols vals io 0 (t.file ++ [' '])
    if w.2 = false then (none, { t with file := w.1 })
    else if io.getD (3 + t.ncols) true = false then (none, { t with file := w.1 })
    else (some off, { t with file := w.1, index := insert_key t.index k off })

/-- insert_row on the happy path (all I/O succeeds). -/
def insert_row (t : TableM) (k : Int) (vals : List (Option String)) : Option Int × TableM :=
  insert_row_io t k vals []

/-- The fgets line read (read_row line 685, compact_table line 1052):
collect at most MAX_ROW_LEN - 1 characters, stopping after a newline. -/
def takeLine : List Char → Nat → List Char
  | _, 0 => []
  | [], _ + 1 => []
  | c :: cs, n + 1 => if c = '\n' then [c] else c :: takeLine cs n

/-- fgets positioned at a byte offset: NULL exactly when the offset is at
or past end of file. -/
def fgetsAt (file : List Char) (off : Nat) : Option (List Char) :=
  if off < file.length then some (takeLine (file.drop off) (MAX_ROW_LEN - 1)) else none

/-- strtok_r delimiter test of read_row (line 729). -/
def isDelim (c : Char) : Bool := c = '|' ∨ c = '\n'

/-- The strtok_r tokenizing loop of read_row (lines 729-742): maximal
runs of non-delimiter characters; empty tokens do not exist, consecutive
delimiters are skipped. -/
def tokenize : List Char → List (List Char)
  | [] => []
  | c :: cs =>
    if h : isDelim c then tokenize cs
    else
      ((c :: cs).takeWhile (fun x => ! isDelim x)) ::
        tokenize ((c :: cs).dropWhile (fun x => ! isDelim x))
termination_by s => s.length
decreasing_by
  · simp only [List.length_cons]
    omega
  · simp only [List.dropWhile_cons]
    simp only [h, Bool.not_false, if_true]
    have := ((List.dropWhile_suffix (l := cs) (fun x => ! isDelim x)).sublist).length_le
    simp only [List.length_cons]
    omega

/-- read_row (part_003 lines 656-755): index probe, seek + fgets, the
deleted-marker and corruption checks on the first byte, tokenization, and
the column-count check.  The parse loop stops after ncols tokens, so the
count check fails exactly when fewer tokens than columns were parsed. -/
def read_row (t : TableM) (k : Int) : Option (List (List Char)) :=
  let off := search_key t.index k
  if off = -1 then none
  else
    match fgetsAt t.file off.toNat with
    | none => none
    | some [] => none
    | some (m :: rest) =>
      if m = DELETED_MARKER then none
      else if m ≠ ' ' then none
      else
        let row := (tokenize rest).take t.ncols
        if row.length ≠ t.ncols then none else some row

/-- delete_row (part_003 lines 763-811): overwrite the status byte with
the deleted marker, then remove the key from the index. -/
def delete_row (t : TableM) (k : Int) : Int × TableM :=
  let off := search_key t.index k
  if off = -1 then (-1, t)
  else
    ((0 : Int), { t with file := t.file.set off.toNat DELETED_MARKER,
                         index := delete_key t.index k })

/-- update_row (part_003 lines 820-920): mark the old record deleted in
place, append the new row exactly as insert_row does, then replace the
index entry (delete_key followed by insert_key, lines 915-916). -/
def update_row (t : TableM) (k : Int) (vals : List (Option String)) : Option Int × TableM :=
  let old := search_key t.index k
  if old = -1 then (none, t)
  else
    let f1 := t.file.set old.toNat DELETED_MARKER
    let noff : Int := (f1.length : Int)
    (some noff, { t with file := f1 ++ encodeRow t.ncols vals,
                         index := insert_key (delete_key t.index k) k noff })

/-- C atoi whitespace test. -/
def isSpaceByte (c : Char) : Bool :=
  c = ' ' ∨ c = '\t' ∨ c = '\n' ∨ c = '\r' ∨ c = Char.ofNat 11 ∨ c = Char.ofNat 12

/-- The digit-accumulating loop of atoi. -/
def atoiDigits : List Char → Int → Int
  | c :: cs, acc =>
    if c.isDigit then atoiDigits cs (acc * 10 + ((c.toNat : Int) - 48)) else acc
  | [], acc => acc

/-- C atoi as used by compact_table (line 1063): skip whitespace, an
optional sign, then a maximal digit run (0 if none). -/
def atoi (s : List Char) : Int :=
  match s.dropWhile isSpaceByte with
  | '-' :: cs => - atoiDigits cs 0
  | '+' :: cs => atoiDigits cs 0
  | cs => atoiDigits cs 0

/-- The first strtok token on the delimiter set containing only the bar,
as compact_table extracts the primary-key column (lines 1057-1062):
leading delimiters are skipped; none when no token remains. -/
def strtokFirstCol (s : List Char) : Option (List Char) :=
  let s1 := s.dropWhile (fun c => c == '|')
  if s1.isEmpty then none else some (s1.takeWhile (fun c => ! (c == '|')))

/-- The fgets streaming loop of compact_table (lines 1052-1089): the
file split into successive fgets reads. -/
def chunksFrom : List Char → List (List Char)
  | [] => []
  | c :: cs =>
    takeLine (c :: cs) (MAX_ROW_LEN - 1) ::
      chunksFrom ((c :: cs).drop (takeLine (c :: cs) (MAX_ROW_LEN - 1)).length)
termination_by s => s.length
decreasing_by
  have h1 : 0 < (takeLine (c :: cs) (MAX_ROW_LEN - 1)).length := by
    have he : MAX_ROW_LEN - 1 = 4094 + 1 := by norm_num [MAX_ROW_LEN]
    rw [he]
    simp only [takeLine]
    split <;> simp
  simp only [List.length_drop, List.length_cons]
  omega

/-- The body of the compaction loop (compact_table lines 1052-1089): a
valid line has its primary key parsed from the first column, is copied to
the new file, and is indexed at its new offset; deleted or unparsable
lines are dropped. -/
def compactStep (acc : List Char × BPlusTree) (buf : List Char) : List Char × BPlusTree :=
  match buf with
  | [] => acc
  | m :: rest =>
    if m ≠ DELETED_MARKER ∧ m = ' ' then
      match strtokFirstCol rest with
      | some fc => (acc.1 ++ buf, insert_key acc.2 (atoi fc) (acc.1.length : Int))
      | none => acc
    else acc

/-- compact_table (part_003 lines 1016-1143): stream the old file,
keep the valid lines, rebuild the index against the new offsets, and
replace the file contents and the index (the remove/rename/reopen of the
file handle is abstracted into this replacement). -/
def compact_table (t : TableM) : TableM :=
  let r := (chunksFrom t.file).foldl compactStep ([], initialize_tree)
  { t with file := r.1, index := r.2 }

/-- A freshly created table (create_table, part_003 lines 320-486):
empty data file and an empty index. -/
def table0 (ncols : Nat) : TableM := ⟨ncols, [], initialize_tree⟩

/-- A row-store operation with its arguments. -/
inductive TOp where
  | ins (k : Int) (vals : List (Option String))
  | upd (k : Int) (vals : List (Option String))
  | del (k : Int)

/-- Apply one operation (happy-path I/O). -/
def applyTOp (t : TableM) : TOp → TableM
  | .ins k vs => (insert_row t k vs).2
  | .upd k vs => (update_row t k vs).2
  | .del k => (delete_row t k).2

/-- The table reached by a sequence of row operations on a fresh table. -/
def applyTOps (ncols : Nat) (ops : List TOp) : TableM :=
  ops.foldl applyTOp (table0 ncols)

/-! ## Abstraction and invariants for the index

The tree is abstracted to its in-order list of key/offset entries; the
well-formedness invariant records key bounds per subtree, the occupancy
window, balance (uniform height) and the parallel-array discipline of
leaves. -/

/-- In-order key/offset entries of a subtree: for a leaf its parallel
arrays zipped, for an internal node the concatenation over the
children. -/
def entries : BNode → List (Int × Int)
  | .leaf ks os => ks.zip os
  | .node _ cs => (cs.attach.map (fun c => entries c.1)).flatten
termination_by n => sizeOf n
decreasing_by
  have := List.sizeOf_lt_of_mem c.property
  simp only [BNode.node.sizeOf_spec]
  omega

/-- Keys of a subtree in order. -/
def treeKeys (n : BNode) : List Int := (entries n).map Prod.fst

/-- Association lookup with the not-found sentinel -1. -/
def lookupE : List (Int × Int) → Int → Int
  | [], _ => -1
  | (k0, o0) :: rest, k => if k0 = k then o0 else lookupE rest k

/-- Sorted insertion into an entry list (specification side). -/
def insE : List (Int × Int) → Int → Int → List (Int × Int)
  | [], k, off => [(k, off)]
  | (k0, o0) :: rest, k, off =>
    if k < k0 then (k, off) :: (k0, o0) :: rest else (k0, o0) :: insE rest k off

/-- Removal of the first entry with the given key (specification side). -/
def eraseE : List (Int × Int) → Int → List (Int × Int)
  | [], _ => []
  | (k0, o0) :: rest, k => if k0 = k then rest else (k0, o0) :: eraseE rest k

/-- Inclusive lower bound check against an optional bound. -/
def lbOK : Option Int → Int → Prop
  | none, _ => True
  | some x, k => x ≤ k

/-- Strict lower bound check against an optional bound. -/
def lbS : Option Int → Int → Prop
  | none, _ => True
  | some x, k => x < k

/-- Strict upper bound check against an optional bound. -/
def ubOK : Option Int → Int → Prop
  | none, _ => True
  | some y, k => k < y

instance (lo : Option Int) (k : Int) : Decidable (lbOK lo k) := by
  cases lo <;> simp only [lbOK] <;> infer_instance

instance (lo : Option Int) (k : Int) : Decidable (lbS lo k) := by
  cases lo <;> simp only [lbS] <;> infer_instance

instance (hi : Option Int) (k : Int) : Decidable (ubOK hi k) := by
  cases hi <;> simp only [ubOK] <;> infer_instance

/-- Well-formedness of a leaf: occupancy window, parallel arrays of the
same length, strictly ascending keys, keys within the bounds. -/
def leafWF (m : Nat) (lo hi : Option Int) (ks os : List Int) : Prop :=
  m ≤ ks.length ∧ ks.length ≤ MAX_KEYS ∧ ks.length = os.length ∧
    ks.Pairwise (· < ·) ∧ ∀ k ∈ ks, lbOK lo k ∧ ubOK hi k

/-- A chain of children interleaved with separator keys: every key of
child i lies in the half-open interval between the separators around it
(inclusive below, strict above). -/
def chainWF (P : Option Int → Option Int → BNode → Prop) :
    Option Int → Option Int → List Int → List BNode → Prop
  | lo, hi, [], [c] => P lo hi c
  | _, _, [], [] => False
  | _, _, [], _ :: _ :: _ => False
  | lo, hi, k :: ks, c :: cs => P lo (some k) c ∧ chainWF P (some k) hi ks cs
  | _, _, _ :: _, [] => False

/-- Well-formedness of a subtree of height h with minimum occupancy m
(0 at the root, MIN_KEYS below it) and key bounds lo/hi. -/
def WFN : Nat → Nat → Option Int → Option Int → BNode → Prop
  | m, 0, lo, hi, .leaf ks os => leafWF m lo hi ks os
  | _, 0, _, _, .node _ _ => False
  | _, _ + 1, _, _, .leaf _ _ => False
  | m, h + 1, lo, hi, .node ks cs =>
    m ≤ ks.length ∧ ks.length ≤ MAX_KEYS ∧ chainWF (WFN MIN_KEYS h) lo hi ks cs
termination_by _ h => h

/-- Well-formedness of a tree. -/
def WF (t : BPlusTree) : Prop := ∃ h, WFN 0 h none none t.root

/-- Occupancy discipline of every node strictly below the root: between
MIN_KEYS and MAX_KEYS keys, and an internal node with j keys has exactly
j + 1 children. -/
def occOK : BNode → Prop
  | .leaf ks _ => MIN_KEYS ≤ ks.length ∧ ks.length ≤ MAX_KEYS
  | .node ks cs => MIN_KEYS ≤ ks.length ∧ ks.length ≤ MAX_KEYS ∧
      cs.length = ks.length + 1 ∧ ∀ c ∈ cs.attach, occOK c.1
termination_by n => sizeOf n
decreasing_by
  have := List.sizeOf_lt_of_mem c.property
  simp only [BNode.node.sizeOf_spec]
  omega

/-- Occupancy discipline seen from the root: the root is exempt from the
minimum, its strict descendants are not. -/
def rootOccOK : BNode → Prop
  | .leaf ks _ => ks.length ≤ MAX_KEYS
  | .node ks cs => ks.length ≤ MAX_KEYS ∧ cs.length = ks.length + 1 ∧
      ∀ c ∈ cs, occOK c

/-- Keys along the leaf chain, from the leftmost leaf following the next
pointers.  The C code keeps the chain identical to the in-order sequence
of leaves: a split links the new leaf immediately after the split one
(insert_key lines 198-200) and a merge unlinks the absorbed right leaf
(merge_nodes lines 623-625), so the chain is represented by the in-order
traversal of the leaves. -/
def leafChainKeys : BNode → List Int
  | .leaf ks _ => ks
  | .node _ cs => (cs.attach.map (fun c => leafChainKeys c.1)).flatten
termination_by n => sizeOf n
decreasing_by
  have := List.sizeOf_lt_of_mem c.property
  simp only [BNode.node.sizeOf_spec]
  omega

/-- Outcome specification of insertRec: an in-place update keeps the
bounds and inserts the entry; a split yields two well-formed halves
around a separator strictly inside the bounds. -/
def insOK (m h : Nat) (lo hi : Option Int) (n : BNode) (k off : Int) : Prop :=
  match insertRec n k off with
  | .one n' => WFN m h lo hi n' ∧ entries n' = insE (entries n) k off
  | .split l sep r =>
      WFN MIN_KEYS h lo (some sep) l ∧ WFN MIN_KEYS h (some sep) hi r ∧
      lbS lo sep ∧ ubOK hi sep ∧
      entries l ++ entries r = insE (entries n) k off

/-! ## Index operation sequences (for the sequence-level claims) -/

/-- An index operation. -/
inductive IOp where
  | insert (k off : Int)
  | del (k : Int)

/-- The key an operation concerns. -/
def opKey : IOp → Int
  | .insert k _ => k
  | .del k => k

/-- Apply one index operation. -/
def applyIOp (t : BPlusTree) : IOp → BPlusTree
  | .insert k off => insert_key t k off
  | .del k => delete_key t k

/-- The tree reached from initialize_tree by a sequence of operations. -/
def applyIOps (ops : List IOp) : BPlusTree := ops.foldl applyIOp initialize_tree

/-- The most recent operation concerning a key. -/
def lastEvent (ops : List IOp) (k : Int) : Option IOp :=
  ops.reverse.find? (fun op => opKey op == k)

/-- The result the specification demands of search after a sequence of
operations: the offset of the most recent insert of the key not followed
by a delete of it, and -1 otherwise. -/
def specResult (ops : List IOp) (k : Int) : Int :=
  match lastEvent ops k with
  | some (.insert _ off) => off
  | _ => -1

/-- The association list produced by replaying the operations
abstractly. -/
def specStep (m : List (Int × Int)) : IOp → List (Int × Int)
  | .insert k off => insE m k off
  | .del k => eraseE m k

/-- Abstract replay of a sequence. -/
def specMap (ops : List IOp) : List (Int × Int) := ops.foldl specStep []

/-- Validity of a sequence from an abstract state: an insert never hits a
key that is already present (the duplicate-key precondition of the
claims). -/
def validFrom (m : List (Int × Int)) : List IOp → Prop
  | [] => True
  | .insert k off :: rest => k ∉ m.map Prod.fst ∧ validFrom (insE m k off) rest
  | .del k :: rest => validFrom (eraseE m k) rest

instance : ∀ (m : List (Int × Int)) (ops : List IOp), Decidable (validFrom m ops)
  | _, [] => .isTrue trivial
  | m, .insert k off :: rest =>
    have : Decidable (validFrom (insE m k off) rest) := instDecidableValidFrom _ _
    decidable_of_iff (k ∉ m.map Prod.fst ∧ validFrom (insE m k off) rest) Iff.rfl
  | m, .del k :: rest =>
    have : Decidable (validFrom (eraseE m k) rest) := instDecidableValidFrom _ _
    decidable_of_iff (validFrom (eraseE m k) rest) Iff.rfl

/-- Validity of a sequence started on the empty index. -/
def ValidOps (ops : List IOp) : Prop := validFrom [] ops

instance (ops : List IOp) : Decidable (ValidOps ops) :=
  decidable_of_iff (validFrom [] ops) Iff.rfl

/-! ## Basic facts about the abstraction -/

theorem entries_leaf (ks os : List Int) : entries (.leaf ks os) = ks.zip os := by
  simp [entries]

theorem entries_node (ks : List Int) (cs : List BNode) :
    entries (.node ks cs) = (cs.map entries).flatten := by
  rw [entries]
  congr 1
  exact List.attach_map_coe _ _

theorem leafChainKeys_leaf (ks os : List Int) : leafChainKeys (.leaf ks os) = ks := by
  simp [leafChainKeys]

theorem leafChainKeys_node (ks : List Int) (cs : List BNode) :
    leafChainKeys (.node ks cs) = (cs.map leafChainKeys).flatten := by
  rw [leafChainKeys]
  congr 1
  exact List.attach_map_coe _ _

theorem childIndex_nil (k : Int) : childIndex [] k = 0 := rfl

theorem childIndex_cons (k0 : Int) (ks : List Int) (k : Int) :
    childIndex (k0 :: ks) k = if k0 ≤ k then childIndex ks k + 1 else 0 := by
  simp only [childIndex, List.takeWhile_cons]
  split
  · next hle =>
    rw [if_pos (of_decide_eq_true hle)]
    rfl
  · next hle =>
    rw [if_neg (fun hc => hle (decide_eq_true hc))]
    rfl

theorem childIndex_le_length (ks : List Int) (k : Int) : childIndex ks k ≤ ks.length :=
  le_trans (List.length_le_of_sublist (List.takeWhile_sublist _)) (le_refl _)

theorem lookupE_not_mem {A : List (Int × Int)} {k : Int} (h : ∀ p ∈ A, p.1 ≠ k) :
    lookupE A k = -1 := by
  induction A with
  | nil => rfl
  | cons p rest ih =>
    obtain ⟨k0, o0⟩ := p
    simp only [lookupE]
    rw [if_neg (h (k0, o0) (by simp))]
    exact ih (fun q hq => h q (by simp [hq]))

theorem lookupE_append_left {A B : List (Int × Int)} {k : Int} (h : ∀ p ∈ A, p.1 ≠ k) :
    lookupE (A ++ B) k = lookupE B k := by
  induction A with
  | nil => rfl
  | cons p rest ih =>
    obtain ⟨k0, o0⟩ := p
    simp only [List.cons_append, lookupE]
    rw [if_neg (h (k0, o0) (by simp))]
    exact ih (fun q hq => h q (by simp [hq]))

theorem insE_append_left {A B : List (Int × Int)} {k off : Int}
    (hA : ∀ p ∈ A, p.1 < k) : insE (A ++ B) k off = A ++ insE B k off := by
  induction A with
  | nil => rfl
  | cons q rest ih =>
    obtain ⟨k0, o0⟩ := q
    simp only [List.cons_append, insE]
    rw [if_neg (not_lt.2 (le_of_lt (hA (k0, o0) (by simp))))]
    show (k0, o0) :: insE (rest ++ B) k off = (k0, o0) :: (rest ++ insE B k off)
    rw [ih (fun p hp => hA p (by simp [hp]))]

theorem insE_all_gt {B : List (Int × Int)} {k off : Int}
    (hB : ∀ p ∈ B, k < p.1) : insE B k off = (k, off) :: B := by
  cases B with
  | nil => rfl
  | cons q rest =>
    obtain ⟨k0, o0⟩ := q
    simp only [insE]
    rw [if_pos (hB (k0, o0) (by simp))]

theorem insE_perm (l : List (Int × Int)) (k off : Int) :
    (insE l k off).Perm ((k, off) :: l) := by
  induction l with
  | nil => simp [insE]
  | cons q rest ih =>
    obtain ⟨k0, o0⟩ := q
    simp only [insE]
    split
    · exact List.Perm.refl _
    · exact ((ih.cons (k0, o0)).trans (List.Perm.swap _ _ _))

theorem mem_insE {l : List (Int × Int)} {k off : Int} {p : Int × Int} :
    p ∈ insE l k off ↔ p = (k, off) ∨ p ∈ l := by
  rw [(insE_perm l k off).mem_iff]
  simp

theorem insE_keys_sorted {l : List (Int × Int)} {k off : Int}
    (hs : (l.map Prod.fst).Pairwise (· < ·)) (hk : k ∉ l.map Prod.fst) :
    ((insE l k off).map Prod.fst).Pairwise (· < ·) := by
  induction l with
  | nil => simp [insE]
  | cons q rest ih =>
    obtain ⟨k0, o0⟩ := q
    simp only [List.map_cons, List.pairwise_cons] at hs
    simp only [List.map_cons, List.mem_cons, not_or] at hk
    simp only [insE]
    split
    · next hlt =>
      simp only [List.map_cons, List.pairwise_cons]
      refine ⟨?_, hs.1, hs.2⟩
      intro y hy
      rcases List.mem_cons.1 hy with rfl | hy2
      · exact hlt
      · exact lt_trans hlt (hs.1 y hy2)
    · next hlt =>
      have hk0 : k0 < k := lt_of_le_of_ne (not_lt.1 hlt) (Ne.symm hk.1)
      simp only [List.map_cons, List.pairwise_cons]
      constructor
      · intro y hy
        rcases List.mem_map.1 hy with ⟨p, hp, rfl⟩
        rcases mem_insE.1 hp with rfl | hmem
        · exact hk0
        · exact hs.1 p.1 (List.mem_map_of_mem Prod.fst hmem)
      · exact ih hs.2 hk.2

theorem lookupE_insE_self {l : List (Int × Int)} {k off : Int}
    (h : k ∉ l.map Prod.fst) : lookupE (insE l k off) k = off := by
  induction l with
  | nil => simp [insE, lookupE]
  | cons q rest ih =>
    obtain ⟨k0, o0⟩ := q
    simp only [List.map_cons, List.mem_cons, not_or] at h
    simp only [insE]
    split
    · simp [lookupE]
    · simp only [lookupE]
      rw [if_neg (fun hc => h.1 hc.symm), ih h.2]

theorem lookupE_insE_other {l : List (Int × Int)} {k off k2 : Int}
    (h : k2 ≠ k) : lookupE (insE l k off) k2 = lookupE l k2 := by
  induction l with
  | nil =>
    simp only [insE, lookupE]
    rw [if_neg (fun hc => h hc.symm)]
  | cons q rest ih =>
    obtain ⟨k0, o0⟩ := q
    simp only [insE]
    split
    · simp only [lookupE]
      rw [if_neg (fun hc => h hc.symm)]
    · simp only [lookupE]
      split
      · rfl
      · exact ih

theorem eraseE_sublist (l : List (Int × Int)) (k : Int) : (eraseE l k).Sublist l := by
  induction l with
  | nil => simp [eraseE]
  | cons q rest ih =>
    obtain ⟨k0, o0⟩ := q
    simp only [eraseE]
    split
    · exact (List.sublist_cons_self _ _)
    · exact ih.cons₂ _

theorem eraseE_not_mem {l : List (Int × Int)} {k : Int}
    (h : k ∉ l.map Prod.fst) : eraseE l k = l := by
  induction l with
  | nil => rfl
  | cons q rest ih =>
    obtain ⟨k0, o0⟩ := q
    simp only [List.map_cons, List.mem_cons, not_or] at h
    simp only [eraseE]
    rw [if_neg (fun hc => h.1 hc.symm), ih h.2]

theorem lookupE_eraseE_self {l : List (Int × Int)} {k : Int}
    (hnd : (l.map Prod.fst).Pairwise (· < ·)) : lookupE (eraseE l k) k = -1 := by
  induction l with
  | nil => rfl
  | cons q rest ih =>
    obtain ⟨k0, o0⟩ := q
    simp only [List.map_cons, List.pairwise_cons] at hnd
    simp only [eraseE]
    split
    · next he =>
      subst he
      exact lookupE_not_mem (fun p hp => by
        rcases List.mem_map.1 (List.mem_map_of_mem Prod.fst hp) with _
        exact ne_of_gt (hnd.1 p.1 (List.mem_map_of_mem Prod.fst hp)))
    · next he =>
      simp only [lookupE]
      rw [if_neg he]
      exact ih hnd.2

theorem lookupE_eraseE_other {l : List (Int × Int)} {k k2 : Int}
    (h : k2 ≠ k) : lookupE (eraseE l k) k2 = lookupE l k2 := by
  induction l with
  | nil => rfl
  | cons q rest ih =>
    obtain ⟨k0, o0⟩ := q
    simp only [eraseE]
    split
    · next he =>
      subst he
      simp only [lookupE]
      rw [if_neg (fun hc => h hc.symm)]
    · simp only [lookupE]
      split
      · rfl
      · exact ih

theorem eraseE_append_left {A B : List (Int × Int)} {k : Int}
    (h : ∀ p ∈ A, p.1 ≠ k) : eraseE (A ++ B) k = A ++ eraseE B k := by
  induction A with
  | nil => rfl
  | cons q rest ih =>
    obtain ⟨k0, o0⟩ := q
    simp only [List.cons_append, eraseE]
    rw [if_neg (h (k0, o0) (by simp))]
    show (k0, o0) :: eraseE (rest ++ B) k = (k0, o0) :: (rest ++ eraseE B k)
    rw [ih (fun p hp => h p (by simp [hp]))]

theorem eraseE_append_right {B C : List (Int × Int)} {k : Int}
    (h : ∀ p ∈ C, p.1 ≠ k) : eraseE (B ++ C) k = eraseE B k ++ C := by
  induction B with
  | nil =>
    simp only [List.nil_append, eraseE]
    exact eraseE_not_mem (fun hc => by
      rcases List.mem_map.1 hc with ⟨p, hp, rfl⟩
      exact h p hp rfl)
  | cons q rest ih =>
    obtain ⟨k0, o0⟩ := q
    simp only [List.cons_append, eraseE]
    split
    · rfl
    · show (k0, o0) :: eraseE (rest ++ C) k = (k0, o0) :: (eraseE rest k ++ C)
      rw [ih]

theorem leafLookup_eq_lookupE (ks os : List Int) (k : Int) :
    leafLookup ks os k = lookupE (ks.zip os) k := by
  induction ks generalizing os with
  | nil => cases os <;> rfl
  | cons k0 ks ih =>
    cases os with
    | nil => rfl
    | cons o0 os =>
      simp only [leafLookup, List.zip_cons_cons, lookupE]
      split
      · rfl
      · exact ih os

/-! ## Structural facts about the invariant -/

theorem chainWF_length {P : Option Int → Option Int → BNode → Prop} :
    ∀ {lo hi : Option Int} {ks : List Int} {cs : List BNode},
      chainWF P lo hi ks cs → cs.length = ks.length + 1 := by
  intro lo hi ks
  induction ks generalizing lo with
  | nil =>
    intro cs h
    match cs with
    | [] => exact absurd h (by simp [chainWF])
    | [c] => rfl
    | _ :: _ :: _ => exact absurd h (by simp [chainWF])
  | cons k0 ks ih =>
    intro cs h
    match cs with
    | [] => exact absurd h (by simp [chainWF])
    | c :: cs' =>
      simp only [chainWF] at h
      simp only [List.length_cons, ih h.2]

theorem WFN_leaf_iff {m : Nat} {lo hi : Option Int} {ks os : List Int} :
    WFN m 0 lo hi (.leaf ks os) ↔ leafWF m lo hi ks os := by
  simp [WFN]

theorem WFN_node_iff {m h : Nat} {lo hi : Option Int} {ks : List Int} {cs : List BNode} :
    WFN m (h + 1) lo hi (.node ks cs) ↔
      m ≤ ks.length ∧ ks.length ≤ MAX_KEYS ∧ chainWF (WFN MIN_KEYS h) lo hi ks cs := by
  simp [WFN]

theorem WFN_not_node_zero {m : Nat} {lo hi : Option Int} {ks : List Int} {cs : List BNode} :
    ¬ WFN m 0 lo hi (.node ks cs) := by
  simp [WFN]

theorem WFN_not_leaf_succ {m h : Nat} {lo hi : Option Int} {ks os : List Int} :
    ¬ WFN m (h + 1) lo hi (.leaf ks os) := by
  simp [WFN]

theorem WFN_mono {m m2 h : Nat} {lo hi : Option Int} {n : BNode}
    (hw : WFN m h lo hi n) (hle : m2 ≤ m) : WFN m2 h lo hi n := by
  match h, n with
  | 0, .leaf ks os =>
    rw [WFN_leaf_iff] at hw ⊢
    exact ⟨le_trans hle hw.1, hw.2⟩
  | 0, .node ks cs => exact absurd hw WFN_not_node_zero
  | h + 1, .leaf ks os => exact absurd hw WFN_not_leaf_succ
  | h + 1, .node ks cs =>
    rw [WFN_node_iff] at hw ⊢
    exact ⟨le_trans hle hw.1, hw.2⟩

theorem entries_ne_nil {h m : Nat} {lo hi : Option Int} {n : BNode}
    (hw : WFN m h lo hi n) (hm : 1 ≤ m) : entries n ≠ [] := by
  induction h generalizing m lo hi n with
  | zero =>
    match n with
    | .leaf ks os =>
      rw [WFN_leaf_iff] at hw
      obtain ⟨h1, _, h3, _⟩ := hw
      rw [entries_leaf]
      intro hc
      have := @List.length_zip _ _ ks os
      rw [hc] at this
      simp only [List.length_nil] at this
      omega
    | .node ks cs => exact absurd hw WFN_not_node_zero
  | succ h ih =>
    match n with
    | .leaf ks os => exact absurd hw WFN_not_leaf_succ
    | .node ks cs =>
      rw [WFN_node_iff] at hw
      obtain ⟨_, _, hch⟩ := hw
      rw [entries_node]
      match ks, cs, hch with
      | [], [c], hP =>
        have : entries c ≠ [] := ih hP (by norm_num [MIN_KEYS, MAX_KEYS])
        simp only [List.map_cons, List.map_nil, List.flatten]
        intro hc
        rw [List.append_eq_nil] at hc
        exact this hc.1
      | k0 :: ks', c :: cs', hch =>
        simp only [chainWF] at hch
        have : entries c ≠ [] := ih hch.1 (by norm_num [MIN_KEYS, MAX_KEYS])
        simp only [List.map_cons, List.flatten]
        intro hc
        rw [List.append_eq_nil] at hc
        exact this hc.1

theorem chain_join_ne_nil {h : Nat} {lo hi : Option Int} {ks : List Int} {cs : List BNode}
    (hch : chainWF (WFN MIN_KEYS h) lo hi ks cs) : (cs.map entries).flatten ≠ [] := by
  match ks, cs, hch with
  | [], [c], hP =>
    have : entries c ≠ [] := entries_ne_nil hP (by norm_num [MIN_KEYS, MAX_KEYS])
    simp only [List.map_cons, List.map_nil, List.flatten_cons, List.flatten_nil,
      List.append_nil]
    exact this
  | k0 :: ks', c :: cs', hch =>
    simp only [chainWF] at hch
    have : entries c ≠ [] := entries_ne_nil hch.1 (by norm_num [MIN_KEYS, MAX_KEYS])
    simp only [List.map_cons, List.flatten_cons]
    intro hc
    rw [List.append_eq_nil] at hc
    exact this hc.1

theorem entries_bounds {h m : Nat} {lo hi : Option Int} {n : BNode}
    (hw : WFN m h lo hi n) : ∀ p ∈ entries n, lbOK lo p.1 ∧ ubOK hi p.1 := by
  induction h generalizing m lo hi n with
  | zero =>
    match n with
    | .leaf ks os =>
      rw [WFN_leaf_iff] at hw
      rw [entries_leaf]
      intro p hp
      have hp1 : p.1 ∈ ks := by
        obtain ⟨a, b⟩ := p
        exact (List.mem_zip hp).1
      exact hw.2.2.2.2 p.1 hp1
    | .node ks cs => exact absurd hw WFN_not_node_zero
  | succ h ih =>
    match n with
    | .leaf ks os => exact absurd hw WFN_not_leaf_succ
    | .node ks cs =>
      rw [WFN_node_iff] at hw
      obtain ⟨_, _, hch⟩ := hw
      rw [entries_node]
      clear * - hch ih
      induction ks generalizing lo cs with
      | nil =>
        match cs, hch with
        | [c], hP =>
          simp only [List.map_cons, List.map_nil, List.flatten_cons, List.flatten_nil,
            List.append_nil]
          exact ih hP
      | cons k0 ks' ihk =>
        match cs, hch with
        | c :: cs', hch =>
          simp only [chainWF] at hch
          simp only [List.map_cons, List.flatten_cons]
          intro p hp
          rcases List.mem_append.1 hp with hp1 | hp2
          · have hpc := ih hch.1 p hp1
            refine ⟨hpc.1, ?_⟩
            have hupper : p.1 < k0 := hpc.2
            cases hi with
            | none => trivial
            | some y =>
              have hne := chain_join_ne_nil hch.2
              match he : (cs'.map entries).flatten, hne with
              | q :: _, _ =>
                have hq := ihk cs' hch.2 q (by rw [he]; simp)
                have h2 : k0 ≤ q.1 := hq.1
                have h3 : q.1 < y := hq.2
                show p.1 < y
                omega
          · have hpt := ihk cs' hch.2 p hp2
            refine ⟨?_, hpt.2⟩
            cases lo with
            | none => trivial
            | some a =>
              have hne : entries c ≠ [] := entries_ne_nil hch.1 (by norm_num [MIN_KEYS, MAX_KEYS])
              match he : entries c, hne with
              | q :: _, _ =>
                have hq := ih hch.1 q (by rw [he]; simp)
                have h2 : k0 ≤ p.1 := hpt.1
                have h3 : a ≤ q.1 := hq.1
                have h4 : q.1 < k0 := hq.2
                show a ≤ p.1
                omega

theorem lookupE_append_right {X B : List (Int × Int)} {k : Int}
    (h : ∀ p ∈ B, p.1 ≠ k) : lookupE (X ++ B) k = lookupE X k := by
  induction X with
  | nil =>
    simp only [List.nil_append]
    rw [lookupE_not_mem h]
    rfl
  | cons q rest ih =>
    obtain ⟨k0, o0⟩ := q
    simp only [List.cons_append, lookupE]
    split
    · rfl
    · exact ih

theorem chain_entries_bounds {h : Nat} {hi : Option Int} :
    ∀ {lo : Option Int} {ks : List Int} {cs : List BNode},
      chainWF (WFN MIN_KEYS h) lo hi ks cs →
      ∀ p ∈ (cs.map entries).flatten, lbOK lo p.1 ∧ ubOK hi p.1 := by
  intro lo ks
  induction ks generalizing lo with
  | nil =>
    intro cs hch
    match cs, hch with
    | [c], hP =>
      simp only [List.map_cons, List.map_nil, List.flatten_cons, List.flatten_nil,
        List.append_nil]
      exact entries_bounds hP
  | cons k0 ks' ihk =>
    intro cs hch
    match cs, hch with
    | c :: cs', hch =>
      simp only [chainWF] at hch
      simp only [List.map_cons, List.flatten_cons]
      intro p hp
      rcases List.mem_append.1 hp with hp1 | hp2
      · have hpc := entries_bounds hch.1 p hp1
        refine ⟨hpc.1, ?_⟩
        cases hi with
        | none => trivial
        | some y =>
          have hne := chain_join_ne_nil hch.2
          match he : (cs'.map entries).flatten, hne with
          | q :: _, _ =>
            have hq := ihk hch.2 q (by rw [he]; simp)
            have h2 : k0 ≤ q.1 := hq.1
            have h3 : q.1 < y := hq.2
            have h4 : p.1 < k0 := hpc.2
            show p.1 < y
            omega
      · have hpt := ihk hch.2 p hp2
        refine ⟨?_, hpt.2⟩
        cases lo with
        | none => trivial
        | some a =>
          have hne : entries c ≠ [] := entries_ne_nil hch.1 (by norm_num [MIN_KEYS, MAX_KEYS])
          match he : entries c, hne with
          | q :: _, _ =>
            have hq := entries_bounds hch.1 q (by rw [he]; simp)
            have h2 : k0 ≤ p.1 := hpt.1
            have h3 : a ≤ q.1 := hq.1
            have h4 : q.1 < k0 := hq.2
            show a ≤ p.1
            omega

theorem entries_sorted {h m : Nat} {lo hi : Option Int} {n : BNode}
    (hw : WFN m h lo hi n) : ((entries n).map Prod.fst).Pairwise (· < ·) := by
  induction h generalizing m lo hi n with
  | zero =>
    match n with
    | .leaf ks os =>
      rw [WFN_leaf_iff] at hw
      rw [entries_leaf, List.map_fst_zip ks os (le_of_eq hw.2.2.1)]
      exact hw.2.2.2.1
    | .node ks cs => exact absurd hw WFN_not_node_zero
  | succ h ih =>
    match n with
    | .leaf ks os => exact absurd hw WFN_not_leaf_succ
    | .node ks cs =>
      rw [WFN_node_iff] at hw
      obtain ⟨_, _, hch⟩ := hw
      rw [entries_node]
      clear * - hch ih
      induction ks generalizing lo cs with
      | nil =>
        match cs, hch with
        | [c], hP =>
          simp only [List.map_cons, List.map_nil, List.flatten_cons, List.flatten_nil,
            List.append_nil]
          exact ih hP
      | cons k0 ks' ihk =>
        match cs, hch with
        | c :: cs', hch =>
          simp only [chainWF] at hch
          simp only [List.map_cons, List.flatten_cons, List.map_append]
          rw [List.pairwise_append]
          refine ⟨ih hch.1, ihk cs' hch.2, ?_⟩
          intro a ha b hb
          rcases List.mem_map.1 ha with ⟨p, hp, rfl⟩
          rcases List.mem_map.1 hb with ⟨q, hq, rfl⟩
          have h1 : p.1 < k0 := (entries_bounds hch.1 p hp).2
          have h2 : k0 ≤ q.1 := (chain_entries_bounds hch.2 q hq).1
          omega

theorem chain_nav {h : Nat} {k : Int} {hi : Option Int} :
    ∀ {lo : Option Int} {ks : List Int} {cs : List BNode},
      chainWF (WFN MIN_KEYS h) lo hi ks cs → lbOK lo k → ubOK hi k →
      ∃ c lo2 hi2 A B,
        cs[childIndex ks k]? = some c ∧
        WFN MIN_KEYS h lo2 hi2 c ∧ lbOK lo2 k ∧ ubOK hi2 k ∧
        (cs.map entries).flatten = A ++ entries c ++ B ∧
        (∀ p ∈ A, p.1 < k) ∧ (∀ p ∈ B, k < p.1) := by
  intro lo ks
  induction ks generalizing lo with
  | nil =>
    intro cs hch hlo hhi
    match cs, hch with
    | [c], hP =>
      refine ⟨c, lo, hi, [], [], ?_, hP, hlo, hhi, ?_, by simp, by simp⟩
      · rfl
      · simp
  | cons k0 ks' ihk =>
    intro cs hch hlo hhi
    match cs, hch with
    | c :: cs', hch =>
      simp only [chainWF] at hch
      by_cases hk0 : k0 ≤ k
      · obtain ⟨c2, lo2, hi2, A, B, hget, hwf2, hlo2, hhi2, hent, hA, hB⟩ :=
          ihk hch.2 (by exact hk0) hhi
        refine ⟨c2, lo2, hi2, entries c ++ A, B, ?_, hwf2, hlo2, hhi2, ?_, ?_, hB⟩
        · rw [childIndex_cons, if_pos hk0]
          simpa using hget
        · simp only [List.map_cons, List.flatten_cons, hent]
          simp [List.append_assoc]
        · intro p hp
          rcases List.mem_append.1 hp with hp1 | hp2
          · have := (entries_bounds hch.1 p hp1).2
            have h2 : p.1 < k0 := this
            omega
          · exact hA p hp2
      · refine ⟨c, lo, some k0, [], (cs'.map entries).flatten, ?_, hch.1, hlo,
          ?_, ?_, by simp, ?_⟩
        · rw [childIndex_cons, if_neg hk0]
          simp
        · show k < k0
          omega
        · simp [List.map_cons, List.flatten_cons]
        · intro p hp
          have := (chain_entries_bounds hch.2 p hp).1
          have h2 : k0 ≤ p.1 := this
          show k < p.1
          omega

theorem find_leaf_ok {h m : Nat} {lo hi : Option Int} {n : BNode} {k : Int}
    (hw : WFN m h lo hi n) (hlo : lbOK lo k) (hhi : ubOK hi k) :
    ∃ ks os A B, find_leaf_node n k = some (ks, os) ∧ ks.length = os.length ∧
      entries n = A ++ ks.zip os ++ B ∧
      (∀ p ∈ A, p.1 < k) ∧ (∀ p ∈ B, k < p.1) := by
  induction h generalizing m lo hi n with
  | zero =>
    match n with
    | .leaf ks os =>
      rw [WFN_leaf_iff] at hw
      exact ⟨ks, os, [], [], by rw [find_leaf_node], hw.2.2.1, by simp [entries_leaf],
        by simp, by simp⟩
    | .node ks cs => exact absurd hw WFN_not_node_zero
  | succ h ih =>
    match n with
    | .leaf ks os => exact absurd hw WFN_not_leaf_succ
    | .node ks cs =>
      rw [WFN_node_iff] at hw
      obtain ⟨_, _, hch⟩ := hw
      obtain ⟨c, lo2, hi2, A, B, hget, hwf2, hlo2, hhi2, hent, hA, hB⟩ :=
        chain_nav hch hlo hhi
      obtain ⟨ks2, os2, A2, B2, hf, hlen, hent2, hA2, hB2⟩ := ih hwf2 hlo2 hhi2
      obtain ⟨hlt, hgeq⟩ := List.getElem?_eq_some_iff.1 hget
      refine ⟨ks2, os2, A ++ A2, B2 ++ B, ?_, hlen, ?_, ?_, ?_⟩
      · rw [find_leaf_node, dif_pos hlt, hgeq, hf]
      · rw [entries_node, hent, hent2]
        simp [List.append_assoc]
      · intro p hp
        rcases List.mem_append.1 hp with h1 | h2
        · exact hA p h1
        · exact hA2 p h2
      · intro p hp
        rcases List.mem_append.1 hp with h1 | h2
        · exact hB2 p h1
        · exact hB p h2

theorem search_key_entries {t : BPlusTree} {k : Int} (hw : WF t) :
    search_key t k = lookupE (entries t.root) k := by
  obtain ⟨h, hw⟩ := hw
  obtain ⟨ks, os, A, B, hf, hlen, hent, hA, hB⟩ := find_leaf_ok (k := k) hw trivial trivial
  simp only [search_key, hf]
  rw [hent, leafLookup_eq_lookupE, List.append_assoc,
    lookupE_append_left (fun p hp => ne_of_lt (hA p hp)),
    lookupE_append_right (fun p hp => ne_of_gt (hB p hp))]

/-! ## Insertion: positional lemmas -/

theorem zip_take_take : ∀ (l1 l2 : List Int) (n : Nat),
    (l1.take n).zip (l2.take n) = (l1.zip l2).take n := by
  intro l1
  induction l1 with
  | nil => intro l2 n; simp
  | cons a l1 ih =>
    intro l2 n
    cases l2 with
    | nil => simp
    | cons b l2 =>
      cases n with
      | zero => simp
      | succ n => simp [ih l2 n]

theorem zip_drop_drop : ∀ (l1 l2 : List Int) (n : Nat),
    (l1.drop n).zip (l2.drop n) = (l1.zip l2).drop n := by
  intro l1
  induction l1 with
  | nil => intro l2 n; simp
  | cons a l1 ih =>
    intro l2 n
    cases l2 with
    | nil => simp [List.zip_nil_right]
    | cons b l2 =>
      cases n with
      | zero => simp
      | succ n => simp [ih l2 n]

theorem takeWhile_append_last {p : Int → Bool} {a : Int} (hpa : ¬ p a = true) :
    ∀ (l : List Int), ((l ++ [a]).takeWhile p).length = (l.takeWhile p).length := by
  intro l
  induction l with
  | nil => simp [List.takeWhile, hpa]
  | cons b l ih =>
    simp only [List.cons_append, List.takeWhile_cons]
    split
    · simp [ih]
    · simp

theorem insPos_eq_mergePos {ks : List Int} {k : Int}
    (hs : ks.Pairwise (· < ·)) (hf : k ∉ ks) : insPos ks k = mergePos ks k := by
  induction ks with
  | nil => rfl
  | cons k0 ks ih =>
    simp only [List.pairwise_cons] at hs
    simp only [List.mem_cons, not_or] at hf
    by_cases hk0 : k0 < k
    · have h1 : insPos (k0 :: ks) k = insPos ks k + 1 := by
        simp only [insPos, List.reverse_cons, List.length_cons]
        rw [takeWhile_append_last (by simp [not_lt.2 (le_of_lt hk0)])]
        have hle := List.length_le_of_sublist
          (List.takeWhile_sublist (l := ks.reverse) (fun x => decide (k < x)))
        simp only [List.length_reverse] at hle
        omega
      have h2 : mergePos (k0 :: ks) k = mergePos ks k + 1 := by
        simp only [mergePos, List.takeWhile_cons]
        rw [if_pos (by simp [hk0])]
        simp
      rw [h1, h2, ih hs.2 hf.2]
    · have hka : k < k0 := lt_of_le_of_ne (not_lt.1 hk0) hf.1
      have hall : ∀ x ∈ k0 :: ks, k < x := by
        intro x hx
        rcases List.mem_cons.1 hx with rfl | hx2
        · exact hka
        · exact lt_trans hka (hs.1 x hx2)
      have h1 : insPos (k0 :: ks) k = 0 := by
        simp only [insPos]
        rw [List.takeWhile_eq_self_iff.mpr (by
          intro x hx
          simp only [decide_eq_true_eq]
          exact hall x (List.mem_reverse.1 hx))]
        simp
      have h2 : mergePos (k0 :: ks) k = 0 := by
        simp only [mergePos, List.takeWhile_cons]
        rw [if_neg (by simp [not_lt.2 (le_of_lt hka)])]
        rfl
      rw [h1, h2]

theorem mergePos_zip {ks os : List Int} {k off : Int}
    (hlen : ks.length = os.length) (hs : ks.Pairwise (· < ·)) (hf : k ∉ ks) :
    (ks.take (mergePos ks k) ++ k :: ks.drop (mergePos ks k)).zip
      (os.take (mergePos ks k) ++ off :: os.drop (mergePos ks k)) =
    insE (ks.zip os) k off := by
  induction ks generalizing os with
  | nil =>
    match os with
    | [] => rfl
  | cons k0 ks ih =>
    match os with
    | o0 :: os =>
      simp only [List.length_cons] at hlen
      simp only [List.pairwise_cons] at hs
      simp only [List.mem_cons, not_or] at hf
      by_cases hk0 : k0 < k
      · have h2 : mergePos (k0 :: ks) k = mergePos ks k + 1 := by
          simp only [mergePos, List.takeWhile_cons]
          rw [if_pos (by simp [hk0])]
          simp
        rw [h2]
        simp only [List.take_succ_cons, List.drop_succ_cons, List.cons_append,
          List.zip_cons_cons, insE]
        rw [if_neg (not_lt.2 (le_of_lt hk0))]
        rw [ih (by omega) hs.2 hf.2]
        rfl
      · have hka : k < k0 := lt_of_le_of_ne (not_lt.1 hk0) hf.1
        have h2 : mergePos (k0 :: ks) k = 0 := by
          simp only [mergePos, List.takeWhile_cons]
          rw [if_neg (by simp [not_lt.2 (le_of_lt hka)])]
          rfl
        rw [h2]
        simp only [List.take_zero, List.drop_zero, List.nil_append, List.zip_cons_cons, insE]
        rw [if_pos hka]
        rfl

theorem mergePos_le_length (ks : List Int) (k : Int) : mergePos ks k ≤ ks.length :=
  List.length_le_of_sublist (List.takeWhile_sublist _)

theorem WFN_sep_strict {h : Nat} {lo : Option Int} {s : Int} {c : BNode}
    (hw : WFN MIN_KEYS h lo (some s) c) : lbS lo s := by
  cases lo with
  | none => trivial
  | some x =>
    have hne := entries_ne_nil hw (by norm_num [MIN_KEYS, MAX_KEYS])
    match he : entries c, hne with
    | q :: _, _ =>
      have hq := entries_bounds hw q (by rw [he]; simp)
      have h1 : x ≤ q.1 := hq.1
      have h2 : q.1 < s := hq.2
      show x < s
      omega

theorem WFN_sep_ub {h : Nat} {hi : Option Int} {s : Int} {c : BNode}
    (hw : WFN MIN_KEYS h (some s) hi c) : ubOK hi s := by
  cases hi with
  | none => trivial
  | some y =>
    have hne := entries_ne_nil hw (by norm_num [MIN_KEYS, MAX_KEYS])
    match he : entries c, hne with
    | q :: _, _ =>
      have hq := entries_bounds hw q (by rw [he]; simp)
      have h1 : s ≤ q.1 := hq.1
      have h2 : q.1 < y := hq.2
      show s < y
      omega

theorem insE_append_right {B C : List (Int × Int)} {k off : Int}
    (hC : ∀ p ∈ C, k < p.1) : insE (B ++ C) k off = insE B k off ++ C := by
  induction B with
  | nil =>
    simp only [List.nil_append]
    rw [insE_all_gt hC]
    rfl
  | cons q rest ih =>
    obtain ⟨k0, o0⟩ := q
    simp only [List.cons_append, insE]
    split
    · rfl
    · show (k0, o0) :: insE (rest ++ C) k off = (k0, o0) :: (insE rest k off ++ C)
      rw [ih]

theorem chainWF_split {P : Option Int → Option Int → BNode → Prop} :
    ∀ {j : Nat} {lo hi : Option Int} {ks : List Int} {cs : List BNode},
      chainWF P lo hi ks cs → j < ks.length →
      chainWF P lo (some (ks.getD j 0)) (ks.take j) (cs.take (j + 1)) ∧
      chainWF P (some (ks.getD j 0)) hi (ks.drop (j + 1)) (cs.drop (j + 1)) := by
  intro j
  induction j with
  | zero =>
    intro lo hi ks cs hch hj
    match ks, cs, hch with
    | k0 :: ks', c0 :: cs', hch =>
      simp only [chainWF] at hch
      refine ⟨?_, ?_⟩
      · simp only [List.take_zero, List.take_succ_cons, List.take_zero, List.getD_cons_zero]
        simp only [chainWF]
        exact hch.1
      · simpa using hch.2
  | succ j ihj =>
    intro lo hi ks cs hch hj
    match ks, cs, hch with
    | k0 :: ks', c0 :: cs', hch =>
      simp only [chainWF] at hch
      simp only [List.length_cons] at hj
      have := ihj hch.2 (by omega)
      refine ⟨?_, ?_⟩
      · simp only [List.take_succ_cons, List.getD_cons_succ]
        simp only [chainWF]
        exact ⟨hch.1, this.1⟩
      · simpa using this.2

theorem chain_ins {h : Nat} {k off : Int} {hi : Option Int}
    (IH : ∀ {m : Nat} {lo hi : Option Int} {n : BNode}, WFN m h lo hi n →
      lbOK lo k → ubOK hi k → k ∉ (entries n).map Prod.fst → insOK m h lo hi n k off) :
    ∀ {lo : Option Int} {ks : List Int} {cs : List BNode},
      chainWF (WFN MIN_KEYS h) lo hi ks cs → lbOK lo k → ubOK hi k →
      k ∉ ((cs.map entries).flatten).map Prod.fst →
      ∃ c, cs[childIndex ks k]? = some c ∧
        (∀ c', insertRec c k off = .one c' →
          chainWF (WFN MIN_KEYS h) lo hi ks (cs.set (childIndex ks k) c') ∧
          ((cs.set (childIndex ks k) c').map entries).flatten =
            insE ((cs.map entries).flatten) k off) ∧
        (∀ l sep r, insertRec c k off = .split l sep r →
          chainWF (WFN MIN_KEYS h) lo hi
            (ks.take (childIndex ks k) ++ sep :: ks.drop (childIndex ks k))
            (cs.take (childIndex ks k) ++ l :: r :: cs.drop (childIndex ks k + 1)) ∧
          ((cs.take (childIndex ks k) ++ l :: r :: cs.drop (childIndex ks k + 1)).map
            entries).flatten = insE ((cs.map entries).flatten) k off) := by
  intro lo ks
  induction ks generalizing lo with
  | nil =>
    intro cs hch hlo hhi hfresh
    match cs, hch with
    | [c], hP =>
      refine ⟨c, by simp [childIndex_nil], ?_, ?_⟩
      · intro c' h1
        have hio := IH hP hlo hhi (by simpa using hfresh)
        simp only [insOK, h1] at hio
        refine ⟨?_, ?_⟩
        · simpa [childIndex_nil, chainWF] using hio.1
        · simp only [childIndex_nil, List.set_cons_zero, List.map_cons, List.map_nil,
            List.flatten_cons, List.flatten_nil, List.append_nil]
          exact hio.2
      · intro l sep r h1
        have hio := IH hP hlo hhi (by simpa using hfresh)
        simp only [insOK, h1] at hio
        refine ⟨?_, ?_⟩
        · simp only [childIndex_nil, List.take_zero, List.drop_zero, List.take_nil,
            List.drop_nil, List.nil_append, chainWF]
          exact ⟨hio.1, hio.2.1⟩
        · simp only [childIndex_nil, List.take_nil, List.drop_nil, List.nil_append,
            List.take_zero, List.drop_zero, List.map_cons, List.map_nil, List.flatten_cons,
            List.flatten_nil, List.append_nil]
          rw [← hio.2.2.2.2]
          simp
  | cons k0 ks' ihk =>
    intro cs hch hlo hhi hfresh
    match cs, hch with
    | c0 :: cs', hch =>
      simp only [chainWF] at hch
      have hfr : k ∉ (entries c0).map Prod.fst ∧
          k ∉ ((cs'.map entries).flatten).map Prod.fst := by
        simp only [List.map_cons, List.flatten_cons, List.map_append, List.mem_append] at hfresh
        exact ⟨fun hc => hfresh (Or.inl hc), fun hc => hfresh (Or.inr hc)⟩
      by_cases hk0 : k0 ≤ k
      · obtain ⟨c, hget, hone, hsplit⟩ := ihk hch.2 (show lbOK (some k0) k from hk0) hhi hfr.2
        have hlt_c0 : ∀ p ∈ entries c0, p.1 < k := by
          intro p hp
          have := (entries_bounds hch.1 p hp).2
          have h2 : p.1 < k0 := this
          omega
        refine ⟨c, ?_, ?_, ?_⟩
        · rw [childIndex_cons, if_pos hk0]
          simpa using hget
        · intro c' h1
          obtain ⟨hcha, hflat⟩ := hone c' h1
          rw [childIndex_cons, if_pos hk0]
          refine ⟨?_, ?_⟩
          · simp only [List.set_cons_succ, chainWF]
            exact ⟨hch.1, hcha⟩
          · simp only [List.set_cons_succ, List.map_cons, List.flatten_cons, hflat]
            rw [insE_append_left hlt_c0]
        · intro l sep r h1
          obtain ⟨hcha, hflat⟩ := hsplit l sep r h1
          rw [childIndex_cons, if_pos hk0]
          refine ⟨?_, ?_⟩
          · simp only [List.take_succ_cons, List.drop_succ_cons, List.cons_append, chainWF]
            exact ⟨hch.1, hcha⟩
          · simp only [List.take_succ_cons, List.drop_succ_cons, List.cons_append,
              List.map_cons, List.flatten_cons, hflat]
            rw [insE_append_left hlt_c0]
      · have hka : k < k0 := not_le.1 hk0
        have hgt_tail : ∀ p ∈ (cs'.map entries).flatten, k < p.1 := by
          intro p hp
          have := (chain_entries_bounds hch.2 p hp).1
          have h2 : k0 ≤ p.1 := this
          omega
        refine ⟨c0, ?_, ?_, ?_⟩
        · rw [childIndex_cons, if_neg hk0]
          simp
        · intro c' h1
          have hio := IH hch.1 hlo (show ubOK (some k0) k from hka) hfr.1
          simp only [insOK, h1] at hio
          rw [childIndex_cons, if_neg hk0]
          refine ⟨?_, ?_⟩
          · simp only [List.set_cons_zero, chainWF]
            exact ⟨hio.1, hch.2⟩
          · simp only [List.set_cons_zero, List.map_cons, List.flatten_cons, hio.2]
            rw [insE_append_right hgt_tail]
        · intro l sep r h1
          have hio := IH hch.1 hlo (show ubOK (some k0) k from hka) hfr.1
          simp only [insOK, h1] at hio
          rw [childIndex_cons, if_neg hk0]
          refine ⟨?_, ?_⟩
          · simp only [List.take_zero, List.drop_zero, List.nil_append, chainWF]
            exact ⟨hio.1, hio.2.1, hch.2⟩
          · simp only [List.take_zero, List.drop_zero, List.nil_append, List.map_cons,
              List.flatten_cons]
            rw [insE_append_right hgt_tail, ← hio.2.2.2.2]
            simp

theorem insertRec_wf (k off : Int) :
    ∀ (h : Nat) {m : Nat} {lo hi : Option Int} {n : BNode},
      WFN m h lo hi n → lbOK lo k → ubOK hi k →
      k ∉ (entries n).map Prod.fst → insOK m h lo hi n k off := by
  intro h
  induction h with
  | zero =>
    intro m lo hi n hw hlo hhi hfresh
    match n with
    | .node ks cs => exact absurd hw WFN_not_node_zero
    | .leaf ks os =>
      rw [WFN_leaf_iff] at hw
      obtain ⟨hm, hmax, hlen, hsort, hbnd⟩ := hw
      rw [entries_leaf, List.map_fst_zip ks os (le_of_eq hlen)] at hfresh
      have hzip := @mergePos_zip ks os k off hlen hsort hfresh
      have hple := mergePos_le_length ks k
      have htl : (ks.take (mergePos ks k) ++ k :: ks.drop (mergePos ks k)).length =
          ks.length + 1 := by
        simp only [List.length_append, List.length_take, List.length_cons, List.length_drop]
        omega
      have hol : (os.take (mergePos ks k) ++ off :: os.drop (mergePos ks k)).length =
          os.length + 1 := by
        simp only [List.length_append, List.length_take, List.length_cons, List.length_drop]
        omega
      have hmem : ∀ x ∈ ks.take (mergePos ks k) ++ k :: ks.drop (mergePos ks k),
          x = k ∨ x ∈ ks := by
        intro x hx
        rcases List.mem_append.1 hx with h1 | h2
        · exact Or.inr (List.mem_of_mem_take h1)
        · rcases List.mem_cons.1 h2 with rfl | h3
          · exact Or.inl rfl
          · exact Or.inr (List.mem_of_mem_drop h3)
      have hbnd2 : ∀ x ∈ ks.take (mergePos ks k) ++ k :: ks.drop (mergePos ks k),
          lbOK lo x ∧ ubOK hi x := by
        intro x hx
        rcases hmem x hx with rfl | h2
        · exact ⟨hlo, hhi⟩
        · exact hbnd x h2
      have hsort2 : (ks.take (mergePos ks k) ++ k :: ks.drop (mergePos ks k)).Pairwise
          (· < ·) := by
        have h1 : (insE (ks.zip os) k off).map Prod.fst =
            ks.take (mergePos ks k) ++ k :: ks.drop (mergePos ks k) := by
          rw [← hzip]
          exact List.map_fst_zip _ _ (by omega)
        have h2 := @insE_keys_sorted (ks.zip os) k off
          (by rw [List.map_fst_zip ks os (le_of_eq hlen)]; exact hsort)
          (by rw [List.map_fst_zip ks os (le_of_eq hlen)]; exact hfresh)
        rwa [h1] at h2
      simp only [insOK, insertRec]
      by_cases hroom : ks.length < MAX_KEYS
      · rw [if_pos hroom]
        simp only [insert_into_leaf, insPos_eq_mergePos hsort hfresh]
        refine ⟨?_, ?_⟩
        · rw [WFN_leaf_iff]
          exact ⟨by rw [htl]; omega, by rw [htl]; omega, by rw [htl, hol]; omega,
            hsort2, hbnd2⟩
        · rw [entries_leaf, entries_leaf, hzip]
      · rw [if_neg hroom]
        have hmax4 : ks.length = MAX_KEYS := by omega
        have hsp : (MAX_KEYS + 1) / 2 = 2 := by norm_num [MAX_KEYS]
        have hdl : ((ks.take (mergePos ks k) ++ k :: ks.drop (mergePos ks k)).drop
            ((MAX_KEYS + 1) / 2)).length = 3 := by
          simp only [List.length_drop, htl, hsp, hmax4]
          norm_num [MAX_KEYS]
        match hds : (ks.take (mergePos ks k) ++ k :: ks.drop (mergePos ks k)).drop
            ((MAX_KEYS + 1) / 2) with
        | [] => rw [hds] at hdl; simp at hdl
        | s :: rest =>
        have hpa : ((ks.take (mergePos ks k) ++ k :: ks.drop (mergePos ks k)).take
              ((MAX_KEYS + 1) / 2) ++
            (ks.take (mergePos ks k) ++ k :: ks.drop (mergePos ks k)).drop
              ((MAX_KEYS + 1) / 2)).Pairwise (· < ·) := by
          rw [List.take_append_drop]
          exact hsort2
        have hcross := (List.pairwise_append.1 hpa).2.2
        have hpwt := (List.pairwise_append.1 hpa).1
        have hpwd := (List.pairwise_append.1 hpa).2.1
        have hsmem : s ∈ ks.take (mergePos ks k) ++ k :: ks.drop (mergePos ks k) := by
          rw [← List.take_append_drop ((MAX_KEYS + 1) / 2)
            (ks.take (mergePos ks k) ++ k :: ks.drop (mergePos ks k))]
          rw [hds]
          exact List.mem_append.2 (Or.inr (by simp))
        have htkl : ((ks.take (mergePos ks k) ++ k :: ks.drop (mergePos ks k)).take
            ((MAX_KEYS + 1) / 2)).length = 2 := by
          simp only [List.length_take, htl, hsp, hmax4]
          norm_num [MAX_KEYS]
        have htkne : (ks.take (mergePos ks k) ++ k :: ks.drop (mergePos ks k)).take
            ((MAX_KEYS + 1) / 2) ≠ [] := by
          intro hc
          rw [hc] at htkl
          simp at htkl
        rw [hds] at hdl
        refine ⟨?_, ?_, ?_, ?_, ?_⟩
        · simp only [List.headD_cons]
          rw [WFN_leaf_iff]
          refine ⟨?_, ?_, ?_, hpwt, ?_⟩
          · rw [htkl]
            norm_num [MIN_KEYS, MAX_KEYS]
          · rw [htkl]
            norm_num [MAX_KEYS]
          · simp only [List.length_take, htl, hol]
            omega
          · intro x hx
            refine ⟨(hbnd2 x (List.mem_of_mem_take hx)).1, ?_⟩
            show x < s
            exact hcross x hx s (by rw [hds]; simp)
        · simp only [List.headD_cons]
          rw [WFN_leaf_iff]
          rw [hds] at hpwd
          refine ⟨?_, ?_, ?_, hpwd, ?_⟩
          · rw [hdl]
            norm_num [MIN_KEYS, MAX_KEYS]
          · rw [hdl]
            norm_num [MAX_KEYS]
          · rw [hdl]
            simp only [List.length_drop, hol, hsp]
            rw [← hlen, hmax4]
            norm_num [MAX_KEYS]
          · intro x hx
            refine ⟨?_, (hbnd2 x (by
              rw [← hds] at hx
              exact List.mem_of_mem_drop hx)).2⟩
            show s ≤ x
            rcases List.mem_cons.1 hx with rfl | h3
            · exact le_refl x
            · exact le_of_lt ((List.pairwise_cons.1 hpwd).1 x h3)
        · simp only [List.headD_cons]
          match htk : (ks.take (mergePos ks k) ++ k :: ks.drop (mergePos ks k)).take
              ((MAX_KEYS + 1) / 2), htkne with
          | t0 :: trest, _ =>
            have ht0 : t0 < s := hcross t0 (by rw [htk]; simp) s (by rw [hds]; simp)
            have ht0b := (hbnd2 t0 (List.mem_of_mem_take (by rw [htk]; simp))).1
            cases lo with
            | none => trivial
            | some a =>
              have ha : a ≤ t0 := ht0b
              show a < s
              omega
        · simp only [List.headD_cons]
          exact (hbnd2 s hsmem).2
        · rw [entries_leaf, entries_leaf, entries_leaf, ← hds]
          rw [zip_take_take, zip_drop_drop, List.take_append_drop, hzip]
  | succ h ih =>
    intro m lo hi n hw hlo hhi hfresh
    match n with
    | .leaf ks os => exact absurd hw WFN_not_leaf_succ
    | .node ks cs =>
      rw [WFN_node_iff] at hw
      obtain ⟨hm, hmax, hch⟩ := hw
      rw [entries_node] at hfresh
      obtain ⟨c, hget, hone, hsplit⟩ := chain_ins (fun hw2 a b c2 => ih hw2 a b c2)
        hch hlo hhi hfresh
      obtain ⟨hlt, hceq⟩ := List.getElem?_eq_some_iff.1 hget
      cases hres : insertRec c k off with
      | one c' =>
        have hmain : insertRec (.node ks cs) k off = .one (.node ks
            (cs.set (childIndex ks k) c')) := by
          simp only [insertRec]
          rw [dif_pos hlt, hceq, hres]
        obtain ⟨hcha, hflat⟩ := hone c' hres
        simp only [insOK, hmain]
        refine ⟨?_, ?_⟩
        · rw [WFN_node_iff]
          exact ⟨hm, hmax, hcha⟩
        · rw [entries_node, entries_node, hflat]
      | split l sep r =>
        obtain ⟨hcha, hflat⟩ := hsplit l sep r hres
        by_cases hroom : ks.length < MAX_KEYS
        · have hmain : insertRec (.node ks cs) k off = .one (.node
              (ks.take (childIndex ks k) ++ sep :: ks.drop (childIndex ks k))
              (cs.take (childIndex ks k) ++ l :: r :: cs.drop (childIndex ks k + 1))) := by
            simp only [insertRec]
            rw [dif_pos hlt, hceq, hres]
            simp only [if_pos hroom]
          simp only [insOK, hmain]
          refine ⟨?_, ?_⟩
          · rw [WFN_node_iff]
            have hil := childIndex_le_length ks k
            refine ⟨?_, ?_, hcha⟩
            · simp only [List.length_append, List.length_take, List.length_cons,
                List.length_drop]
              omega
            · simp only [List.length_append, List.length_take, List.length_cons,
                List.length_drop]
              omega
          · rw [entries_node, entries_node, hflat]
        · have hmax4 : ks.length = MAX_KEYS := by omega
          have hil := childIndex_le_length ks k
          have hnkl : (ks.take (childIndex ks k) ++ sep :: ks.drop (childIndex ks k)).length =
              MAX_KEYS + 1 := by
            simp only [List.length_append, List.length_take, List.length_cons,
              List.length_drop]
            omega
          have hmain : insertRec (.node ks cs) k off = .split
              (.node ((ks.take (childIndex ks k) ++ sep :: ks.drop (childIndex ks k)).take
                  (MAX_KEYS / 2))
                ((cs.take (childIndex ks k) ++ l :: r :: cs.drop (childIndex ks k + 1)).take
                  (MAX_KEYS / 2 + 1)))
              ((ks.take (childIndex ks k) ++ sep :: ks.drop (childIndex ks k)).getD
                (MAX_KEYS / 2) 0)
              (.node ((ks.take (childIndex ks k) ++ sep :: ks.drop (childIndex ks k)).drop
                  (MAX_KEYS / 2 + 1))
                ((cs.take (childIndex ks k) ++ l :: r :: cs.drop (childIndex ks k + 1)).drop
                  (MAX_KEYS / 2 + 1))) := by
            simp only [insertRec]
            rw [dif_pos hlt, hceq, hres]
            simp only [if_neg hroom]
          simp only [insOK, hmain]
          have hspl := chainWF_split (j := MAX_KEYS / 2) hcha (by
            rw [hnkl]
            norm_num [MAX_KEYS])
          have hncl := chainWF_length hcha
          refine ⟨?_, ?_, ?_, ?_, ?_⟩
          · rw [WFN_node_iff]
            refine ⟨?_, ?_, hspl.1⟩
            · simp only [List.length_take, hnkl]
              norm_num [MIN_KEYS, MAX_KEYS]
            · simp only [List.length_take, hnkl]
              norm_num [MAX_KEYS]
          · rw [WFN_node_iff]
            refine ⟨?_, ?_, hspl.2⟩
            · simp only [List.length_drop, hnkl]
              norm_num [MIN_KEYS, MAX_KEYS]
            · simp only [List.length_drop, hnkl]
              norm_num [MAX_KEYS]
          · have hne := chain_join_ne_nil hspl.1
            match hje : (((cs.take (childIndex ks k) ++ l :: r :: cs.drop
                (childIndex ks k + 1)).take (MAX_KEYS / 2 + 1)).map entries).flatten, hne with
            | q :: _, _ =>
              have hq := chain_entries_bounds hspl.1 q (by rw [hje]; simp)
              cases lo with
              | none => trivial
              | some a =>
                have h1 : a ≤ q.1 := hq.1
                have h2 : q.1 < _ := hq.2
                show a < _
                omega
          · have hne := chain_join_ne_nil hspl.2
            match hje : (((cs.take (childIndex ks k) ++ l :: r :: cs.drop
                (childIndex ks k + 1)).drop (MAX_KEYS / 2 + 1)).map entries).flatten, hne with
            | q :: _, _ =>
              have hq := chain_entries_bounds hspl.2 q (by rw [hje]; simp)
              cases hi with
              | none => trivial
              | some y =>
                have h1 : _ ≤ q.1 := hq.1
                have h2 : q.1 < y := hq.2
                show _ < y
                omega
          · rw [entries_node, entries_node, entries_node]
            rw [← List.flatten_append, ← List.map_append, List.take_append_drop]
            exact hflat

theorem insert_key_wf {t : BPlusTree} {k off : Int} (hw : WF t)
    (hfresh : k ∉ (entries t.root).map Prod.fst) :
    WF (insert_key t k off) ∧
      entries (insert_key t k off).root = insE (entries t.root) k off := by
  obtain ⟨root⟩ := t
  obtain ⟨h, hw⟩ := hw
  match root with
  | .leaf [] os =>
    constructor
    · refine ⟨0, ?_⟩
      show WFN 0 0 none none (.leaf [k] [off])
      rw [WFN_leaf_iff]
      refine ⟨by norm_num, by norm_num [MAX_KEYS], rfl, by simp, by simp [lbOK, ubOK]⟩
    · simp [insert_key, entries_leaf, insE]
  | .leaf (k0 :: ks) os =>
    have hio := insertRec_wf k off h hw trivial trivial hfresh
    have heq : insert_key ⟨.leaf (k0 :: ks) os⟩ k off =
        match insertRec (.leaf (k0 :: ks) os) k off with
        | .one n => ⟨n⟩
        | .split l sep r => ⟨.node [sep] [l, r]⟩ := rfl
    rw [heq]
    cases hres : insertRec (.leaf (k0 :: ks) os) k off with
    | one n =>
      simp only [insOK, hres] at hio
      exact ⟨⟨h, hio.1⟩, hio.2⟩
    | split l sep r =>
      simp only [insOK, hres] at hio
      constructor
      · refine ⟨h + 1, ?_⟩
        rw [WFN_node_iff]
        refine ⟨by norm_num, by norm_num [MAX_KEYS], ?_⟩
        simp only [chainWF]
        exact ⟨hio.1, hio.2.1⟩
      · rw [entries_node]
        simp only [List.map_cons, List.map_nil, List.flatten_cons, List.flatten_nil,
          List.append_nil]
        exact hio.2.2.2.2
  | .node ks cs =>
    have hio := insertRec_wf k off h hw trivial trivial hfresh
    have heq : insert_key ⟨.node ks cs⟩ k off =
        match insertRec (.node ks cs) k off with
        | .one n => ⟨n⟩
        | .split l sep r => ⟨.node [sep] [l, r]⟩ := rfl
    rw [heq]
    cases hres : insertRec (.node ks cs) k off with
    | one n =>
      simp only [insOK, hres] at hio
      exact ⟨⟨h, hio.1⟩, hio.2⟩
    | split l sep r =>
      simp only [insOK, hres] at hio
      constructor
      · refine ⟨h + 1, ?_⟩
        rw [WFN_node_iff]
        refine ⟨by norm_num, by norm_num [MAX_KEYS], ?_⟩
        simp only [chainWF]
        exact ⟨hio.1, hio.2.1⟩
      · rw [entries_node]
        simp only [List.map_cons, List.map_nil, List.flatten_cons, List.flatten_nil,
          List.append_nil]
        exact hio.2.2.2.2

theorem chainWF_mem {P : Option Int → Option Int → BNode → Prop} :
    ∀ {lo hi : Option Int} {ks : List Int} {cs : List BNode},
      chainWF P lo hi ks cs → ∀ c ∈ cs, ∃ lo2 hi2, P lo2 hi2 c := by
  intro lo hi ks
  induction ks generalizing lo with
  | nil =>
    intro cs hch
    match cs, hch with
    | [c0], hP =>
      intro c hc
      rcases List.mem_singleton.1 hc with rfl
      exact ⟨lo, hi, hP⟩
  | cons k0 ks' ihk =>
    intro cs hch
    match cs, hch with
    | c0 :: cs', hch =>
      simp only [chainWF] at hch
      intro c hc
      rcases List.mem_cons.1 hc with rfl | hc2
      · exact ⟨lo, some k0, hch.1⟩
      · exact ihk hch.2 c hc2

theorem occOK_node_iff {ks : List Int} {cs : List BNode} :
    occOK (.node ks cs) ↔ MIN_KEYS ≤ ks.length ∧ ks.length ≤ MAX_KEYS ∧
      cs.length = ks.length + 1 ∧ ∀ c ∈ cs, occOK c := by
  rw [occOK]
  refine and_congr_right (fun _ => and_congr_right (fun _ => and_congr_right (fun _ => ?_)))
  constructor
  · intro H c hc
    exact H ⟨c, hc⟩ (List.mem_attach _ _)
  · intro H c _
    exact H c.1 c.2

theorem WFN_occ {h : Nat} : ∀ {lo hi : Option Int} {n : BNode},
    WFN MIN_KEYS h lo hi n → occOK n := by
  induction h with
  | zero =>
    intro lo hi n hw
    match n with
    | .leaf ks os =>
      rw [WFN_leaf_iff] at hw
      rw [occOK]
      exact ⟨hw.1, hw.2.1⟩
    | .node ks cs => exact absurd hw WFN_not_node_zero
  | succ h ih =>
    intro lo hi n hw
    match n with
    | .leaf ks os => exact absurd hw WFN_not_leaf_succ
    | .node ks cs =>
      rw [WFN_node_iff] at hw
      rw [occOK_node_iff]
      refine ⟨hw.1, hw.2.1, chainWF_length hw.2.2, ?_⟩
      intro c hc
      obtain ⟨lo2, hi2, hP⟩ := chainWF_mem hw.2.2 c hc
      exact ih hP

theorem WF_rootOcc {t : BPlusTree} (hw : WF t) : rootOccOK t.root := by
  obtain ⟨root⟩ := t
  obtain ⟨h, hw⟩ := hw
  show rootOccOK root
  match h, root with
  | 0, .leaf ks os =>
    rw [WFN_leaf_iff] at hw
    rw [rootOccOK]
    exact hw.2.1
  | 0, .node ks cs => exact absurd hw WFN_not_node_zero
  | h + 1, .leaf ks os => exact absurd hw WFN_not_leaf_succ
  | h + 1, .node ks cs =>
    rw [WFN_node_iff] at hw
    rw [rootOccOK]
    refine ⟨hw.2.1, chainWF_length hw.2.2, ?_⟩
    intro c hc
    obtain ⟨lo2, hi2, hP⟩ := chainWF_mem hw.2.2 c hc
    exact WFN_occ hP

theorem leafChainKeys_eq {h m : Nat} : ∀ {lo hi : Option Int} {n : BNode},
    WFN m h lo hi n → leafChainKeys n = (entries n).map Prod.fst := by
  induction h generalizing m with
  | zero =>
    intro lo hi n hw
    match n with
    | .leaf ks os =>
      rw [WFN_leaf_iff] at hw
      rw [leafChainKeys_leaf, entries_leaf, List.map_fst_zip ks os (le_of_eq hw.2.2.1)]
    | .node ks cs => exact absurd hw WFN_not_node_zero
  | succ h ih =>
    intro lo hi n hw
    match n with
    | .leaf ks os => exact absurd hw WFN_not_leaf_succ
    | .node ks cs =>
      rw [WFN_node_iff] at hw
      rw [leafChainKeys_node, entries_node, List.map_flatten, List.map_map]
      congr 1
      apply List.map_congr_left
      intro c hc
      obtain ⟨lo2, hi2, hP⟩ := chainWF_mem hw.2.2 c hc
      exact ih hP

/-! ## Deletion: structural helpers -/

theorem WFN_numKeys {m h : Nat} {lo hi : Option Int} {n : BNode}
    (hw : WFN m h lo hi n) : m ≤ numKeys n ∧ numKeys n ≤ MAX_KEYS := by
  match h, n with
  | 0, .leaf ks os =>
    rw [WFN_leaf_iff] at hw
    exact ⟨hw.1, hw.2.1⟩
  | 0, .node ks cs => exact absurd hw WFN_not_node_zero
  | h + 1, .leaf ks os => exact absurd hw WFN_not_leaf_succ
  | h + 1, .node ks cs =>
    rw [WFN_node_iff] at hw
    exact ⟨hw.1, hw.2.1⟩

theorem WFN_strengthen {m m2 h : Nat} {lo hi : Option Int} {n : BNode}
    (hw : WFN m h lo hi n) (hle : m2 ≤ numKeys n) : WFN m2 h lo hi n := by
  match h, n with
  | 0, .leaf ks os =>
    rw [WFN_leaf_iff] at hw ⊢
    exact ⟨hle, hw.2⟩
  | 0, .node ks cs => exact absurd hw WFN_not_node_zero
  | h + 1, .leaf ks os => exact absurd hw WFN_not_leaf_succ
  | h + 1, .node ks cs =>
    rw [WFN_node_iff] at hw ⊢
    exact ⟨hle, hw.2⟩

theorem getLastD_congr {α : Type} (a b : α) :
    ∀ (l : List α), l ≠ [] → l.getLastD a = l.getLastD b
  | c :: l', _ => by rw [List.getLastD_cons, List.getLastD_cons]

theorem zip_snoc : ∀ (l1 l2 : List Int), l1.length = l2.length → l1 ≠ [] →
    (l1.dropLast.zip l2.dropLast) ++ [(l1.getLastD 0, l2.getLastD 0)] = l1.zip l2 := by
  intro l1
  induction l1 with
  | nil => intro l2 _ hne; exact absurd rfl hne
  | cons a l1' ih =>
    intro l2 hlen _
    match l2 with
    | b :: l2' =>
      match l1', l2' with
      | [], [] => rfl
      | [], _ :: _ => simp at hlen
      | _ :: _, [] => simp at hlen
      | a2 :: l1'', b2 :: l2'' =>
        have hlen' : (a2 :: l1'').length = (b2 :: l2'').length := by
          simpa using hlen
        have := ih (b2 :: l2'') hlen' (by simp)
        have e1 : (a :: a2 :: l1'').dropLast = a :: (a2 :: l1'').dropLast := rfl
        have e2 : (b :: b2 :: l2'').dropLast = b :: (b2 :: l2'').dropLast := rfl
        have e3 : (a :: a2 :: l1'').getLastD 0 = (a2 :: l1'').getLastD 0 := by
          rw [List.getLastD_cons]
          exact getLastD_congr a 0 _ (by simp)
        have e4 : (b :: b2 :: l2'').getLastD 0 = (b2 :: l2'').getLastD 0 := by
          rw [List.getLastD_cons]
          exact getLastD_congr b 0 _ (by simp)
        rw [e1, e2, e3, e4]
        simp only [List.zip_cons_cons, List.cons_append, List.cons.injEq, true_and]
        exact this

theorem chain_append {P : Option Int → Option Int → BNode → Prop} {hi : Option Int}
    {s : Int} {ks2 : List Int} {cs2 : List BNode} :
    ∀ {lo : Option Int} {ks1 : List Int} {cs1 : List BNode},
      chainWF P lo (some s) ks1 cs1 → chainWF P (some s) hi ks2 cs2 →
      chainWF P lo hi (ks1 ++ s :: ks2) (cs1 ++ cs2) := by
  intro lo ks1
  induction ks1 generalizing lo with
  | nil =>
    intro cs1 h1 h2
    match cs1, h1 with
    | [c], hP =>
      have hlen := chainWF_length h2
      cases cs2 with
      | nil => simp at hlen
      | cons c2 cs2' =>
        show chainWF P lo hi (s :: ks2) (c :: c2 :: cs2')
        exact ⟨hP, h2⟩
  | cons k0 ks1' ih =>
    intro cs1 h1 h2
    match cs1, h1 with
    | c :: cs1', h1 =>
      have h1' : P lo (some k0) c ∧ chainWF P (some k0) (some s) ks1' cs1' := h1
      have htail := ih h1'.2 h2
      have hlen := chainWF_length htail
      show chainWF P lo hi (k0 :: (ks1' ++ s :: ks2)) (c :: (cs1' ++ cs2))
      match hg : cs1' ++ cs2 with
      | [] => rw [hg] at hlen; simp at hlen
      | d :: ds =>
        rw [hg] at htail
        exact ⟨h1'.1, htail⟩

theorem chain_snoc_decomp {P : Option Int → Option Int → BNode → Prop} {hi : Option Int} :
    ∀ {lo : Option Int} {ks : List Int} {cs : List BNode},
      chainWF P lo hi ks cs → ks ≠ [] →
      chainWF P lo (some (ks.getLastD 0)) ks.dropLast cs.dropLast ∧
      P (some (ks.getLastD 0)) hi (cs.getLastD default) ∧
      cs.dropLast ++ [cs.getLastD default] = cs := by
  intro lo ks
  induction ks generalizing lo with
  | nil => intro cs _ hne; exact absurd rfl hne
  | cons k0 ks' ih =>
    intro cs hch _
    match cs, hch with
    | c :: cs', hch =>
      have hch' : P lo (some k0) c ∧ chainWF P (some k0) hi ks' cs' := hch
      match ks' with
      | [] =>
        match cs', hch'.2 with
        | [c2], hP2 =>
          refine ⟨?_, ?_, rfl⟩
          · show chainWF P lo (some k0) [] [c]
            exact hch'.1
          · show P (some k0) hi c2
            exact hP2
      | k1 :: ks'' =>
        obtain ⟨hc1, hc2, hc3⟩ := ih hch'.2 (by simp)
        have hcs' : cs' ≠ [] := by
          have := chainWF_length hch'.2
          intro hc; rw [hc] at this; simp at this
        have e1 : (k0 :: k1 :: ks'').getLastD 0 = (k1 :: ks'').getLastD 0 := by
          rw [List.getLastD_cons 0 k0 (k1 :: ks'')]
          exact getLastD_congr k0 0 (k1 :: ks'') (by simp)
        have e2 : (k0 :: k1 :: ks'').dropLast = k0 :: (k1 :: ks'').dropLast := rfl
        have e3 : (c :: cs').dropLast = c :: cs'.dropLast :=
          List.dropLast_cons_of_ne_nil hcs'
        have e4 : (c :: cs').getLastD default = cs'.getLastD default := by
          rw [List.getLastD_cons default c cs']
          exact getLastD_congr c default cs' hcs'
        rw [e1, e2, e3, e4]
        refine ⟨?_, hc2, ?_⟩
        · have hlen2 := chainWF_length hc1
          match hg : cs'.dropLast, hlen2 with
          | d :: ds, _ =>
            rw [hg] at hc1
            show chainWF P lo (some ((k1 :: ks'').getLastD 0))
              (k0 :: (k1 :: ks'').dropLast) (c :: d :: ds)
            exact ⟨hch'.1, hc1⟩
          | [], hlen2 => simp at hlen2
        · rw [List.cons_append, hc3]

theorem delPos_cons (k0 k : Int) (ks : List Int) :
    delPos (k0 :: ks) k = if k0 < k then delPos ks k + 1 else 0 := by
  simp only [delPos, List.takeWhile_cons]
  by_cases h : k0 < k
  · simp [h, Nat.add_comm]
  · simp [h]

theorem delete_from_leaf_nil (os : List Int) (k : Int) :
    delete_from_leaf [] os k = ([], os) := by
  simp only [delete_from_leaf, delPos, List.takeWhile_nil, List.length_nil]
  rw [if_neg (by simp)]

theorem delete_from_leaf_cons_lt {k0 k : Int} (h : k0 < k) (ks os : List Int) (o0 : Int) :
    delete_from_leaf (k0 :: ks) (o0 :: os) k =
      (k0 :: (delete_from_leaf ks os k).1, o0 :: (delete_from_leaf ks os k).2) := by
  simp only [delete_from_leaf, delPos_cons, if_pos h]
  by_cases hc : ks.getD (delPos ks k) (k + 1) = k
  · rw [List.getD_cons_succ, if_pos hc, if_pos hc]
    rfl
  · rw [List.getD_cons_succ, if_neg hc, if_neg hc]

theorem delete_from_leaf_cons_eq {k0 k : Int} (h : k0 = k) (ks os : List Int) (o0 : Int) :
    delete_from_leaf (k0 :: ks) (o0 :: os) k = (ks, os) := by
  have hnlt : ¬ k0 < k := by omega
  simp only [delete_from_leaf, delPos_cons, if_neg hnlt, List.getD_cons_zero]
  rw [if_pos h]
  rfl

theorem delete_from_leaf_cons_gt {k0 k : Int} (h : k < k0) (ks os : List Int) (o0 : Int) :
    delete_from_leaf (k0 :: ks) (o0 :: os) k = (k0 :: ks, o0 :: os) := by
  have hnlt : ¬ k0 < k := by omega
  simp only [delete_from_leaf, delPos_cons, if_neg hnlt, List.getD_cons_zero]
  rw [if_neg (by omega)]

theorem delete_from_leaf_spec {k : Int} : ∀ {ks os : List Int}, ks.length = os.length →
    ks.Pairwise (· < ·) →
    (delete_from_leaf ks os k).1.Sublist ks ∧
    (delete_from_leaf ks os k).2.Sublist os ∧
    (delete_from_leaf ks os k).1.length = (delete_from_leaf ks os k).2.length ∧
    ks.length - 1 ≤ (delete_from_leaf ks os k).1.length ∧
    (delete_from_leaf ks os k).1.zip (delete_from_leaf ks os k).2 =
      eraseE (ks.zip os) k := by
  intro ks
  induction ks with
  | nil =>
    intro os hlen _
    match os, hlen with
    | [], _ => rw [delete_from_leaf_nil]; exact ⟨.slnil, .slnil, rfl, by simp, rfl⟩
  | cons k0 ks' ih =>
    intro os hlen hsort
    match os with
    | o0 :: os' =>
      have hlen' : ks'.length = os'.length := by simpa using hlen
      rcases lt_trichotomy k0 k with hlt | heq | hgt
      · obtain ⟨s1, s2, s3, s4, s5⟩ := ih hlen' hsort.tail
        rw [delete_from_leaf_cons_lt hlt]
        refine ⟨s1.cons₂ k0, s2.cons₂ o0, by simpa using s3, by simp at s4 ⊢; omega, ?_⟩
        simp only [List.zip_cons_cons, eraseE]
        rw [if_neg (by omega), s5]
        rfl
      · rw [delete_from_leaf_cons_eq heq]
        refine ⟨(List.sublist_cons_self k0 ks'), (List.sublist_cons_self o0 os'),
          hlen', by simp, ?_⟩
        simp only [List.zip_cons_cons, eraseE]
        rw [if_pos heq]
        rfl
      · rw [delete_from_leaf_cons_gt hgt]
        refine ⟨List.Sublist.refl _, List.Sublist.refl _, hlen, by simp, ?_⟩
        simp only [List.zip_cons_cons, eraseE]
        rw [if_neg (by omega)]
        have hnm : eraseE (ks'.zip os') k = ks'.zip os' := by
          apply eraseE_not_mem
          intro hc
          rcases List.mem_map.1 hc with ⟨p, hp, hpk⟩
          have hm : p.1 ∈ ks' := by
            obtain ⟨a, b⟩ := p
            exact (List.of_mem_zip hp).1
          have := List.rel_of_pairwise_cons hsort hm
          omega
        show (k0, o0) :: ks'.zip os' = (k0, o0) :: eraseE (ks'.zip os') k
        rw [hnm]

theorem getLastD_eq_getLast {α : Type} (l : List α) (d : α) (h : l ≠ []) :
    l.getLastD d = l.getLast h := by
  match l with
  | a :: l' => rfl

theorem getLastD_mem {α : Type} (l : List α) (d : α) (h : l ≠ []) : l.getLastD d ∈ l := by
  rw [getLastD_eq_getLast l d h]
  exact List.getLast_mem h

theorem dropLast_concat_getLastD {α : Type} (l : List α) (d : α) (h : l ≠ []) :
    l.dropLast ++ [l.getLastD d] = l := by
  rw [getLastD_eq_getLast l d h]
  exact List.dropLast_concat_getLast h

theorem dropLast_lt_getLastD {l : List Int} (hs : l.Pairwise (· < ·)) (hne : l ≠ []) :
    ∀ x ∈ l.dropLast, x < l.getLastD 0 := by
  intro x hx
  have hd := dropLast_concat_getLastD l 0 hne
  rw [← hd] at hs
  rw [List.pairwise_append] at hs
  exact hs.2.2 x hx _ (by simp)

/-- Borrowing from a left leaf sibling (handle_underflow lines 477-515, leaf
branch): the left sibling's last entry moves to the front of the underflowed
leaf and becomes the new parent separator. -/
theorem borrowL_leaf {lo hi : Option Int} {s : Int} {lks los cks cos : List Int}
    (hls : WFN MIN_KEYS 0 lo (some s) (.leaf lks los))
    (hc : WFN 1 0 (some s) hi (.leaf cks cos))
    (hsz : MIN_KEYS < lks.length) (hcu : cks.length < MIN_KEYS) :
    WFN MIN_KEYS 0 lo (some (lks.getLastD 0)) (.leaf lks.dropLast los.dropLast) ∧
    WFN MIN_KEYS 0 (some (lks.getLastD 0)) hi
      (.leaf (lks.getLastD 0 :: cks) (los.getLastD 0 :: cos)) ∧
    entries (.leaf lks.dropLast los.dropLast) ++
      entries (.leaf (lks.getLastD 0 :: cks) (los.getLastD 0 :: cos)) =
      entries (.leaf lks los) ++ entries (.leaf cks cos) := by
  rw [WFN_leaf_iff] at hls hc
  obtain ⟨hl1, hl2, hl3, hl4, hl5⟩ := hls
  obtain ⟨hc1, hc2, hc3, hc4, hc5⟩ := hc
  have hlne : lks ≠ [] := by
    intro hcon; rw [hcon] at hl1; simp [MIN_KEYS, MAX_KEYS] at hl1
  have hbm : lks.getLastD 0 ∈ lks := getLastD_mem lks 0 hlne
  have hbs : lks.getLastD 0 < s := (hl5 _ hbm).2
  refine ⟨?_, ?_, ?_⟩
  · rw [WFN_leaf_iff]
    refine ⟨?_, ?_, ?_, hl4.sublist (List.dropLast_sublist lks), ?_⟩
    · rw [List.length_dropLast]; norm_num [MIN_KEYS, MAX_KEYS] at hsz ⊢; omega
    · rw [List.length_dropLast]; omega
    · rw [List.length_dropLast, List.length_dropLast, hl3]
    · intro x hx
      refine ⟨(hl5 x ((List.dropLast_sublist lks).mem hx)).1, ?_⟩
      show x < lks.getLastD 0
      exact dropLast_lt_getLastD hl4 hlne x hx
  · rw [WFN_leaf_iff]
    have hck : ∀ x ∈ cks, lks.getLastD 0 < x := by
      intro x hx
      have h1 : s ≤ x := hc5 x hx |>.1
      omega
    refine ⟨?_, ?_, ?_, ?_, ?_⟩
    · simp only [List.length_cons]; norm_num [MIN_KEYS, MAX_KEYS] at hc1 ⊢; omega
    · simp only [List.length_cons]; norm_num [MIN_KEYS, MAX_KEYS] at hcu ⊢; omega
    · simp only [List.length_cons, hc3]
    · exact List.pairwise_cons.2 ⟨hck, hc4⟩
    · intro x hx
      rcases List.mem_cons.1 hx with rfl | hx2
      · refine ⟨le_refl _, ?_⟩
        cases hi with
        | none => trivial
        | some y =>
          match cks, hc1 with
          | c0 :: _, _ =>
            have h1 : s ≤ c0 := (hc5 c0 (by simp)).1
            have h2 : c0 < y := (hc5 c0 (by simp)).2
            show lks.getLastD 0 < y
            omega
      · have := hc5 x hx2
        refine ⟨?_, this.2⟩
        show lks.getLastD 0 ≤ x
        have h1 : s ≤ x := this.1
        omega
  · rw [entries_leaf, entries_leaf, entries_leaf, entries_leaf]
    have hzs := zip_snoc lks los hl3 hlne
    have : (lks.getLastD 0 :: cks).zip (los.getLastD 0 :: cos) =
        (lks.getLastD 0, los.getLastD 0) :: cks.zip cos := rfl
    rw [this, ← hzs]
    simp [List.append_assoc]

/-- Borrowing from a right leaf sibling (handle_underflow lines 518-560, leaf
branch): the right sibling's first entry is appended to the underflowed leaf
and the right sibling's new first key becomes the parent separator. -/
theorem borrowR_leaf {lo hi : Option Int} {s : Int} {cks cos rks ros : List Int}
    (hc : WFN 1 0 lo (some s) (.leaf cks cos))
    (hrs : WFN MIN_KEYS 0 (some s) hi (.leaf rks ros))
    (hsz : MIN_KEYS < rks.length) (hcu : cks.length < MIN_KEYS) :
    WFN MIN_KEYS 0 lo (some (rks.getD 1 0))
      (.leaf (cks ++ [rks.headD 0]) (cos ++ [ros.headD 0])) ∧
    WFN MIN_KEYS 0 (some (rks.getD 1 0)) hi (.leaf rks.tail ros.tail) ∧
    entries (.leaf (cks ++ [rks.headD 0]) (cos ++ [ros.headD 0])) ++
      entries (.leaf rks.tail ros.tail) =
      entries (.leaf cks cos) ++ entries (.leaf rks ros) := by
  rw [WFN_leaf_iff] at hc hrs
  obtain ⟨hc1, hc2, hc3, hc4, hc5⟩ := hc
  obtain ⟨hr1, hr2, hr3, hr4, hr5⟩ := hrs
  obtain ⟨r0, r1, rrest, rfl⟩ : ∃ a b t, rks = a :: b :: t := by
    match rks, hsz with
    | a :: b :: t, _ => exact ⟨a, b, t, rfl⟩
  obtain ⟨ro0, ro1, rorest, rfl⟩ : ∃ a b t, ros = a :: b :: t := by
    simp only [List.length_cons] at hr3
    match ros, hr3 with
    | a :: b :: t, _ => exact ⟨a, b, t, rfl⟩
  have hr01 : r0 < r1 := List.rel_of_pairwise_cons hr4 (by simp)
  have hsr0 : s ≤ r0 := (hr5 r0 (by simp)).1
  have hck : ∀ x ∈ cks, x < s := fun x hx => (hc5 x hx).2
  refine ⟨?_, ?_, ?_⟩
  · rw [WFN_leaf_iff]
    refine ⟨?_, ?_, ?_, ?_, ?_⟩
    · simp only [List.length_append, List.length_cons, List.length_nil]
      norm_num [MIN_KEYS, MAX_KEYS] at hc1 ⊢; omega
    · simp only [List.length_append, List.length_cons, List.length_nil]
      norm_num [MIN_KEYS, MAX_KEYS] at hcu ⊢; omega
    · simp [hc3]
    · rw [List.pairwise_append]
      refine ⟨hc4, by simp, ?_⟩
      intro x hx y hy
      have hy2 := List.mem_singleton.1 hy
      simp only [List.headD_cons] at hy2
      have := hck x hx
      omega
    · intro x hx
      rcases List.mem_append.1 hx with hx1 | hx2
      · refine ⟨(hc5 x hx1).1, ?_⟩
        show x < (r0 :: r1 :: rrest).getD 1 0
        have := hck x hx1
        simp only [List.getD_cons_succ, List.getD_cons_zero]
        omega
      · have hx3 := List.mem_singleton.1 hx2
        simp only [List.headD_cons] at hx3
        obtain ⟨c0, crest, rfl⟩ : ∃ a t, cks = a :: t := by
          match cks, hc1 with
          | a :: t, _ => exact ⟨a, t, rfl⟩
        have h1 := (hc5 c0 (by simp)).1
        have h2 := hck c0 (by simp)
        refine ⟨?_, ?_⟩
        · cases lo with
          | none => trivial
          | some a =>
            have h3 : a ≤ c0 := h1
            show a ≤ x
            omega
        · show x < (r0 :: r1 :: rrest).getD 1 0
          simp only [List.getD_cons_succ, List.getD_cons_zero]
          omega
  · rw [WFN_leaf_iff]
    refine ⟨?_, ?_, ?_, hr4.sublist (List.tail_sublist _), ?_⟩
    · simp only [List.tail_cons, List.length_cons]
      norm_num [MIN_KEYS, MAX_KEYS] at hsz ⊢; omega
    · simp only [List.tail_cons, List.length_cons] at hr2 ⊢; omega
    · simp only [List.tail_cons, List.length_cons] at hr3 ⊢; omega
    · simp only [List.tail_cons, List.getD_cons_succ, List.getD_cons_zero]
      intro x hx
      refine ⟨?_, (hr5 x (by simp at hx ⊢; tauto)).2⟩
      show r1 ≤ x
      rcases List.mem_cons.1 hx with h | hx2
      · omega
      · have := List.rel_of_pairwise_cons (List.pairwise_cons.1 hr4).2 hx2
        omega
  · rw [entries_leaf, entries_leaf, entries_leaf, entries_leaf]
    have hza : (cks ++ [(r0 :: r1 :: rrest).headD 0]).zip
        (cos ++ [(ro0 :: ro1 :: rorest).headD 0]) =
        cks.zip cos ++ [((r0 :: r1 :: rrest).headD 0, (ro0 :: ro1 :: rorest).headD 0)] :=
      List.zip_append hc3
    rw [hza]
    simp [List.append_assoc]

/-- Merging two adjacent leaves (merge_nodes lines 600-626): concatenation of
the parallel arrays, with the combined size within the occupancy window. -/
theorem merge_leaf {m1 m2 : Nat} {lo hi : Option Int} {s : Int} {aks aos bks bos : List Int}
    (ha : WFN m1 0 lo (some s) (.leaf aks aos))
    (hb : WFN m2 0 (some s) hi (.leaf bks bos))
    (ha1 : 1 ≤ aks.length) (hb1 : 1 ≤ bks.length)
    (hmin : MIN_KEYS ≤ aks.length + bks.length)
    (hmax : aks.length + bks.length ≤ MAX_KEYS) :
    WFN MIN_KEYS 0 lo hi (.leaf (aks ++ bks) (aos ++ bos)) ∧
    entries (.leaf (aks ++ bks) (aos ++ bos)) =
      entries (.leaf aks aos) ++ entries (.leaf bks bos) := by
  rw [WFN_leaf_iff] at ha hb
  obtain ⟨_, _, ha3, ha4, ha5⟩ := ha
  obtain ⟨_, _, hb3, hb4, hb5⟩ := hb
  refine ⟨?_, ?_⟩
  · rw [WFN_leaf_iff]
    refine ⟨by simpa using hmin, by simpa using hmax, by simp [ha3, hb3], ?_, ?_⟩
    · rw [List.pairwise_append]
      refine ⟨ha4, hb4, ?_⟩
      intro x hx y hy
      have h1 : x < s := (ha5 x hx).2
      have h2 : s ≤ y := (hb5 y hy).1
      omega
    · intro x hx
      rcases List.mem_append.1 hx with hx1 | hx2
      · refine ⟨(ha5 x hx1).1, ?_⟩
        cases hi with
        | none => trivial
        | some y =>
          match bks, hb1 with
          | b0 :: _, _ =>
            have h1 : s ≤ b0 := (hb5 b0 (by simp)).1
            have h2 : b0 < y := (hb5 b0 (by simp)).2
            have h3 : x < s := (ha5 x hx1).2
            show x < y
            omega
      · refine ⟨?_, (hb5 x hx2).2⟩
        cases lo with
        | none => trivial
        | some a =>
          match aks, ha1 with
          | a0 :: _, _ =>
            have h1 : a ≤ a0 := (ha5 a0 (by simp)).1
            have h2 : a0 < s := (ha5 a0 (by simp)).2
            have h3 : s ≤ x := (hb5 x hx2).1
            show a ≤ x
            omega
  · rw [entries_leaf, entries_leaf, entries_leaf]
    exact List.zip_append ha3

/-- Borrowing from a left internal sibling (handle_underflow lines 477-515,
internal branch): the left sibling's last child moves to the front of the
underflowed node, the parent separator is pulled down into it, and the left
sibling's last key moves up as the new parent separator. -/
theorem borrowL_node {h : Nat} {lo hi : Option Int} {s : Int}
    {lks : List Int} {lcs : List BNode} {cks : List Int} {ccs : List BNode}
    (hls : WFN MIN_KEYS (h + 1) lo (some s) (.node lks lcs))
    (hc : WFN 1 (h + 1) (some s) hi (.node cks ccs))
    (hsz : MIN_KEYS < lks.length) (hcu : cks.length < MIN_KEYS) :
    WFN MIN_KEYS (h + 1) lo (some (lks.getLastD 0)) (.node lks.dropLast lcs.dropLast) ∧
    WFN MIN_KEYS (h + 1) (some (lks.getLastD 0)) hi
      (.node (s :: cks) (lcs.getLastD default :: ccs)) ∧
    entries (.node lks.dropLast lcs.dropLast) ++
      entries (.node (s :: cks) (lcs.getLastD default :: ccs)) =
      entries (.node lks lcs) ++ entries (.node cks ccs) := by
  rw [WFN_node_iff] at hls hc
  obtain ⟨hl1, hl2, hl3⟩ := hls
  obtain ⟨hc1, hc2, hc3⟩ := hc
  have hlne : lks ≠ [] := by
    intro hcon; rw [hcon] at hl1; simp [MIN_KEYS, MAX_KEYS] at hl1
  obtain ⟨hd1, hd2, hd3⟩ := chain_snoc_decomp hl3 hlne
  refine ⟨?_, ?_, ?_⟩
  · rw [WFN_node_iff]
    refine ⟨?_, ?_, hd1⟩
    · rw [List.length_dropLast]; norm_num [MIN_KEYS, MAX_KEYS] at hsz ⊢; omega
    · rw [List.length_dropLast]; omega
  · rw [WFN_node_iff]
    refine ⟨by simp only [List.length_cons]; norm_num [MIN_KEYS, MAX_KEYS] at hc1 ⊢; omega,
      ?_, ?_⟩
    · simp only [List.length_cons]; norm_num [MIN_KEYS, MAX_KEYS] at hcu ⊢; omega
    · have hlen := chainWF_length hc3
      match ccs, hlen with
      | cc0 :: ccs', _ =>
        show chainWF (WFN MIN_KEYS h) (some (lks.getLastD 0)) hi (s :: cks)
          (lcs.getLastD default :: cc0 :: ccs')
        exact ⟨hd2, hc3⟩
  · rw [entries_node, entries_node, entries_node, entries_node]
    have hfl : (lcs.map entries).flatten =
        (lcs.dropLast.map entries).flatten ++ entries (lcs.getLastD default) := by
      conv_lhs => rw [← hd3]
      simp
    rw [hfl]
    simp [List.append_assoc]

/-- Borrowing from a right internal sibling (handle_underflow lines 518-560,
internal branch): the right sibling's first child is appended to the
underflowed node, the parent separator is pulled down, and the right
sibling's first key moves up as the new parent separator. -/
theorem borrowR_node {h : Nat} {lo hi : Option Int} {s : Int}
    {cks : List Int} {ccs : List BNode} {rks : List Int} {rcs : List BNode}
    (hc : WFN 1 (h + 1) lo (some s) (.node cks ccs))
    (hrs : WFN MIN_KEYS (h + 1) (some s) hi (.node rks rcs))
    (hsz : MIN_KEYS < rks.length) (hcu : cks.length < MIN_KEYS) :
    WFN MIN_KEYS (h + 1) lo (some (rks.headD 0))
      (.node (cks ++ [s]) (ccs ++ [rcs.headD default])) ∧
    WFN MIN_KEYS (h + 1) (some (rks.headD 0)) hi (.node rks.tail rcs.tail) ∧
    entries (.node (cks ++ [s]) (ccs ++ [rcs.headD default])) ++
      entries (.node rks.tail rcs.tail) =
      entries (.node cks ccs) ++ entries (.node rks rcs) := by
  rw [WFN_node_iff] at hc hrs
  obtain ⟨hc1, hc2, hc3⟩ := hc
  obtain ⟨hr1, hr2, hr3⟩ := hrs
  obtain ⟨r0, rks', rfl⟩ : ∃ a t, rks = a :: t := by
    match rks, hsz with
    | a :: t, _ => exact ⟨a, t, rfl⟩
  have hlen := chainWF_length hr3
  obtain ⟨rc0, rcs', rfl⟩ : ∃ a t, rcs = a :: t := by
    match rcs, hlen with
    | a :: t, _ => exact ⟨a, t, rfl⟩
  have hr3' : WFN MIN_KEYS h (some s) (some r0) rc0 ∧
      chainWF (WFN MIN_KEYS h) (some r0) hi rks' rcs' := hr3
  refine ⟨?_, ?_, ?_⟩
  · rw [WFN_node_iff]
    refine ⟨?_, ?_, ?_⟩
    · simp only [List.length_append, List.length_cons, List.length_nil]
      norm_num [MIN_KEYS, MAX_KEYS] at hc1 ⊢; omega
    · simp only [List.length_append, List.length_cons, List.length_nil]
      norm_num [MIN_KEYS, MAX_KEYS] at hcu ⊢; omega
    · show chainWF (WFN MIN_KEYS h) lo (some ((r0 :: rks').headD 0))
        (cks ++ [s]) (ccs ++ [rc0])
      have : cks ++ [s] = cks ++ s :: [] := rfl
      rw [this, List.headD_cons]
      exact chain_append hc3 hr3'.1
  · rw [WFN_node_iff]
    refine ⟨?_, ?_, ?_⟩
    · simp only [List.tail_cons, List.length_cons]
      norm_num [MIN_KEYS, MAX_KEYS] at hsz ⊢; omega
    · simp only [List.tail_cons, List.length_cons] at hr2 ⊢; omega
    · simp only [List.tail_cons, List.headD_cons]
      exact hr3'.2
  · rw [entries_node, entries_node, entries_node, entries_node]
    simp [List.append_assoc]

/-- Merging two adjacent internal nodes (merge_nodes lines 630-645): the
parent separator is pulled down between the two key arrays and the child
arrays are concatenated. -/
theorem merge_node {m1 m2 h : Nat} {lo hi : Option Int} {s : Int}
    {aks : List Int} {acs : List BNode} {bks : List Int} {bcs : List BNode}
    (ha : WFN m1 (h + 1) lo (some s) (.node aks acs))
    (hb : WFN m2 (h + 1) (some s) hi (.node bks bcs))
    (hmin : MIN_KEYS ≤ aks.length + bks.length + 1)
    (hmax : aks.length + bks.length + 1 ≤ MAX_KEYS) :
    WFN MIN_KEYS (h + 1) lo hi (.node (aks ++ s :: bks) (acs ++ bcs)) ∧
    entries (.node (aks ++ s :: bks) (acs ++ bcs)) =
      entries (.node aks acs) ++ entries (.node bks bcs) := by
  rw [WFN_node_iff] at ha hb
  refine ⟨?_, ?_⟩
  · rw [WFN_node_iff]
    refine ⟨?_, ?_, chain_append ha.2.2 hb.2.2⟩
    · simp only [List.length_append, List.length_cons]; omega
    · simp only [List.length_append, List.length_cons]; omega
  · rw [entries_node, entries_node, entries_node]
    simp

theorem rebalance_shape (ks : List Int) (cs : List BNode) (i : Nat) (c : BNode) :
    ∃ ks2 cs2, rebalance ks cs i c = .node ks2 cs2 := by
  unfold rebalance
  by_cases h1 : 0 < i ∧ MIN_KEYS < numKeys (cs.getD (i - 1) default)
  · rw [if_pos h1]; cases c <;> exact ⟨_, _, rfl⟩
  · rw [if_neg h1]
    by_cases h2 : i < ks.length ∧ MIN_KEYS < numKeys (cs.getD (i + 1) default)
    · rw [if_pos h2]; cases c <;> exact ⟨_, _, rfl⟩
    · rw [if_neg h2]
      by_cases h3 : 0 < i
      · rw [if_pos h3]; cases c <;> exact ⟨_, _, rfl⟩
      · rw [if_neg h3]; cases c <;> exact ⟨_, _, rfl⟩

/-- handle_underflow acts locally: at a child position at least two, the
parent's leading separator and child do not participate, so the rebalance
of the extended parent is the extension of the rebalance. -/
theorem rebalance_cons {k0 : Int} {c0 : BNode} {ks : List Int} {cs : List BNode}
    {j : Nat} {c : BNode} {ks2 : List Int} {cs2 : List BNode}
    (hs : rebalance ks cs (j + 1) c = .node ks2 cs2) :
    rebalance (k0 :: ks) (c0 :: cs) (j + 2) c = .node (k0 :: ks2) (c0 :: cs2) := by
  unfold rebalance at hs ⊢
  by_cases hA : MIN_KEYS < numKeys (cs.getD (j + 1 - 1) default)
  · rw [if_pos ⟨Nat.succ_pos j, hA⟩] at hs
    rw [if_pos (show 0 < j + 2 ∧ MIN_KEYS < numKeys ((c0 :: cs).getD (j + 2 - 1) default)
      from ⟨Nat.succ_pos _, hA⟩)]
    cases c with
    | leaf cks cos =>
      injection hs with e f
      rw [← e, ← f]
      rfl
    | node cks ccs =>
      injection hs with e f
      rw [← e, ← f]
      rfl
  · rw [if_neg (fun hcon => hA hcon.2)] at hs
    rw [if_neg (show ¬ (0 < j + 2 ∧ MIN_KEYS < numKeys ((c0 :: cs).getD (j + 2 - 1) default))
      from fun hcon => hA hcon.2)]
    by_cases hB : j + 1 < ks.length ∧ MIN_KEYS < numKeys (cs.getD (j + 1 + 1) default)
    · rw [if_pos hB] at hs
      rw [if_pos (show j + 2 < (k0 :: ks).length ∧
          MIN_KEYS < numKeys ((c0 :: cs).getD (j + 2 + 1) default)
        from ⟨by simp only [List.length_cons]; omega, hB.2⟩)]
      cases c with
      | leaf cks cos =>
        injection hs with e f
        rw [← e, ← f]
        rfl
      | node cks ccs =>
        injection hs with e f
        rw [← e, ← f]
        rfl
    · rw [if_neg hB] at hs
      rw [if_neg (show ¬ (j + 2 < (k0 :: ks).length ∧
          MIN_KEYS < numKeys ((c0 :: cs).getD (j + 2 + 1) default))
        from fun hcon => hB ⟨by simp only [List.length_cons] at hcon; omega, hcon.2⟩)]
      rw [if_pos (Nat.succ_pos j)] at hs
      rw [if_pos (Nat.succ_pos (j + 1))]
      cases c with
      | leaf cks cos =>
        injection hs with e f
        rw [← e, ← f]
        rfl
      | node cks ccs =>
        injection hs with e f
        rw [← e, ← f]
        rfl

theorem WFN_shape0 {m : Nat} {lo hi : Option Int} {n : BNode} (hw : WFN m 0 lo hi n) :
    ∃ ks os, n = .leaf ks os := by
  match n with
  | .leaf ks os => exact ⟨ks, os, rfl⟩
  | .node ks cs => exact absurd hw WFN_not_node_zero

theorem WFN_shapeS {m h : Nat} {lo hi : Option Int} {n : BNode} (hw : WFN m (h + 1) lo hi n) :
    ∃ ks cs, n = .node ks cs := by
  match n with
  | .leaf ks os => exact absurd hw WFN_not_leaf_succ
  | .node ks cs => exact ⟨ks, cs, rfl⟩

/-- handle_underflow for the leftmost child (index 0): the left-borrow and
left-merge branches are unavailable, so the child borrows from or merges
with its right sibling, preserving the chain and the concatenated
entries. -/
theorem rebalance_at0 {h : Nat} {lo hi : Option Int} {k0 : Int}
    {ks' : List Int} {c0 : BNode} {cs' : List BNode} {c' : BNode}
    (hch : chainWF (WFN MIN_KEYS h) (some k0) hi ks' cs')
    (hc' : WFN (MIN_KEYS - 1) h lo (some k0) c')
    (hunder : numKeys c' < MIN_KEYS) :
    ∃ ks2 cs2, rebalance (k0 :: ks') (c0 :: cs') 0 c' = .node ks2 cs2 ∧
      chainWF (WFN MIN_KEYS h) lo hi ks2 cs2 ∧
      (cs2.map entries).flatten = entries c' ++ (cs'.map entries).flatten ∧
      ks'.length ≤ ks2.length ∧ ks2.length ≤ ks'.length + 1 := by
  have hlen := chainWF_length hch
  obtain ⟨c1, cs'', rfl⟩ : ∃ a t, cs' = a :: t := by
    match cs', hlen with
    | a :: t, _ => exact ⟨a, t, rfl⟩
  have hm1 : MIN_KEYS - 1 = 1 := by norm_num [MIN_KEYS, MAX_KEYS]
  rw [hm1] at hc'
  have hnum : numKeys c' = 1 := by
    have h1 := (WFN_numKeys hc').1
    norm_num [MIN_KEYS, MAX_KEYS] at hunder
    omega
  obtain ⟨hib, hc1, hrest⟩ : ∃ hib, WFN MIN_KEYS h (some k0) hib c1 ∧
      ∀ (nb : Option Int) (cn : BNode), WFN MIN_KEYS h nb hib cn →
        chainWF (WFN MIN_KEYS h) nb hi ks' (cn :: cs'') := by
    match ks', cs'', hch with
    | [], [], hP => exact ⟨hi, hP, fun nb cn hcn => hcn⟩
    | k1 :: ks'', c2 :: cs''', hch =>
      exact ⟨some k1, hch.1, fun nb cn hcn => ⟨hcn, hch.2⟩⟩
    | k1 :: ks'', [], hch =>
      have := chainWF_length hch.2
      simp at this
  have hnA : ¬ (0 < 0 ∧ MIN_KEYS < numKeys ((c0 :: c1 :: cs'').getD (0 - 1) default)) :=
    fun hcon => absurd hcon.1 (by omega)
  have hnum1 := (WFN_numKeys hc1).1
  have hnum2 := (WFN_numKeys hc1).2
  by_cases hB : MIN_KEYS < numKeys c1
  · cases h with
    | zero =>
      obtain ⟨cks, cos, rfl⟩ := WFN_shape0 hc'
      obtain ⟨rks, ros, rfl⟩ := WFN_shape0 hc1
      have hsz : MIN_KEYS < rks.length := hB
      have hcu : cks.length < MIN_KEYS := by
        have he : cks.length = 1 := hnum
        norm_num [MIN_KEYS, MAX_KEYS]; omega
      obtain ⟨w1, w2, w3⟩ := borrowR_leaf hc' hc1 hsz hcu
      refine ⟨rks.getD 1 0 :: ks',
        .leaf (cks ++ [rks.headD 0]) (cos ++ [ros.headD 0]) ::
          .leaf rks.tail ros.tail :: cs'', ?_, ?_, ?_, by simp, by simp⟩
      · unfold rebalance
        rw [if_neg hnA, if_pos (show 0 < (k0 :: ks').length ∧ MIN_KEYS <
            numKeys ((c0 :: BNode.leaf rks ros :: cs'').getD (0 + 1) default)
          from ⟨Nat.succ_pos _, hB⟩)]
        rfl
      · show chainWF (WFN MIN_KEYS 0) lo hi (rks.getD 1 0 :: ks')
          (BNode.leaf (cks ++ [rks.headD 0]) (cos ++ [ros.headD 0]) ::
            BNode.leaf rks.tail ros.tail :: cs'')
        exact ⟨w1, hrest (some (rks.getD 1 0)) _ w2⟩
      · simp only [List.map_cons, List.flatten_cons]
        rw [← List.append_assoc, w3]
        simp [List.append_assoc]
    | succ h =>
      obtain ⟨cks, ccs, rfl⟩ := WFN_shapeS hc'
      obtain ⟨rks, rcs, rfl⟩ := WFN_shapeS hc1
      have hsz : MIN_KEYS < rks.length := hB
      have hcu : cks.length < MIN_KEYS := by
        have he : cks.length = 1 := hnum
        norm_num [MIN_KEYS, MAX_KEYS]; omega
      obtain ⟨w1, w2, w3⟩ := borrowR_node hc' hc1 hsz hcu
      refine ⟨rks.headD 0 :: ks',
        .node (cks ++ [k0]) (ccs ++ [rcs.headD default]) ::
          .node rks.tail rcs.tail :: cs'', ?_, ?_, ?_, by simp, by simp⟩
      · unfold rebalance
        rw [if_neg hnA, if_pos (show 0 < (k0 :: ks').length ∧ MIN_KEYS <
            numKeys ((c0 :: BNode.node rks rcs :: cs'').getD (0 + 1) default)
          from ⟨Nat.succ_pos _, hB⟩)]
        rfl
      · show chainWF (WFN MIN_KEYS (h + 1)) lo hi (rks.headD 0 :: ks')
          (BNode.node (cks ++ [k0]) (ccs ++ [rcs.headD default]) ::
            BNode.node rks.tail rcs.tail :: cs'')
        exact ⟨w1, hrest (some (rks.headD 0)) _ w2⟩
      · simp only [List.map_cons, List.flatten_cons]
        rw [← List.append_assoc, w3]
        simp [List.append_assoc]
  · have hnB : ¬ (0 < (k0 :: ks').length ∧ MIN_KEYS <
        numKeys ((c0 :: c1 :: cs'').getD (0 + 1) default)) :=
      fun hcon => hB hcon.2
    have hnC : ¬ (0 < 0) := by omega
    cases h with
    | zero =>
      obtain ⟨cks, cos, rfl⟩ := WFN_shape0 hc'
      obtain ⟨rks, ros, rfl⟩ := WFN_shape0 hc1
      have hsz : rks.length = MIN_KEYS := by
        have hb2 : ¬ MIN_KEYS < rks.length := hB
        have hb1 : MIN_KEYS ≤ rks.length := hnum1
        omega
      obtain ⟨w1, w2⟩ := merge_leaf hc' hc1 (by
          have he : cks.length = 1 := hnum
          omega)
        (by norm_num [MIN_KEYS, MAX_KEYS] at hsz; omega)
        (by have he : cks.length = 1 := hnum; norm_num [MIN_KEYS, MAX_KEYS] at hsz ⊢; omega)
        (by have he : cks.length = 1 := hnum
            norm_num [MIN_KEYS, MAX_KEYS] at hsz ⊢; omega)
      refine ⟨ks', .leaf (cks ++ rks) (cos ++ ros) :: cs'', ?_, ?_, ?_,
        le_refl _, by omega⟩
      · unfold rebalance
        rw [if_neg hnA, if_neg hnB, if_neg hnC]
        rfl
      · exact hrest lo _ w1
      · simp only [List.map_cons, List.flatten_cons, w2]
        simp [List.append_assoc]
    | succ h =>
      obtain ⟨cks, ccs, rfl⟩ := WFN_shapeS hc'
      obtain ⟨rks, rcs, rfl⟩ := WFN_shapeS hc1
      have hsz : rks.length = MIN_KEYS := by
        have hb2 : ¬ MIN_KEYS < rks.length := hB
        have hb1 : MIN_KEYS ≤ rks.length := hnum1
        omega
      have hck1 : cks.length = 1 := hnum
      obtain ⟨w1, w2⟩ := merge_node hc' hc1
        (by norm_num [MIN_KEYS, MAX_KEYS] at hsz ⊢; omega)
        (by norm_num [MIN_KEYS, MAX_KEYS] at hsz ⊢; omega)
      refine ⟨ks', .node (cks ++ k0 :: rks) (ccs ++ rcs) :: cs'', ?_, ?_, ?_,
        le_refl _, by omega⟩
      · unfold rebalance
        rw [if_neg hnA, if_neg hnB, if_neg hnC]
        rfl
      · exact hrest lo _ w1
      · simp only [List.map_cons, List.flatten_cons, w2]
        simp [List.append_assoc]

/-- handle_underflow for the child at index 1: borrowing from the left
sibling is preferred, then from the right sibling, then merging into the
left sibling, preserving the chain and the concatenated entries. -/
theorem rebalance_at1 {h : Nat} {lo hi : Option Int} {k0 : Int}
    {ks' : List Int} {c0 c1 : BNode} {cs'' : List BNode} {c' : BNode}
    (hc0 : WFN MIN_KEYS h lo (some k0) c0)
    (hch : chainWF (WFN MIN_KEYS h) (some k0) hi ks' (c1 :: cs''))
    (hc' : WFN (MIN_KEYS - 1) h (some k0) ((ks'.head?.map some).getD hi) c')
    (hunder : numKeys c' < MIN_KEYS) :
    ∃ ks2 cs2, rebalance (k0 :: ks') (c0 :: c1 :: cs'') 1 c' = .node ks2 cs2 ∧
      chainWF (WFN MIN_KEYS h) lo hi ks2 cs2 ∧
      (cs2.map entries).flatten =
        entries c0 ++ entries c' ++ (cs''.map entries).flatten ∧
      ks'.length ≤ ks2.length ∧ ks2.length ≤ ks'.length + 1 := by
  have hm1 : MIN_KEYS - 1 = 1 := by norm_num [MIN_KEYS, MAX_KEYS]
  rw [hm1] at hc'
  obtain ⟨hib, hibeq, hc1w, hrest⟩ : ∃ hib, (ks'.head?.map some).getD hi = hib ∧
      WFN MIN_KEYS h (some k0) hib c1 ∧
      ∀ (nb : Option Int) (cn : BNode), WFN MIN_KEYS h nb hib cn →
        chainWF (WFN MIN_KEYS h) nb hi ks' (cn :: cs'') := by
    match ks', cs'', hch with
    | [], [], hP => exact ⟨hi, rfl, hP, fun nb cn hcn => hcn⟩
    | k1 :: ks'', c2 :: cs''', hch =>
      exact ⟨some k1, rfl, hch.1, fun nb cn hcn => ⟨hcn, hch.2⟩⟩
    | k1 :: ks'', [], hch =>
      have := chainWF_length hch.2
      simp at this
  rw [hibeq] at hc'
  have hnum : numKeys c' = 1 := by
    have h1 := (WFN_numKeys hc').1
    norm_num [MIN_KEYS, MAX_KEYS] at hunder
    omega
  have hnum0 := (WFN_numKeys hc0).1
  by_cases hA : MIN_KEYS < numKeys c0
  · cases h with
    | zero =>
      obtain ⟨cks, cos, rfl⟩ := WFN_shape0 hc'
      obtain ⟨lks, los, rfl⟩ := WFN_shape0 hc0
      have hcu : cks.length < MIN_KEYS := by
        have he : cks.length = 1 := hnum
        norm_num [MIN_KEYS, MAX_KEYS]; omega
      obtain ⟨w1, w2, w3⟩ := borrowL_leaf hc0 hc' hA hcu
      refine ⟨lks.getLastD 0 :: ks',
        .leaf lks.dropLast los.dropLast ::
          .leaf (lks.getLastD 0 :: cks) (los.getLastD 0 :: cos) :: cs'',
        ?_, ?_, ?_, by simp, by simp⟩
      · unfold rebalance
        rw [if_pos (show 0 < 1 ∧ MIN_KEYS <
            numKeys ((BNode.leaf lks los :: c1 :: cs'').getD (1 - 1) default)
          from ⟨by omega, hA⟩)]
        rfl
      · show chainWF (WFN MIN_KEYS 0) lo hi (lks.getLastD 0 :: ks')
          (BNode.leaf lks.dropLast los.dropLast ::
            BNode.leaf (lks.getLastD 0 :: cks) (los.getLastD 0 :: cos) :: cs'')
        exact ⟨w1, hrest (some (lks.getLastD 0)) _ w2⟩
      · simp only [List.map_cons, List.flatten_cons]
        rw [← List.append_assoc, w3]
    | succ h =>
      obtain ⟨cks, ccs, rfl⟩ := WFN_shapeS hc'
      obtain ⟨lks, lcs, rfl⟩ := WFN_shapeS hc0
      have hcu : cks.length < MIN_KEYS := by
        have he : cks.length = 1 := hnum
        norm_num [MIN_KEYS, MAX_KEYS]; omega
      obtain ⟨w1, w2, w3⟩ := borrowL_node hc0 hc' hA hcu
      refine ⟨lks.getLastD 0 :: ks',
        .node lks.dropLast lcs.dropLast ::
          .node (k0 :: cks) (lcs.getLastD default :: ccs) :: cs'',
        ?_, ?_, ?_, by simp, by simp⟩
      · unfold rebalance
        rw [if_pos (show 0 < 1 ∧ MIN_KEYS <
            numKeys ((BNode.node lks lcs :: c1 :: cs'').getD (1 - 1) default)
          from ⟨by omega, hA⟩)]
        rfl
      · show chainWF (WFN MIN_KEYS (h + 1)) lo hi (lks.getLastD 0 :: ks')
          (BNode.node lks.dropLast lcs.dropLast ::
            BNode.node (k0 :: cks) (lcs.getLastD default :: ccs) :: cs'')
        exact ⟨w1, hrest (some (lks.getLastD 0)) _ w2⟩
      · simp only [List.map_cons, List.flatten_cons]
        rw [← List.append_assoc, w3]
  · have hnA : ¬ (0 < 1 ∧ MIN_KEYS <
        numKeys ((c0 :: c1 :: cs'').getD (1 - 1) default)) :=
      fun hcon => hA hcon.2
    have hsz0 : numKeys c0 = MIN_KEYS := by omega
    match ks', cs'', hch, hc', hrest with
    | [], [], hP, hc', hrest =>
      have he2 : hib = hi := (hibeq : hi = hib).symm
      rw [he2] at hc'
      have hnB : ¬ (1 < (k0 :: ([] : List Int)).length ∧ MIN_KEYS <
          numKeys ((c0 :: c1 :: ([] : List BNode)).getD (1 + 1) default)) :=
        fun hcon => by simp at hcon
      cases h with
      | zero =>
        obtain ⟨cks, cos, rfl⟩ := WFN_shape0 hc'
        obtain ⟨lks, los, rfl⟩ := WFN_shape0 hc0
        have hck1 : cks.length = 1 := hnum
        have hlk : lks.length = MIN_KEYS := hsz0
        obtain ⟨w1, w2⟩ := merge_leaf hc0 hc'
          (by norm_num [MIN_KEYS, MAX_KEYS] at hlk; omega) (by omega)
          (by norm_num [MIN_KEYS, MAX_KEYS] at hlk ⊢; omega)
          (by norm_num [MIN_KEYS, MAX_KEYS] at hlk ⊢; omega)
        refine ⟨[], [.leaf (lks ++ cks) (los ++ cos)], ?_, ?_, ?_, by simp, by simp⟩
        · unfold rebalance
          rw [if_neg hnA, if_neg hnB, if_pos (by omega : 0 < 1)]
          rfl
        · show chainWF (WFN MIN_KEYS 0) lo hi [] [.leaf (lks ++ cks) (los ++ cos)]
          exact w1
        · simp only [List.map_cons, List.map_nil, List.flatten_cons, List.flatten_nil,
            List.append_nil, w2]
      | succ h =>
        obtain ⟨cks, ccs, rfl⟩ := WFN_shapeS hc'
        obtain ⟨lks, lcs, rfl⟩ := WFN_shapeS hc0
        have hck1 : cks.length = 1 := hnum
        have hlk : lks.length = MIN_KEYS := hsz0
        obtain ⟨w1, w2⟩ := merge_node hc0 hc'
          (by norm_num [MIN_KEYS, MAX_KEYS] at hlk ⊢; omega)
          (by norm_num [MIN_KEYS, MAX_KEYS] at hlk ⊢; omega)
        refine ⟨[], [.node (lks ++ k0 :: cks) (lcs ++ ccs)], ?_, ?_, ?_, by simp, by simp⟩
        · unfold rebalance
          rw [if_neg hnA, if_neg hnB, if_pos (by omega : 0 < 1)]
          rfl
        · show chainWF (WFN MIN_KEYS (h + 1)) lo hi []
            [.node (lks ++ k0 :: cks) (lcs ++ ccs)]
          exact w1
        · simp only [List.map_cons, List.map_nil, List.flatten_cons, List.flatten_nil,
            List.append_nil, w2]
    | k1 :: ks'', c2 :: cs''', hch, hc', hrest =>
      have he2 : hib = some k1 := (hibeq : some k1 = hib).symm
      rw [he2] at hc'
      obtain ⟨hib2, hibeq2, hc2w, hrest2⟩ : ∃ hib2, (ks''.head?.map some).getD hi = hib2 ∧
          WFN MIN_KEYS h (some k1) hib2 c2 ∧
          ∀ (nb : Option Int) (cn : BNode), WFN MIN_KEYS h nb hib2 cn →
            chainWF (WFN MIN_KEYS h) nb hi ks'' (cn :: cs''') := by
        match ks'', cs''', hch.2 with
        | [], [], hP => exact ⟨hi, rfl, hP, fun nb cn hcn => hcn⟩
        | k2 :: ks''', c3 :: cs'''', hch2 =>
          exact ⟨some k2, rfl, hch2.1, fun nb cn hcn => ⟨hcn, hch2.2⟩⟩
        | k2 :: ks''', [], hch2 =>
          have := chainWF_length hch2.2
          simp at this
      have hnum2a := (WFN_numKeys hc2w).1
      by_cases hB : MIN_KEYS < numKeys c2
      · cases h with
        | zero =>
          obtain ⟨cks, cos, rfl⟩ := WFN_shape0 hc'
          obtain ⟨rks, ros, rfl⟩ := WFN_shape0 hc2w
          have hcu : cks.length < MIN_KEYS := by
            have he : cks.length = 1 := hnum
            norm_num [MIN_KEYS, MAX_KEYS]; omega
          obtain ⟨w1, w2, w3⟩ := borrowR_leaf hc' hc2w hB hcu
          refine ⟨k0 :: rks.getD 1 0 :: ks'',
            c0 :: .leaf (cks ++ [rks.headD 0]) (cos ++ [ros.headD 0]) ::
              .leaf rks.tail ros.tail :: cs''', ?_, ?_, ?_, by simp, by simp⟩
          · unfold rebalance
            rw [if_neg hnA, if_pos (show 1 < (k0 :: k1 :: ks'').length ∧ MIN_KEYS <
                numKeys ((c0 :: c1 :: BNode.leaf rks ros :: cs''').getD (1 + 1) default)
              from ⟨by simp, hB⟩)]
            rfl
          · show chainWF (WFN MIN_KEYS 0) lo hi (k0 :: rks.getD 1 0 :: ks'')
              (c0 :: BNode.leaf (cks ++ [rks.headD 0]) (cos ++ [ros.headD 0]) ::
                BNode.leaf rks.tail ros.tail :: cs''')
            exact ⟨hc0, w1, hrest2 (some (rks.getD 1 0)) _ w2⟩
          · simp only [List.map_cons, List.flatten_cons]
            rw [← List.append_assoc (entries (BNode.leaf (cks ++ [rks.headD 0])
              (cos ++ [ros.headD 0]))), w3]
            simp [List.append_assoc]
        | succ h =>
          obtain ⟨cks, ccs, rfl⟩ := WFN_shapeS hc'
          obtain ⟨rks, rcs, rfl⟩ := WFN_shapeS hc2w
          have hcu : cks.length < MIN_KEYS := by
            have he : cks.length = 1 := hnum
            norm_num [MIN_KEYS, MAX_KEYS]; omega
          obtain ⟨w1, w2, w3⟩ := borrowR_node hc' hc2w hB hcu
          refine ⟨k0 :: rks.headD 0 :: ks'',
            c0 :: .node (cks ++ [k1]) (ccs ++ [rcs.headD default]) ::
              .node rks.tail rcs.tail :: cs''', ?_, ?_, ?_, by simp, by simp⟩
          · unfold rebalance
            rw [if_neg hnA, if_pos (show 1 < (k0 :: k1 :: ks'').length ∧ MIN_KEYS <
                numKeys ((c0 :: c1 :: BNode.node rks rcs :: cs''').getD (1 + 1) default)
              from ⟨by simp, hB⟩)]
            rfl
          · show chainWF (WFN MIN_KEYS (h + 1)) lo hi (k0 :: rks.headD 0 :: ks'')
              (c0 :: BNode.node (cks ++ [k1]) (ccs ++ [rcs.headD default]) ::
                BNode.node rks.tail rcs.tail :: cs''')
            exact ⟨hc0, w1, hrest2 (some (rks.headD 0)) _ w2⟩
          · simp only [List.map_cons, List.flatten_cons]
            rw [← List.append_assoc (entries (BNode.node (cks ++ [k1])
              (ccs ++ [rcs.headD default]))), w3]
            simp [List.append_assoc]
      · have hnB : ¬ (1 < (k0 :: k1 :: ks'').length ∧ MIN_KEYS <
            numKeys ((c0 :: c1 :: c2 :: cs''').getD (1 + 1) default)) :=
          fun hcon => hB hcon.2
        cases h with
        | zero =>
          obtain ⟨cks, cos, rfl⟩ := WFN_shape0 hc'
          obtain ⟨lks, los, rfl⟩ := WFN_shape0 hc0
          have hck1 : cks.length = 1 := hnum
          have hlk : lks.length = MIN_KEYS := hsz0
          obtain ⟨w1, w2⟩ := merge_leaf hc0 hc'
            (by norm_num [MIN_KEYS, MAX_KEYS] at hlk; omega) (by omega)
            (by norm_num [MIN_KEYS, MAX_KEYS] at hlk ⊢; omega)
            (by norm_num [MIN_KEYS, MAX_KEYS] at hlk ⊢; omega)
          refine ⟨k1 :: ks'', .leaf (lks ++ cks) (los ++ cos) :: c2 :: cs''',
            ?_, ?_, ?_, by simp, by simp⟩
          · unfold rebalance
            rw [if_neg hnA, if_neg hnB, if_pos (by omega : 0 < 1)]
            rfl
          · show chainWF (WFN MIN_KEYS 0) lo hi (k1 :: ks'')
              (BNode.leaf (lks ++ cks) (los ++ cos) :: c2 :: cs''')
            exact ⟨w1, hch.2⟩
          · simp only [List.map_cons, List.flatten_cons, w2]
        | succ h =>
          obtain ⟨cks, ccs, rfl⟩ := WFN_shapeS hc'
          obtain ⟨lks, lcs, rfl⟩ := WFN_shapeS hc0
          have hck1 : cks.length = 1 := hnum
          have hlk : lks.length = MIN_KEYS := hsz0
          obtain ⟨w1, w2⟩ := merge_node hc0 hc'
            (by norm_num [MIN_KEYS, MAX_KEYS] at hlk ⊢; omega)
            (by norm_num [MIN_KEYS, MAX_KEYS] at hlk ⊢; omega)
          refine ⟨k1 :: ks'', .node (lks ++ k0 :: cks) (lcs ++ ccs) :: c2 :: cs''',
            ?_, ?_, ?_, by simp, by simp⟩
          · unfold rebalance
            rw [if_neg hnA, if_neg hnB, if_pos (by omega : 0 < 1)]
            rfl
          · show chainWF (WFN MIN_KEYS (h + 1)) lo hi (k1 :: ks'')
              (BNode.node (lks ++ k0 :: cks) (lcs ++ ccs) :: c2 :: cs''')
            exact ⟨w1, hch.2⟩
          · simp only [List.map_cons, List.flatten_cons, w2]
    | k1 :: ks'', [], hch, _, _ =>
      have := chainWF_length hch.2
      simp at this

/-- Deletion seen from a parent's frame: the child at the search position
is rewritten; if it underflows, handle_underflow restores the chain with
at most one separator removed, and the concatenated entries lose exactly
the deleted key. -/
theorem chain_del {h : Nat} {k : Int} {hi : Option Int}
    (IH : ∀ {lo hi : Option Int} {n : BNode}, WFN MIN_KEYS h lo hi n →
      lbOK lo k → ubOK hi k →
      WFN (MIN_KEYS - 1) h lo hi (deleteRec n k) ∧
      entries (deleteRec n k) = eraseE (entries n) k) :
    ∀ {lo : Option Int} {ks : List Int} {cs : List BNode},
      chainWF (WFN MIN_KEYS h) lo hi ks cs → ks ≠ [] → lbOK lo k → ubOK hi k →
      ∃ c, cs[childIndex ks k]? = some c ∧
        (¬ numKeys (deleteRec c k) < MIN_KEYS →
          chainWF (WFN MIN_KEYS h) lo hi ks
            (cs.set (childIndex ks k) (deleteRec c k)) ∧
          ((cs.set (childIndex ks k) (deleteRec c k)).map entries).flatten =
            eraseE ((cs.map entries).flatten) k) ∧
        (numKeys (deleteRec c k) < MIN_KEYS →
          ∃ ks2 cs2,
            rebalance ks cs (childIndex ks k) (deleteRec c k) = .node ks2 cs2 ∧
            chainWF (WFN MIN_KEYS h) lo hi ks2 cs2 ∧
            (cs2.map entries).flatten = eraseE ((cs.map entries).flatten) k ∧
            ks.length - 1 ≤ ks2.length ∧ ks2.length ≤ ks.length) := by
  intro lo ks
  induction ks generalizing lo with
  | nil => intro cs _ hne _ _; exact absurd rfl hne
  | cons k0 ks' ihk =>
    intro cs hch _ hlo hhi
    match cs, hch with
    | c0 :: cs', hch =>
      have hch' : WFN MIN_KEYS h lo (some k0) c0 ∧
          chainWF (WFN MIN_KEYS h) (some k0) hi ks' cs' := hch
      by_cases hk0 : k0 ≤ k
      · -- descend right of the first separator
        have hlok0 : lbOK (some k0) k := hk0
        have hci : childIndex (k0 :: ks') k = childIndex ks' k + 1 := by
          rw [childIndex_cons, if_pos hk0]
        have hE0 : ∀ p ∈ entries c0, p.1 < k := by
          intro p hp
          have h2 : p.1 < k0 := (entries_bounds hch'.1 p hp).2
          omega
        rcases Nat.eq_zero_or_pos (childIndex ks' k) with hz | hpos
        · -- boundary: the child is the second child of this node
          have hlen := chainWF_length hch'.2
          obtain ⟨c1, cs'', rfl⟩ : ∃ a t, cs' = a :: t := by
            match cs', hlen with
            | a :: t, _ => exact ⟨a, t, rfl⟩
          obtain ⟨hib, hibeq, hc1w, hrest, hubk, hBk⟩ : ∃ hib,
              (ks'.head?.map some).getD hi = hib ∧
              WFN MIN_KEYS h (some k0) hib c1 ∧
              (∀ (nb : Option Int) (cn : BNode), WFN MIN_KEYS h nb hib cn →
                chainWF (WFN MIN_KEYS h) nb hi ks' (cn :: cs'')) ∧
              ubOK hib k ∧
              (∀ p ∈ (cs''.map entries).flatten, k < p.1) := by
            match ks', cs'', hch'.2, hz with
            | [], [], hP, _ =>
              exact ⟨hi, rfl, hP, fun nb cn hcn => hcn, hhi, by simp⟩
            | k1 :: ks'', cs'', hch2, hz =>
              have hk1 : ¬ k1 ≤ k := by
                intro hcon
                rw [childIndex_cons, if_pos hcon] at hz
                omega
              refine ⟨some k1, rfl, hch2.1, fun nb cn hcn => ⟨hcn, hch2.2⟩,
                by show k < k1; omega, ?_⟩
              intro p hp
              have h2 : k1 ≤ p.1 := (chain_entries_bounds hch2.2 p hp).1
              omega
          obtain ⟨hw', hent⟩ := IH hc1w hlok0 hubk
          refine ⟨c1, ?_, ?_, ?_⟩
          · rw [hci, hz]; simp
          · intro hno
            rw [hci, hz]
            have hmk : MIN_KEYS ≤ numKeys (deleteRec c1 k) := by omega
            constructor
            · show chainWF (WFN MIN_KEYS h) lo hi (k0 :: ks')
                (c0 :: deleteRec c1 k :: cs'')
              exact ⟨hch'.1, hrest (some k0) _ (WFN_strengthen hw' hmk)⟩
            · show ((c0 :: deleteRec c1 k :: cs'').map entries).flatten = _
              simp only [List.map_cons, List.flatten_cons]
              rw [hent, eraseE_append_left (fun p hp => ne_of_lt (hE0 p hp)),
                eraseE_append_right (fun p hp => ne_of_gt (hBk p hp))]
          · intro hyes
            rw [hci, hz]
            rw [← hibeq] at hw'
            obtain ⟨ks2, cs2, e1, e2, e3, e4, e5⟩ :=
              rebalance_at1 hch'.1 hch'.2 hw' hyes
            refine ⟨ks2, cs2, e1, e2, ?_, ?_, ?_⟩
            · rw [e3, hent]
              simp only [List.map_cons, List.flatten_cons]
              rw [eraseE_append_left (fun p hp => ne_of_lt (hE0 p hp)),
                eraseE_append_right (fun p hp => ne_of_gt (hBk p hp))]
              simp [List.append_assoc]
            · simp only [List.length_cons]; omega
            · simp only [List.length_cons]; omega
        · -- deep: recurse into the tail chain
          have hksne' : ks' ≠ [] := by
            intro hcon
            rw [hcon] at hpos
            simp [childIndex] at hpos
          obtain ⟨c, hget, hno', hyes'⟩ := ihk hch'.2 hksne' hlok0 hhi
          refine ⟨c, ?_, ?_, ?_⟩
          · rw [hci]
            simpa using hget
          · intro hno
            rw [hci]
            obtain ⟨hchn, hfn⟩ := hno' hno
            constructor
            · show chainWF (WFN MIN_KEYS h) lo hi (k0 :: ks')
                (c0 :: cs'.set (childIndex ks' k) (deleteRec c k))
              exact ⟨hch'.1, hchn⟩
            · show ((c0 :: cs'.set (childIndex ks' k) (deleteRec c k)).map
                entries).flatten = _
              simp only [List.map_cons, List.flatten_cons]
              rw [hfn, ← eraseE_append_left (fun p hp => ne_of_lt (hE0 p hp))]
          · intro hyes
            rw [hci]
            obtain ⟨ks2, cs2, e1, e2, e3, e4, e5⟩ := hyes' hyes
            obtain ⟨j, hj⟩ : ∃ j, childIndex ks' k = j + 1 :=
              ⟨childIndex ks' k - 1, by omega⟩
            rw [hj] at e1
            have e1' := @rebalance_cons k0 c0 _ _ _ _ _ _ e1
            have hlen2 := chainWF_length e2
            obtain ⟨d, ds, rfl⟩ : ∃ a t, cs2 = a :: t := by
              match cs2, hlen2 with
              | a :: t, _ => exact ⟨a, t, rfl⟩
            refine ⟨k0 :: ks2, c0 :: d :: ds, ?_, ?_, ?_, ?_, ?_⟩
            · rw [hj]
              exact e1'
            · show chainWF (WFN MIN_KEYS h) lo hi (k0 :: ks2) (c0 :: d :: ds)
              exact ⟨hch'.1, e2⟩
            · simp only [List.map_cons, List.flatten_cons] at e3 ⊢
              rw [e3, ← eraseE_append_left (fun p hp => ne_of_lt (hE0 p hp))]
            · simp only [List.length_cons]; omega
            · simp only [List.length_cons]; omega
      · -- descend into the first child
        have hci : childIndex (k0 :: ks') k = 0 := by
          rw [childIndex_cons, if_neg hk0]
        have hub : ubOK (some k0) k := by show k < k0; omega
        have hBk : ∀ p ∈ (cs'.map entries).flatten, k < p.1 := by
          intro p hp
          have h2 : k0 ≤ p.1 := (chain_entries_bounds hch'.2 p hp).1
          omega
        obtain ⟨hw', hent⟩ := IH hch'.1 hlo hub
        refine ⟨c0, ?_, ?_, ?_⟩
        · rw [hci]; simp
        · intro hno
          rw [hci]
          have hmk : MIN_KEYS ≤ numKeys (deleteRec c0 k) := by omega
          constructor
          · show chainWF (WFN MIN_KEYS h) lo hi (k0 :: ks') (deleteRec c0 k :: cs')
            exact ⟨WFN_strengthen hw' hmk, hch'.2⟩
          · show ((deleteRec c0 k :: cs').map entries).flatten = _
            simp only [List.map_cons, List.flatten_cons]
            rw [hent, eraseE_append_right (fun p hp => ne_of_gt (hBk p hp))]
        · intro hyes
          rw [hci]
          obtain ⟨ks2, cs2, e1, e2, e3, e4, e5⟩ := @rebalance_at0 _ _ _ _ _ c0 _ _ hch'.2 hw' hyes
          refine ⟨ks2, cs2, e1, e2, ?_, ?_, ?_⟩
          · rw [e3, hent]
            simp only [List.map_cons, List.flatten_cons]
            rw [eraseE_append_right (fun p hp => ne_of_gt (hBk p hp))]
          · simp only [List.length_cons]; omega
          · simp only [List.length_cons]; omega

/-- Deletion preserves well-formedness (with the minimum occupancy relaxed
by one at the entry node) and removes exactly the given key from the
in-order entries. -/
theorem deleteRec_wf {k : Int} : ∀ {h m : Nat} {lo hi : Option Int} {n : BNode},
    WFN m h lo hi n → (∀ ks cs, n = .node ks cs → 1 ≤ ks.length) →
    lbOK lo k → ubOK hi k →
    WFN (m - 1) h lo hi (deleteRec n k) ∧
    entries (deleteRec n k) = eraseE (entries n) k := by
  intro h
  induction h with
  | zero =>
    intro m lo hi n hw _ hlo hhi
    match n with
    | .leaf ks os =>
      rw [WFN_leaf_iff] at hw
      obtain ⟨h1, h2, h3, h4, h5⟩ := hw
      obtain ⟨s1, s2, s3, s4, s5⟩ := delete_from_leaf_spec h3 h4
      have hdl : deleteRec (.leaf ks os) k =
          .leaf (delete_from_leaf ks os k).1 (delete_from_leaf ks os k).2 := by
        rw [deleteRec]
      rw [hdl]
      constructor
      · rw [WFN_leaf_iff]
        have hle := s1.length_le
        refine ⟨by omega, by omega, s3, h4.sublist s1, ?_⟩
        intro x hx
        exact h5 x (s1.subset hx)
      · rw [entries_leaf, entries_leaf]
        exact s5
    | .node ks cs => exact absurd hw WFN_not_node_zero
  | succ h ih =>
    intro m lo hi n hw hk1 hlo hhi
    match n with
    | .leaf ks os => exact absurd hw WFN_not_leaf_succ
    | .node ks cs =>
      rw [WFN_node_iff] at hw
      obtain ⟨hw1, hw2, hch⟩ := hw
      have hksne : ks ≠ [] := by
        intro hcon
        have := hk1 ks cs rfl
        rw [hcon] at this
        simp at this
      have IH : ∀ {lo hi : Option Int} {n : BNode}, WFN MIN_KEYS h lo hi n →
          lbOK lo k → ubOK hi k →
          WFN (MIN_KEYS - 1) h lo hi (deleteRec n k) ∧
          entries (deleteRec n k) = eraseE (entries n) k := by
        intro lo hi n hwn hlo2 hhi2
        refine ih hwn ?_ hlo2 hhi2
        intro ks' cs' heq
        have hm := (WFN_numKeys hwn).1
        rw [heq] at hm
        have hm2 : MIN_KEYS ≤ ks'.length := hm
        norm_num [MIN_KEYS, MAX_KEYS] at hm2
        omega
      obtain ⟨c, hget, hno, hyes⟩ := chain_del IH hch hksne hlo hhi
      obtain ⟨hlt, hceq⟩ := List.getElem?_eq_some_iff.1 hget
      have hde : deleteRec (.node ks cs) k =
          if numKeys (deleteRec c k) < MIN_KEYS then
            rebalance ks cs (childIndex ks k) (deleteRec c k)
          else .node ks (cs.set (childIndex ks k) (deleteRec c k)) := by
        rw [deleteRec, dif_pos hlt, hceq]
      rw [hde]
      by_cases hund : numKeys (deleteRec c k) < MIN_KEYS
      · rw [if_pos hund]
        obtain ⟨ks2, cs2, e1, e2, e3, e4, e5⟩ := hyes hund
        rw [e1]
        constructor
        · rw [WFN_node_iff]
          exact ⟨by omega, by omega, e2⟩
        · rw [entries_node, entries_node]
          exact e3
      · rw [if_neg hund]
        obtain ⟨e2, e3⟩ := hno hund
        constructor
        · rw [WFN_node_iff]
          refine ⟨by omega, hw2, e2⟩
        · rw [entries_node, entries_node]
          exact e3

/-- delete_key preserves well-formedness, keeps an internal root at one or
more keys (collapsing a keyless root onto its single child), and removes
exactly the given key from the in-order entries. -/
theorem delete_key_wf {t : BPlusTree} {k : Int} {h : Nat}
    (hw : WFN 0 h none none t.root)
    (hroot : ∀ ks cs, t.root = .node ks cs → 1 ≤ ks.length) :
    ∃ h2, WFN 0 h2 none none (delete_key t k).root ∧
      (∀ ks cs, (delete_key t k).root = .node ks cs → 1 ≤ ks.length) ∧
      entries (delete_key t k).root = eraseE (entries t.root) k := by
  obtain ⟨lks, los, A, B, hf, hlen, hentdec, hA, hB⟩ :=
    find_leaf_ok (k := k) hw trivial trivial
  by_cases hk : k ∈ lks
  · have hd := deleteRec_wf (k := k) hw hroot trivial trivial
    match hr : deleteRec t.root k with
    | .leaf a b =>
      have dk : delete_key t k = ⟨.leaf a b⟩ := by
        rw [delete_key, hf]
        show (if k ∈ lks then
            match deleteRec t.root k with
            | .node [] (c :: _) => (⟨c⟩ : BPlusTree)
            | r => ⟨r⟩
          else t) = _
        rw [if_pos hk, hr]
      rw [hr] at hd
      rw [dk]
      exact ⟨h, hd.1, fun ks cs heq => absurd heq (by simp), hd.2⟩
    | .node [] [] =>
      rw [hr] at hd
      match h with
      | 0 => exact absurd hd.1 WFN_not_node_zero
      | h + 1 =>
        have := (WFN_node_iff.1 hd.1).2.2
        simp [chainWF] at this
    | .node [] (c :: rest) =>
      have dk : delete_key t k = ⟨c⟩ := by
        rw [delete_key, hf]
        show (if k ∈ lks then
            match deleteRec t.root k with
            | .node [] (c :: _) => (⟨c⟩ : BPlusTree)
            | r => ⟨r⟩
          else t) = _
        rw [if_pos hk, hr]
      rw [hr] at hd
      match h with
      | 0 => exact absurd hd.1 WFN_not_node_zero
      | h + 1 =>
        have hchn := (WFN_node_iff.1 hd.1).2.2
        match rest, hchn with
        | [], hc =>
          rw [dk]
          refine ⟨h, WFN_mono hc (by omega), ?_, ?_⟩
          · intro ks cs heq
            have heq2 : c = BNode.node ks cs := heq
            have hm := (WFN_numKeys hc).1
            rw [heq2] at hm
            have hm2 : MIN_KEYS ≤ ks.length := hm
            norm_num [MIN_KEYS, MAX_KEYS] at hm2
            omega
          · have he : entries (BNode.node [] [c]) = entries c := by
              rw [entries_node]; simp
            rw [← he]
            exact hd.2
    | .node (k1 :: ks1) cs1 =>
      have dk : delete_key t k = ⟨.node (k1 :: ks1) cs1⟩ := by
        rw [delete_key, hf]
        show (if k ∈ lks then
            match deleteRec t.root k with
            | .node [] (c :: _) => (⟨c⟩ : BPlusTree)
            | r => ⟨r⟩
          else t) = _
        rw [if_pos hk, hr]
      rw [hr] at hd
      rw [dk]
      refine ⟨h, hd.1, ?_, hd.2⟩
      intro ks cs heq
      have : k1 :: ks1 = ks := by injection heq
      rw [← this]
      simp
  · have dk : delete_key t k = t := by
      rw [delete_key, hf]
      show (if k ∈ lks then
          match deleteRec t.root k with
          | .node [] (c :: _) => (⟨c⟩ : BPlusTree)
          | r => ⟨r⟩
        else t) = _
      rw [if_neg hk]
    rw [dk]
    refine ⟨h, hw, hroot, ?_⟩
    rw [hentdec]
    have : eraseE (A ++ lks.zip los ++ B) k = A ++ lks.zip los ++ B := by
      apply eraseE_not_mem
      intro hc
      rcases List.mem_map.1 hc with ⟨p, hp, hpk⟩
      rcases List.mem_append.1 hp with hp1 | hp2
      · rcases List.mem_append.1 hp1 with hp3 | hp4
        · have := hA p hp3; omega
        · have : p.1 ∈ lks := by
            obtain ⟨x, y⟩ := p
            exact (List.of_mem_zip hp4).1
          rw [hpk] at this
          exact hk this
      · have := hB p hp2; omega
    rw [this]

/-! ## Sequences of index operations -/

theorem insertRec_one_node {ks : List Int} {cs : List BNode} {k off : Int} {n : BNode}
    (hs : insertRec (.node ks cs) k off = .one n) :
    ∃ ks2 cs2, n = .node ks2 cs2 ∧ ks.length ≤ ks2.length := by
  rw [insertRec] at hs
  by_cases hlt : childIndex ks k < cs.length
  · rw [dif_pos hlt] at hs
    match hrec : insertRec cs[childIndex ks k] k off with
    | .one c' =>
      rw [hrec] at hs
      injection hs with hs
      exact ⟨ks, cs.set (childIndex ks k) c', hs.symm, le_refl _⟩
    | .split l sep r =>
      rw [hrec] at hs
      simp only [] at hs
      by_cases hful : ks.length < MAX_KEYS
      · rw [if_pos hful] at hs
        injection hs with hs
        refine ⟨_, _, hs.symm, ?_⟩
        simp only [List.length_append, List.length_cons, List.length_take,
          List.length_drop]
        omega
      · rw [if_neg hful] at hs
        exact absurd hs (by simp)
  · rw [dif_neg hlt] at hs
    injection hs with hs
    exact ⟨ks, cs, hs.symm, le_refl _⟩

theorem insert_key_root_keys {t : BPlusTree} {k off : Int}
    (hroot : ∀ ks cs, t.root = .node ks cs → 1 ≤ ks.length) :
    ∀ ks cs, (insert_key t k off).root = .node ks cs → 1 ≤ ks.length := by
  obtain ⟨root⟩ := t
  match root with
  | .leaf [] os =>
    intro ks cs heq
    have : (BNode.leaf [k] [off]) = BNode.node ks cs := heq
    exact absurd this (by simp)
  | .leaf (k0 :: ks0) os =>
    have heq : insert_key ⟨.leaf (k0 :: ks0) os⟩ k off =
        match insertRec (.leaf (k0 :: ks0) os) k off with
        | .one n => ⟨n⟩
        | .split l sep r => ⟨.node [sep] [l, r]⟩ := rfl
    rw [heq]
    cases hres : insertRec (.leaf (k0 :: ks0) os) k off with
    | one n =>
      rw [insertRec] at hres
      by_cases hful : (k0 :: ks0).length < MAX_KEYS
      · rw [if_pos hful] at hres
        injection hres with hres
        intro ks cs hc
        rw [← hres] at hc
        exact absurd hc (by simp)
      · rw [if_neg hful] at hres
        exact absurd hres (by simp)
    | split l sep r =>
      intro ks cs hc
      have : (BNode.node [sep] [l, r]) = BNode.node ks cs := hc
      have h2 : [sep] = ks := by injection this
      rw [← h2]
      simp
  | .node rks rcs =>
    have heq : insert_key ⟨.node rks rcs⟩ k off =
        match insertRec (.node rks rcs) k off with
        | .one n => ⟨n⟩
        | .split l sep r => ⟨.node [sep] [l, r]⟩ := rfl
    rw [heq]
    cases hres : insertRec (.node rks rcs) k off with
    | one n =>
      obtain ⟨ks2, cs2, rfl, hlen⟩ := insertRec_one_node hres
      intro ks cs hc
      have : (BNode.node ks2 cs2) = BNode.node ks cs := hc
      have h2 : ks2 = ks := by injection this
      have h3 := hroot rks rcs rfl
      rw [← h2]
      omega
    | split l sep r =>
      intro ks cs hc
      have : (BNode.node [sep] [l, r]) = BNode.node ks cs := hc
      have h2 : [sep] = ks := by injection this
      rw [← h2]
      simp

theorem validFrom_append : ∀ (xs ys : List IOp) (m : List (Int × Int)),
    validFrom m (xs ++ ys) ↔ validFrom m xs ∧ validFrom (xs.foldl specStep m) ys := by
  intro xs
  induction xs with
  | nil => intro ys m; simp [validFrom, List.foldl]
  | cons x xs ih =>
    intro ys m
    match x with
    | .insert k off =>
      simp only [List.cons_append, validFrom, List.foldl_cons, specStep,
        List.append_eq]
      rw [ih]
      tauto
    | .del k =>
      simp only [List.cons_append, validFrom, List.foldl_cons, specStep,
        List.append_eq]
      rw [ih]

theorem validFrom_sorted : ∀ (ops : List IOp) (m : List (Int × Int)),
    validFrom m ops → (m.map Prod.fst).Pairwise (· < ·) →
    (((ops.foldl specStep m).map Prod.fst)).Pairwise (· < ·) := by
  intro ops
  induction ops with
  | nil => intro m _ hs; exact hs
  | cons op rest ih =>
    intro m hv hs
    match op with
    | .insert k off =>
      exact ih _ hv.2 (insE_keys_sorted hs hv.1)
    | .del k =>
      refine ih _ hv ?_
      have hsub := (eraseE_sublist m k).map Prod.fst
      exact hs.sublist hsub

theorem specMap_sorted {ops : List IOp} (hv : ValidOps ops) :
    ((specMap ops).map Prod.fst).Pairwise (· < ·) :=
  validFrom_sorted ops [] hv (by simp)

theorem lastEvent_append (ops : List IOp) (op : IOp) (k : Int) :
    lastEvent (ops ++ [op]) k =
      if opKey op == k then some op else lastEvent ops k := by
  rw [lastEvent, List.reverse_append]
  by_cases h : opKey op == k
  · rw [if_pos h]
    show List.find? _ (op :: ops.reverse) = _
    exact List.find?_cons_of_pos _ h
  · rw [if_neg h]
    have he : List.find? (fun o => opKey o == k) (op :: ops.reverse) =
        List.find? (fun o => opKey o == k) ops.reverse :=
      List.find?_cons_of_neg ops.reverse h
    show List.find? (fun o => opKey o == k) (op :: ops.reverse) = _
    rw [he]
    rfl

theorem specMap_lookup {k : Int} : ∀ {ops : List IOp}, ValidOps ops →
    lookupE (specMap ops) k = specResult ops k := by
  intro ops
  induction ops using List.reverseRecOn with
  | nil => intro _; rfl
  | append_singleton ops' op ih =>
    intro hv
    have hv2 := (validFrom_append ops' [op] []).1 hv
    have hv' : ValidOps ops' := hv2.1
    have hsorted := specMap_sorted hv'
    have hsm : specMap (ops' ++ [op]) = specStep (specMap ops') op := by
      rw [specMap, List.foldl_append]
      rfl
    rw [hsm, specResult, lastEvent_append]
    match op with
    | .insert k2 off =>
      by_cases hk : k2 = k
      · subst hk
        rw [if_pos (by simp [opKey])]
        show lookupE (insE (specMap ops') k2 off) k2 = off
        exact lookupE_insE_self hv2.2.1
      · rw [if_neg (by simp [opKey, hk])]
        show lookupE (insE (specMap ops') k2 off) k = _
        rw [lookupE_insE_other (fun hc => hk hc.symm), ih hv']
        rfl
    | .del k2 =>
      by_cases hk : k2 = k
      · subst hk
        rw [if_pos (by simp [opKey])]
        show lookupE (eraseE (specMap ops') k2) k2 = -1
        exact lookupE_eraseE_self hsorted
      · rw [if_neg (by simp [opKey, hk])]
        show lookupE (eraseE (specMap ops') k2) k = _
        rw [lookupE_eraseE_other (fun hc => hk hc.symm), ih hv']
        rfl

theorem applyIOps_inv : ∀ (ops : List IOp) (t : BPlusTree),
    validFrom (entries t.root) ops →
    (∃ h, WFN 0 h none none t.root) →
    (∀ ks cs, t.root = .node ks cs → 1 ≤ ks.length) →
    (∃ h, WFN 0 h none none (ops.foldl applyIOp t).root) ∧
    (∀ ks cs, (ops.foldl applyIOp t).root = .node ks cs → 1 ≤ ks.length) ∧
    entries (ops.foldl applyIOp t).root = ops.foldl specStep (entries t.root) := by
  intro ops
  induction ops with
  | nil => intro t _ hw hroot; exact ⟨hw, hroot, rfl⟩
  | cons op rest ih =>
    intro t hv hw hroot
    match op with
    | .insert k off =>
      obtain ⟨hw2, hent2⟩ := insert_key_wf hw hv.1
      have hroot2 := @insert_key_root_keys t k off hroot
      have hv2 : validFrom (entries (insert_key t k off).root) rest := by
        rw [hent2]
        exact hv.2
      obtain ⟨a, b, c⟩ := ih (insert_key t k off) hv2 hw2 hroot2
      refine ⟨a, b, ?_⟩
      show entries (List.foldl applyIOp (insert_key t k off) rest).root =
        List.foldl specStep (insE (entries t.root) k off) rest
      rw [c, hent2]
    | .del k =>
      obtain ⟨h, hwn⟩ := hw
      obtain ⟨h2, hw2, hroot2, hent2⟩ := delete_key_wf hwn hroot
      have hv2 : validFrom (entries (delete_key t k).root) rest := by
        rw [hent2]
        exact hv
      obtain ⟨a, b, c⟩ := ih (delete_key t k) hv2 ⟨h2, hw2⟩ hroot2
      refine ⟨a, b, ?_⟩
      show entries (List.foldl applyIOp (delete_key t k) rest).root =
        List.foldl specStep (eraseE (entries t.root) k) rest
      rw [c, hent2]

theorem entries_init : entries (initialize_tree).root = [] := by
  show entries (.leaf [] []) = []
  rw [entries_leaf]
  rfl

theorem init_root_keys : ∀ ks cs, (initialize_tree).root = .node ks cs → 1 ≤ ks.length := by
  intro ks cs h
  exact BNode.noConfusion (h : BNode.leaf [] [] = BNode.node ks cs)

theorem init_wf : ∃ h, WFN 0 h none none (initialize_tree).root := by
  refine ⟨0, ?_⟩
  show WFN 0 0 none none (.leaf [] [])
  rw [WFN_leaf_iff]
  exact ⟨by norm_num, by norm_num [MAX_KEYS], rfl, by simp, by simp⟩

theorem applyIOps_wf {ops : List IOp} (hv : ValidOps ops) :
    (∃ h, WFN 0 h none none (applyIOps ops).root) ∧
    (∀ ks cs, (applyIOps ops).root = .node ks cs → 1 ≤ ks.length) ∧
    entries (applyIOps ops).root = specMap ops := by
  have hv2 : validFrom (entries (initialize_tree).root) ops := by
    rw [entries_init]
    exact hv
  obtain ⟨a, b, c⟩ := applyIOps_inv ops initialize_tree hv2 init_wf init_root_keys
  refine ⟨a, b, ?_⟩
  rw [applyIOps, c, entries_init]
  rfl

/-! ## Claim theorems for the index -/

/-- C1: for every finite sequence of insert_key/delete_key operations
starting from initialize_tree in which no key is inserted while already
present, search_key returns the offset passed to the most recent
insert_key of the key not followed by a delete_key of it, and the
not-found sentinel -1 if the key was deleted since its last insert or was
never inserted. -/
theorem C1_search_follows_history (ops : List IOp) (hv : ValidOps ops) (k : Int) :
    search_key (applyIOps ops) k = specResult ops k := by
  obtain ⟨hwf, _, hent⟩ := applyIOps_wf hv
  rw [search_key_entries hwf, hent]
  exact specMap_lookup hv

theorem C1_witness :
    ValidOps [IOp.insert 1 10, IOp.insert 2 20, IOp.del 1] ∧
    search_key (applyIOps [IOp.insert 1 10, IOp.insert 2 20, IOp.del 1]) 1 =
      specResult [IOp.insert 1 10, IOp.insert 2 20, IOp.del 1] 1 :=
  ⟨by decide, C1_search_follows_history _ (by decide) 1⟩

/-- C2: after every sequence of valid index mutations from
initialize_tree, every non-root node holds between MIN_KEYS and MAX_KEYS
keys, every internal node with j keys has exactly j + 1 children, and the
leaf-chain keys are strictly ascending (hence duplicate-free) and
identical to the in-order traversal of the tree. -/
theorem C2_invariants_hold (ops : List IOp) (hv : ValidOps ops) :
    rootOccOK (applyIOps ops).root ∧
    (leafChainKeys (applyIOps ops).root).Pairwise (· < ·) ∧
    leafChainKeys (applyIOps ops).root = treeKeys (applyIOps ops).root := by
  obtain ⟨⟨h, hwn⟩, _, _⟩ := applyIOps_wf hv
  refine ⟨WF_rootOcc ⟨h, hwn⟩, ?_, ?_⟩
  · rw [leafChainKeys_eq hwn]
    exact entries_sorted hwn
  · rw [leafChainKeys_eq hwn]
    rfl

theorem C2_witness :
    ValidOps [IOp.insert 3 30, IOp.insert 1 10, IOp.insert 2 20, IOp.del 3] ∧
    (rootOccOK (applyIOps [IOp.insert 3 30, IOp.insert 1 10, IOp.insert 2 20,
        IOp.del 3]).root ∧
      (leafChainKeys (applyIOps [IOp.insert 3 30, IOp.insert 1 10, IOp.insert 2 20,
        IOp.del 3]).root).Pairwise (· < ·) ∧
      leafChainKeys (applyIOps [IOp.insert 3 30, IOp.insert 1 10, IOp.insert 2 20,
        IOp.del 3]).root =
        treeKeys (applyIOps [IOp.insert 3 30, IOp.insert 1 10, IOp.insert 2 20,
        IOp.del 3]).root) :=
  ⟨by decide, C2_invariants_hold _ (by decide)⟩

/-- C9: delete_key of a key that is not present in the tree returns the
tree unchanged: no node, no leaf chain and no root is modified. -/
theorem C9_delete_absent_is_noop {t : BPlusTree} {k : Int} (hw : WF t)
    (hk : k ∉ treeKeys t.root) : delete_key t k = t := by
  obtain ⟨h, hwn⟩ := hw
  obtain ⟨lks, los, A, B, hf, hlen, hentdec, hA, hB⟩ :=
    find_leaf_ok (k := k) hwn trivial trivial
  have hknot : k ∉ lks := by
    intro hc
    apply hk
    rw [treeKeys, hentdec]
    simp only [List.map_append, List.mem_append]
    refine Or.inl (Or.inr ?_)
    rw [List.map_fst_zip lks los (le_of_eq hlen)]
    exact hc
  rw [delete_key, hf]
  show (if k ∈ lks then
      match deleteRec t.root k with
      | .node [] (c :: _) => (⟨c⟩ : BPlusTree)
      | r => ⟨r⟩
    else t) = t
  rw [if_neg hknot]

theorem C9_witness : delete_key ⟨.leaf [1, 2] [10, 20]⟩ 5 = ⟨.leaf [1, 2] [10, 20]⟩ :=
  C9_delete_absent_is_noop
    ⟨0, by
      rw [WFN_leaf_iff]
      exact ⟨by norm_num, by norm_num [MAX_KEYS], rfl, by decide, by decide⟩⟩
    (by rw [treeKeys, entries_leaf]; decide)

/-- C8 (amended): inserting into a leaf that already holds MAX_KEYS keys
merges the existing entries with the new one into a sorted array of
MAX_KEYS + 1 entries and splits it, keeping the FIRST (MAX_KEYS+1)/2 = 2
entries (the floor, not the ceiling claimed by the specification) in the
original leaf, moving the remaining entries to the new right leaf, and
handing the right leaf's first key to the parent as the separator. -/
theorem C8_full_leaf_split {ks os : List Int} {k off : Int}
    (hlen : ks.length = os.length) (hful : ks.length = MAX_KEYS)
    (hsort : ks.Pairwise (· < ·)) (hfresh : k ∉ ks) :
    ∃ l sep r, insertRec (.leaf ks os) k off = .split l sep r ∧
      entries l = (insE (entries (.leaf ks os)) k off).take ((MAX_KEYS + 1) / 2) ∧
      entries r = (insE (entries (.leaf ks os)) k off).drop ((MAX_KEYS + 1) / 2) ∧
      numKeys l = (MAX_KEYS + 1) / 2 ∧
      numKeys r = (MAX_KEYS + 1) - (MAX_KEYS + 1) / 2 ∧
      sep = ((entries r).headD (0, 0)).1 := by
  have hp := mergePos_le_length ks k
  have hins : insertRec (.leaf ks os) k off =
      .split
        (.leaf ((ks.take (mergePos ks k) ++ k :: ks.drop (mergePos ks k)).take ((MAX_KEYS + 1) / 2))
          ((os.take (mergePos ks k) ++ off :: os.drop (mergePos ks k)).take ((MAX_KEYS + 1) / 2)))
        (((ks.take (mergePos ks k) ++ k :: ks.drop (mergePos ks k)).drop ((MAX_KEYS + 1) / 2)).headD 0)
        (.leaf ((ks.take (mergePos ks k) ++ k :: ks.drop (mergePos ks k)).drop ((MAX_KEYS + 1) / 2))
          ((os.take (mergePos ks k) ++ off :: os.drop (mergePos ks k)).drop ((MAX_KEYS + 1) / 2))) := by
    rw [insertRec, if_neg (by omega)]
  have hzip := @mergePos_zip ks os k off hlen hsort hfresh
  have htl : (ks.take (mergePos ks k) ++ k :: ks.drop (mergePos ks k)).length =
      MAX_KEYS + 1 := by
    simp only [List.length_append, List.length_cons, List.length_take, List.length_drop]
    omega
  have hto : (os.take (mergePos ks k) ++ off :: os.drop (mergePos ks k)).length =
      MAX_KEYS + 1 := by
    simp only [List.length_append, List.length_cons, List.length_take, List.length_drop]
    omega
  have hdk : ((ks.take (mergePos ks k) ++ k :: ks.drop (mergePos ks k)).drop
      ((MAX_KEYS + 1) / 2)).length = (MAX_KEYS + 1) - (MAX_KEYS + 1) / 2 := by
    rw [List.length_drop, htl]
  have hdo : ((os.take (mergePos ks k) ++ off :: os.drop (mergePos ks k)).drop
      ((MAX_KEYS + 1) / 2)).length = (MAX_KEYS + 1) - (MAX_KEYS + 1) / 2 := by
    rw [List.length_drop, hto]
  refine ⟨_, _, _, hins, ?_, ?_, ?_, ?_, ?_⟩
  · rw [entries_leaf, entries_leaf, zip_take_take, hzip]
  · rw [entries_leaf, entries_leaf, zip_drop_drop, hzip]
  · show ((ks.take (mergePos ks k) ++ k :: ks.drop (mergePos ks k)).take
      ((MAX_KEYS + 1) / 2)).length = (MAX_KEYS + 1) / 2
    rw [List.length_take, htl]
    norm_num [MAX_KEYS]
  · show ((ks.take (mergePos ks k) ++ k :: ks.drop (mergePos ks k)).drop
      ((MAX_KEYS + 1) / 2)).length = (MAX_KEYS + 1) - (MAX_KEYS + 1) / 2
    exact hdk
  · rw [entries_leaf]
    have hne1 : (MAX_KEYS + 1) - (MAX_KEYS + 1) / 2 ≠ 0 := by norm_num [MAX_KEYS]
    obtain ⟨a, ta, ha⟩ : ∃ a ta,
        (ks.take (mergePos ks k) ++ k :: ks.drop (mergePos ks k)).drop
          ((MAX_KEYS + 1) / 2) = a :: ta := by
      match hg : (ks.take (mergePos ks k) ++ k :: ks.drop (mergePos ks k)).drop
          ((MAX_KEYS + 1) / 2) with
      | a :: ta => exact ⟨a, ta, rfl⟩
      | [] => rw [hg] at hdk; simp at hdk; omega
    obtain ⟨b, tb, hb⟩ : ∃ b tb,
        (os.take (mergePos ks k) ++ off :: os.drop (mergePos ks k)).drop
          ((MAX_KEYS + 1) / 2) = b :: tb := by
      match hg : (os.take (mergePos ks k) ++ off :: os.drop (mergePos ks k)).drop
          ((MAX_KEYS + 1) / 2) with
      | b :: tb => exact ⟨b, tb, rfl⟩
      | [] => rw [hg] at hdo; simp at hdo; omega
    rw [ha, hb]
    rfl

theorem C8_witness :
    ([1, 2, 3, 4] : List Int).length = ([10, 20, 30, 40] : List Int).length ∧
    ([1, 2, 3, 4] : List Int).length = MAX_KEYS ∧
    ([1, 2, 3, 4] : List Int).Pairwise (· < ·) ∧
    (5 : Int) ∉ ([1, 2, 3, 4] : List Int) ∧
    (∃ l sep r, insertRec (.leaf [1, 2, 3, 4] [10, 20, 30, 40]) 5 50 = .split l sep r ∧
      entries l = (insE (entries (.leaf [1, 2, 3, 4] [10, 20, 30, 40])) 5 50).take
        ((MAX_KEYS + 1) / 2) ∧
      entries r = (insE (entries (.leaf [1, 2, 3, 4] [10, 20, 30, 40])) 5 50).drop
        ((MAX_KEYS + 1) / 2) ∧
      numKeys l = (MAX_KEYS + 1) / 2 ∧
      numKeys r = (MAX_KEYS + 1) - (MAX_KEYS + 1) / 2 ∧
      sep = ((entries r).headD (0, 0)).1) :=
  ⟨by decide, by decide, by decide, by decide,
    C8_full_leaf_split (by decide) (by decide) (by decide) (by decide)⟩

/-- C8 counterexample: on inserting key 5 into the full leaf with keys
1, 2, 3, 4, the original leaf retains only 2 entries, while the
specification's ceil((MAX_KEYS+1)/2) would be 3. -/
theorem C8_counterexample :
    insertRec (.leaf [1, 2, 3, 4] [10, 20, 30, 40]) 5 50 =
      .split (.leaf [1, 2] [10, 20]) 3 (.leaf [3, 4, 5] [30, 40, 50]) ∧
    numKeys (.leaf [1, 2] [10, 20]) = 2 ∧
    (MAX_KEYS + 1 + 1) / 2 = 3 := by
  refine ⟨?_, by decide, by norm_num [MAX_KEYS]⟩
  rw [insertRec]
  rfl

/-! ## Row store: insert_row -/

theorem writeColsEff_nil (ncols : Nat) (vals : List (Option String)) :
    ∀ (i : Nat) (file : List Char),
      writeColsEff ncols vals [] i file =
        (file ++ ((List.range' i (ncols - i)).map
          (fun j => sanitize (vals.getD j none) ++
            [if j = ncols - 1 then '\n' else '|'])).flatten, true) := by
  suffices h : ∀ (fuel i : Nat) (file : List Char), ncols - i = fuel →
      writeColsEff ncols vals [] i file =
        (file ++ ((List.range' i (ncols - i)).map
          (fun j => sanitize (vals.getD j none) ++
            [if j = ncols - 1 then '\n' else '|'])).flatten, true) by
    intro i file
    exact h (ncols - i) i file rfl
  intro fuel
  induction fuel with
  | zero =>
    intro i file hf
    rw [writeColsEff, dif_neg (by omega), hf]
    simp
  | succ fuel ih =>
    intro i file hf
    have hi : i < ncols := by omega
    rw [writeColsEff, dif_pos hi]
    rw [if_pos (show ([] : List Bool).getD (3 + i) true = true from rfl)]
    rw [ih (i + 1) _ (by omega)]
    rw [hf, show List.range' i (fuel + 1) = i :: List.range' (i + 1) fuel from rfl]
    rw [show ncols - (i + 1) = fuel from by omega]
    simp [List.append_assoc]

theorem writeColsEff_happy (t : TableM) (vals : List (Option String)) :
    writeColsEff t.ncols vals [] 0 (t.file ++ [' ']) =
      (t.file ++ encodeRow t.ncols vals, true) := by
  rw [writeColsEff_nil, encodeRow, rowColsBytes, List.range_eq_range']
  simp

theorem insert_row_fresh_eq {t : TableM} {k : Int} {vals : List (Option String)}
    (hab : search_key t.index k = -1) :
    insert_row t k vals = (some (t.file.length : Int),
      { t with file := t.file ++ encodeRow t.ncols vals,
               index := insert_key t.index k (t.file.length : Int) }) := by
  rw [insert_row]
  simp only [insert_row_io, hab, writeColsEff_happy]
  norm_num

/-- C5: insert_row with a key already present in the index fails with the
failure value and performs no I/O at all: the returned table, its file
contents and its index are exactly the input table. -/
theorem C5_insert_duplicate_fails {t : TableM} {k : Int} {vals : List (Option String)}
    {io : List Bool} (hp : search_key t.index k ≠ -1) :
    insert_row_io t k vals io = (none, t) := by
  rw [insert_row_io, if_pos hp]

theorem C5_witness : insert_row_io ⟨1, [' ', '7', '\n'], ⟨.leaf [7] [0]⟩⟩ 7
      [some "8"] [] = (none, ⟨1, [' ', '7', '\n'], ⟨.leaf [7] [0]⟩⟩) :=
  C5_insert_duplicate_fails
    (by simp [search_key, find_leaf_node, leafLookup])

/-- C6: a successful insert_row of a key not present in the index appends
one encoded line at the previous end of file, records that offset in the
index, and returns it; whenever any of the fallible I/O steps fails the
call returns the failure value and the index is left unchanged. -/
theorem C6_insert_fresh_appends (t : TableM) (k : Int) (vals : List (Option String))
    (hab : search_key t.index k = -1) :
    insert_row t k vals =
      (some (t.file.length : Int),
        { t with file := t.file ++ encodeRow t.ncols vals,
                 index := insert_key t.index k (t.file.length : Int) }) ∧
    ∀ io : List Bool, (insert_row_io t k vals io).1 = none →
      (insert_row_io t k vals io).2.index = t.index := by
  refine ⟨insert_row_fresh_eq hab, ?_⟩
  intro io hnone
  by_cases h0 : io.getD 0 true = false
  · have he : insert_row_io t k vals io = (none, t) := by
      rw [insert_row_io, if_neg (by rw [hab]; simp), if_pos h0]
    rw [he]
  · by_cases h1 : io.getD 1 true = false
    · have he : insert_row_io t k vals io = (none, t) := by
        rw [insert_row_io, if_neg (by rw [hab]; simp), if_neg h0, if_pos h1]
      rw [he]
    · by_cases h2 : io.getD 2 true = false
      · have he : insert_row_io t k vals io = (none, t) := by
          rw [insert_row_io, if_neg (by rw [hab]; simp), if_neg h0, if_neg h1, if_pos h2]
        rw [he]
      · by_cases hw2 : (writeColsEff t.ncols vals io 0 (t.file ++ [' '])).2 = false
        · have he : insert_row_io t k vals io =
              (none, { t with file := (writeColsEff t.ncols vals io 0 (t.file ++ [' '])).1 }) := by
            simp only [insert_row_io]
            rw [if_neg (by rw [hab]; simp), if_neg h0, if_neg h1, if_neg h2, if_pos hw2]
          rw [he]
        · by_cases hfl : io.getD (3 + t.ncols) true = false
          · have he : insert_row_io t k vals io =
                (none, { t with file := (writeColsEff t.ncols vals io 0 (t.file ++ [' '])).1 }) := by
              simp only [insert_row_io]
              rw [if_neg (by rw [hab]; simp), if_neg h0, if_neg h1, if_neg h2, if_neg hw2,
                if_pos hfl]
            rw [he]
          · have he : insert_row_io t k vals io =
                (some (t.file.length : Int),
                  { t with file := (writeColsEff t.ncols vals io 0 (t.file ++ [' '])).1,
                           index := insert_key t.index k (t.file.length : Int) }) := by
              simp only [insert_row_io]
              rw [if_neg (by rw [hab]; simp), if_neg h0, if_neg h1, if_neg h2, if_neg hw2,
                if_neg hfl]
            rw [he] at hnone
            simp at hnone

theorem C6_witness :
    search_key (table0 2).index 9 = -1 ∧
    (insert_row (table0 2) 9 [some "9", some "x"] =
      (some ((table0 2).file.length : Int),
        { table0 2 with
          file := (table0 2).file ++ encodeRow (table0 2).ncols [some "9", some "x"],
          index := insert_key (table0 2).index 9 ((table0 2).file.length : Int) }) ∧
    ∀ io : List Bool, (insert_row_io (table0 2) 9 [some "9", some "x"] io).1 = none →
      (insert_row_io (table0 2) 9 [some "9", some "x"] io).2.index = (table0 2).index) :=
  ⟨by simp [table0, initialize_tree, search_key, find_leaf_node, leafLookup],
    C6_insert_fresh_appends (table0 2) 9 [some "9", some "x"]
      (by simp [table0, initialize_tree, search_key, find_leaf_node, leafLookup])⟩

/-- C10: every supplied column value is silently truncated to at most
MAX_ROW_LEN - 1 bytes before sanitization and writing, a NULL value
pointer is written as the empty string, and neither condition is reported
as an error: insert_row on an absent key and update_row on a present key
succeed for arbitrary values. -/
theorem C10_truncation_silent (v : Option String) (t t2 : TableM) (k k2 : Int)
    (vals vals2 : List (Option String))
    (hfresh : search_key t.index k = -1) (hpres : search_key t2.index k2 ≠ -1) :
    (sanitize v).length ≤ MAX_ROW_LEN - 1 ∧
    sanitize none = [] ∧
    (∃ off, (insert_row t k vals).1 = some off) ∧
    (∃ off, (update_row t2 k2 vals2).1 = some off) := by
  refine ⟨?_, rfl, ?_, ?_⟩
  · rw [sanitize, List.length_map]
    exact List.length_take_le _ _
  · rw [insert_row_fresh_eq hfresh]
    exact ⟨_, rfl⟩
  · simp only [update_row]
    rw [if_neg hpres]
    exact ⟨_, rfl⟩

theorem C10_witness :
    search_key (table0 1).index 4 = -1 ∧
    search_key (⟨1, [' ', '3', '\n'], ⟨.leaf [3] [0]⟩⟩ : TableM).index 3 ≠ -1 ∧
    ((sanitize (some "a#b")).length ≤ MAX_ROW_LEN - 1 ∧
      sanitize none = [] ∧
      (∃ off, (insert_row (table0 1) 4 [none]).1 = some off) ∧
      (∃ off, (update_row ⟨1, [' ', '3', '\n'], ⟨.leaf [3] [0]⟩⟩ 3 [none]).1 = some off)) :=
  ⟨by simp [table0, initialize_tree, search_key, find_leaf_node, leafLookup],
   by simp [search_key, find_leaf_node, leafLookup],
   C10_truncation_silent (some "a#b") (table0 1) ⟨1, [' ', '3', '\n'], ⟨.leaf [3] [0]⟩⟩
     4 3 [none] [none]
     (by simp [table0, initialize_tree, search_key, find_leaf_node, leafLookup])
     (by simp [search_key, find_leaf_node, leafLookup])⟩

/-- C4 (amended): update_row on a present key succeeds, marks the old
record deleted in place, appends the freshly encoded row at the previous
end of file, returns that offset, and replaces the index entry; whenever
the old offset lies inside the file the new offset differs from it.  The
original claim that read_row afterwards returns exactly the supplied
values is refuted by C4_counterexample. -/
theorem C4_update_marks_and_appends {t : TableM} {k : Int} {vals : List (Option String)}
    (hpres : search_key t.index k ≠ -1) :
    update_row t k vals =
      (some (t.file.length : Int),
        { t with
          file := t.file.set (search_key t.index k).toNat DELETED_MARKER ++
            encodeRow t.ncols vals,
          index := insert_key (delete_key t.index k) k (t.file.length : Int) }) ∧
    ((search_key t.index k).toNat < t.file.length →
      (t.file.length : Int) ≠ search_key t.index k) := by
  constructor
  · simp only [update_row]
    rw [if_neg hpres]
    simp [List.length_set]
  · intro hlt
    omega

theorem C4_witness :
    search_key (⟨1, [' ', '3', '\n'], ⟨.leaf [3] [0]⟩⟩ : TableM).index 3 ≠ -1 ∧
    (update_row ⟨1, [' ', '3', '\n'], ⟨.leaf [3] [0]⟩⟩ 3 [some "z"] =
      (some ((3 : Nat) : Int),
        { (⟨1, [' ', '3', '\n'], ⟨.leaf [3] [0]⟩⟩ : TableM) with
          file := ([' ', '3', '\n'].set
            (search_key (⟨1, [' ', '3', '\n'], ⟨.leaf [3] [0]⟩⟩ : TableM).index 3).toNat
            DELETED_MARKER) ++ encodeRow 1 [some "z"],
          index := insert_key
            (delete_key (⟨1, [' ', '3', '\n'], ⟨.leaf [3] [0]⟩⟩ : TableM).index 3) 3
            ((3 : Nat) : Int) }) ∧
      ((search_key (⟨1, [' ', '3', '\n'], ⟨.leaf [3] [0]⟩⟩ : TableM).index 3).toNat <
          ([' ', '3', '\n'] : List Char).length →
        (((3 : Nat) : Int)) ≠
          search_key (⟨1, [' ', '3', '\n'], ⟨.leaf [3] [0]⟩⟩ : TableM).index 3)) :=
  ⟨by simp [search_key, find_leaf_node, leafLookup],
   C4_update_marks_and_appends (by simp [search_key, find_leaf_node, leafLookup])⟩

/-- C4 counterexample: on a two-column table, updating the row with key 1
to the values "1" and "" succeeds, but read_row afterwards returns
not-found instead of the supplied values: the empty column value produces
no token under strtok_r, so the parsed column count check fails. -/
theorem C4_counterexample :
    (update_row (insert_row (table0 2) 1 [some "1", some "s"]).2 1
      [some "1", some ""]).1 = some 5 ∧
    read_row (update_row (insert_row (table0 2) 1 [some "1", some "s"]).2 1
      [some "1", some ""]).2 1 = none := by
  have h0 : search_key (table0 2).index 1 = -1 := by
    simp only [table0, initialize_tree, search_key]
    rw [find_leaf_node]
    rfl
  have h1 : (insert_row (table0 2) 1 [some "1", some "s"]).2 =
      ⟨2, [' ', '1', '|', 's', '\n'], ⟨.leaf [1] [0]⟩⟩ := by
    rw [insert_row_fresh_eq h0]
    rfl
  have hs1 : search_key (⟨2, [' ', '1', '|', 's', '\n'], ⟨.leaf [1] [0]⟩⟩ : TableM).index
      1 = 0 := by
    simp only [search_key]
    rw [find_leaf_node]
    rfl
  have hdel : delete_key (⟨.leaf [1] [0]⟩ : BPlusTree) 1 = ⟨.leaf [] []⟩ := by
    have hf : find_leaf_node (.leaf [1] [0]) 1 = some ([1], [0]) := by
      rw [find_leaf_node]
    have hdr : deleteRec (.leaf [1] [0]) 1 = .leaf [] [] := by
      rw [deleteRec]
      rfl
    rw [delete_key, hf]
    show (if (1 : Int) ∈ [(1 : Int)] then
        match deleteRec (.leaf [1] [0]) 1 with
        | .node [] (c :: _) => (⟨c⟩ : BPlusTree)
        | r => ⟨r⟩
      else ⟨.leaf [1] [0]⟩) = ⟨.leaf [] []⟩
    rw [if_pos (by decide), hdr]
  have h2 : (update_row (⟨2, [' ', '1', '|', 's', '\n'], ⟨.leaf [1] [0]⟩⟩ : TableM) 1
      [some "1", some ""]) =
      (some 5, ⟨2, ['#', '1', '|', 's', '\n', ' ', '1', '|', '\n'], ⟨.leaf [1] [5]⟩⟩) := by
    simp only [update_row, hs1]
    rw [if_neg (by decide)]
    rw [hdel]
    rfl
  rw [h1, h2]
  refine ⟨rfl, ?_⟩
  have hs2 : search_key (⟨2, ['#', '1', '|', 's', '\n', ' ', '1', '|', '\n'],
      ⟨.leaf [1] [5]⟩⟩ : TableM).index 1 = 5 := by
    simp only [search_key]
    rw [find_leaf_node]
    rfl
  have htok : tokenize ['1', '|', '\n'] = [['1']] := by
    rw [tokenize]
    rw [dif_neg (by decide)]
    rw [show List.dropWhile (fun x => ! isDelim x) ['1', '|', '\n'] = ['|', '\n'] from by decide]
    rw [tokenize]
    rw [dif_pos (by decide)]
    rw [tokenize]
    rw [dif_pos (by decide)]
    rw [tokenize]
    rfl
  simp only [read_row, hs2]
  rw [if_neg (by decide)]
  have hfg : fgetsAt ['#', '1', '|', 's', '\n', ' ', '1', '|', '\n'] (5 : Int).toNat =
      some [' ', '1', '|', '\n'] := by
    rw [fgetsAt, if_pos (by decide)]
    rfl
  rw [hfg]
  simp only [htok]
  rw [if_neg (by decide), if_neg (by decide), if_pos (by decide)]

theorem takeLine_no_newline : ∀ (n : Nat) (l : List Char),
    '\n' ∉ l.take n → takeLine l n = l.take n := by
  intro n
  induction n with
  | zero => intro l _; cases l <;> rfl
  | succ n ih =>
    intro l h
    match l with
    | [] => rfl
    | c :: cs =>
      rw [List.take_succ_cons] at h ⊢
      have hc : c ≠ '\n' := by
        intro hcon
        exact h (by rw [hcon]; simp)
      rw [show takeLine (c :: cs) (n + 1) =
        if c = '\n' then [c] else c :: takeLine cs n from by simp [takeLine]]
      rw [if_neg hc, ih cs (fun hcon => h (by simp [hcon]))]

theorem tokenize_no_delim : ∀ (l : List Char), (∀ c ∈ l, isDelim c = false) → l ≠ [] →
    tokenize l = [l] := by
  intro l hnd hne
  match l with
  | c :: cs =>
    rw [tokenize, dif_neg (by rw [hnd c (by simp)]; simp)]
    rw [List.takeWhile_eq_self_iff.2 (by intro x hx; rw [hnd x hx]; rfl)]
    rw [List.dropWhile_eq_nil_iff.2 (by intro x hx; rw [hnd x hx]; rfl)]
    rw [tokenize]

/-- Successful read_row evaluation rule: with a non-negative index hit, a
well-formed status byte and enough parsed tokens, read_row returns the
first ncols tokens of the fetched line. -/
theorem read_row_some_of (t : TableM) (k off : Int) (rest : List Char)
    (hs : search_key t.index k = off) (hoff : ¬ off = -1)
    (hfg : fgetsAt t.file off.toNat = some (' ' :: rest))
    (hlen : ¬ ((tokenize rest).take t.ncols).length ≠ t.ncols) :
    read_row t k = some ((tokenize rest).take t.ncols) := by
  rw [read_row]
  simp only [hs, hfg]
  rw [if_neg hoff]
  rw [if_neg (by decide), if_neg (by simp)]
  rw [if_neg hlen]

/-- C7 (amended): read_row returns not-found when the key is absent from
the index, when the stored line's first byte is the deleted marker, when
that byte is anything other than the valid marker ' ', and when fewer
tokens than the table's column count parse from the line.  The claim's
stronger guarantee that partial data is never returned in any other case
is refuted by C7_counterexample: an over-long stored column is returned
truncated. -/
theorem C7_read_row_failure_cases {t : TableM} {k : Int} :
    (search_key t.index k = -1 → read_row t k = none) ∧
    (∀ m rest, fgetsAt t.file (search_key t.index k).toNat = some (m :: rest) →
      (m = DELETED_MARKER ∨ m ≠ ' ' ∨ ((tokenize rest).take t.ncols).length ≠ t.ncols) →
      read_row t k = none) := by
  constructor
  · intro h
    simp only [read_row, h]
    simp
  · intro m rest hfg hcases
    by_cases hk : search_key t.index k = -1
    · simp only [read_row, hk]
      simp
    · simp only [read_row, hfg]
      rw [if_neg hk]
      by_cases h1 : m = DELETED_MARKER
      · rw [if_pos h1]
      · rw [if_neg h1]
        by_cases h2 : m ≠ ' '
        · rw [if_pos h2]
        · rw [if_neg h2]
          have h3 : ((tokenize rest).take t.ncols).length ≠ t.ncols := by tauto
          rw [if_pos h3]

theorem C7_witness : read_row (table0 1) 1 = none :=
  (C7_read_row_failure_cases (t := table0 1) (k := 1)).1
    (by
      simp only [table0, initialize_tree, search_key]
      rw [find_leaf_node]
      rfl)

/-- C7 counterexample: a 5000-byte column value is stored truncated to
4095 bytes, and read_row then succeeds returning only its first 4094
bytes — partial data — because fgets stops one byte before the newline is
reached; the call does not fail safely. -/
theorem C7_counterexample :
    read_row (insert_row (table0 1) 1
      [some (String.mk (List.replicate 5000 'a'))]).2 1 =
      some [List.replicate 4094 'a'] ∧
    sanitize (some (String.mk (List.replicate 5000 'a'))) = List.replicate 4095 'a' ∧
    List.replicate 4094 'a' ≠ sanitize (some (String.mk (List.replicate 5000 'a'))) := by
  have hsan : sanitize (some (String.mk (List.replicate 5000 'a'))) =
      List.replicate 4095 'a' := by
    rw [sanitize]
    rw [show (some (String.mk (List.replicate 5000 'a'))).getD "" =
      String.mk (List.replicate 5000 'a') from rfl]
    rw [show (String.mk (List.replicate 5000 'a')).toList = List.replicate 5000 'a' from rfl]
    rw [show MAX_ROW_LEN - 1 = 4095 from by norm_num [MAX_ROW_LEN]]
    rw [List.take_replicate, List.map_replicate]
    rw [show sanitizeChar 'a' = 'a' from by decide]
    norm_num
  refine ⟨?_, hsan, ?_⟩
  · have h0 : search_key (table0 1).index 1 = -1 := by
      simp only [table0, initialize_tree, search_key]
      rw [find_leaf_node]
      rfl
    have hrow : encodeRow 1 [some (String.mk (List.replicate 5000 'a'))] =
        ' ' :: (List.replicate 4095 'a' ++ ['\n']) := by
      rw [encodeRow, rowColsBytes]
      rw [show List.range 1 = [0] from rfl]
      rw [List.map_cons, List.map_nil, List.flatten_cons, List.flatten_nil,
        List.append_nil]
      rw [show ([some (String.mk (List.replicate 5000 'a'))].getD 0 none) =
        some (String.mk (List.replicate 5000 'a')) from rfl]
      rw [hsan]
      rw [if_pos (by norm_num)]
    have h1 : (insert_row (table0 1) 1 [some (String.mk (List.replicate 5000 'a'))]).2 =
        ⟨1, ' ' :: (List.replicate 4095 'a' ++ ['\n']), ⟨.leaf [1] [0]⟩⟩ := by
      rw [insert_row_fresh_eq h0]
      show (⟨1, [] ++ encodeRow 1 [some (String.mk (List.replicate 5000 'a'))],
        insert_key (table0 1).index 1 ((table0 1).file.length : Int)⟩ : TableM) = _
      rw [List.nil_append, hrow]
      rfl
    have hs : search_key (⟨.leaf [1] [0]⟩ : BPlusTree) 1 = 0 := by
      simp only [search_key]
      rw [find_leaf_node]
      rfl
    have hlen : (' ' :: (List.replicate 4095 'a' ++ ['\n'])).length = 4097 := by
      rw [List.length_cons, List.length_append, List.length_replicate]
      norm_num
    have htake : (' ' :: (List.replicate 4095 'a' ++ ['\n'])).take 4095 =
        ' ' :: List.replicate 4094 'a' := by
      show ' ' :: (List.replicate 4095 'a' ++ ['\n']).take 4094 = _
      rw [List.take_append_of_le_length (by rw [List.length_replicate]; norm_num)]
      rw [List.take_replicate]
      rw [show min 4094 4095 = 4094 from by norm_num]
    have htl : takeLine (' ' :: (List.replicate 4095 'a' ++ ['\n'])) 4095 =
        ' ' :: List.replicate 4094 'a' := by
      rw [takeLine_no_newline 4095 _ (by
        rw [htake]
        intro hc
        rcases List.mem_cons.1 hc with hc1 | hc2
        · exact absurd hc1 (by decide)
        · have := List.eq_of_mem_replicate hc2
          exact absurd this (by decide))]
      exact htake
    have hfg : fgetsAt (' ' :: (List.replicate 4095 'a' ++ ['\n'])) (0 : Int).toNat =
        some (' ' :: List.replicate 4094 'a') := by
      rw [fgetsAt, if_pos (by rw [hlen]; norm_num)]
      rw [show MAX_ROW_LEN - 1 = 4095 from by norm_num [MAX_ROW_LEN]]
      rw [show (' ' :: (List.replicate 4095 'a' ++ ['\n'])).drop (0 : Int).toNat =
        ' ' :: (List.replicate 4095 'a' ++ ['\n']) from rfl]
      rw [htl]
    have htok : tokenize (List.replicate 4094 'a') = [List.replicate 4094 'a'] := by
      refine tokenize_no_delim _ ?_ (by
        intro hc
        have := congrArg List.length hc
        rw [List.length_replicate] at this
        simp at this)
      intro c hc
      rw [List.eq_of_mem_replicate hc]
      rfl
    rw [h1]
    have h := read_row_some_of
      ⟨1, ' ' :: (List.replicate 4095 'a' ++ ['\n']), ⟨.leaf [1] [0]⟩⟩
      1 0 (List.replicate 4094 'a') hs (by decide) hfg
      (by rw [htok]; intro hc; exact hc rfl)
    rw [htok] at h
    exact h
  · rw [hsan]
    intro hc
    have := congrArg List.length hc
    rw [List.length_replicate, List.length_replicate] at this
    exact absurd this (by norm_num)

/-- takeLine returns a front segment of its input: appending what the
input holds past that segment's length restores the input. -/
theorem takeLine_append_drop : ∀ (n : Nat) (l : List Char),
    takeLine l n ++ l.drop (takeLine l n).length = l := by
  intro n
  induction n with
  | zero =>
    intro l
    rw [show takeLine l 0 = [] from by cases l <;> rfl]
    rfl
  | succ n ih =>
    intro l
    cases l with
    | nil => rfl
    | cons c cs =>
      rw [show takeLine (c :: cs) (n + 1) =
        if c = '\n' then [c] else c :: takeLine cs n from by simp [takeLine]]
      by_cases hc : c = '\n'
      · rw [if_pos hc]
        rfl
      · rw [if_neg hc]
        rw [List.length_cons, List.cons_append, List.drop_succ_cons]
        rw [ih cs]

/-- Each fgets read of the compaction stream on a nonempty file is
nonempty. -/
theorem takeLine_length_pos (c : Char) (cs : List Char) (n : Nat) :
    0 < (takeLine (c :: cs) (n + 1)).length := by
  rw [show takeLine (c :: cs) (n + 1) =
    if c = '\n' then [c] else c :: takeLine cs n from by simp [takeLine]]
  split <;> simp

/-- The fgets streaming loop of compact_table reads the whole file:
concatenating the successive reads restores the byte sequence. -/
theorem chunksFrom_flatten (l : List Char) : (chunksFrom l).flatten = l := by
  have H : ∀ (fuel : Nat) (l : List Char), l.length ≤ fuel →
      (chunksFrom l).flatten = l := by
    intro fuel
    induction fuel with
    | zero =>
      intro l hl
      cases l with
      | nil => rw [chunksFrom]; rfl
      | cons c cs => rw [List.length_cons] at hl; omega
    | succ fuel ih =>
      intro l hl
      cases l with
      | nil => rw [chunksFrom]; rfl
      | cons c cs =>
        rw [chunksFrom, List.flatten_cons]
        have hpos : 0 < (takeLine (c :: cs) (MAX_ROW_LEN - 1)).length := by
          rw [show MAX_ROW_LEN - 1 = 4094 + 1 from by norm_num [MAX_ROW_LEN]]
          exact takeLine_length_pos c cs 4094
        have hd := ih ((c :: cs).drop (takeLine (c :: cs) (MAX_ROW_LEN - 1)).length)
          (by
            rw [List.length_drop, List.length_cons]
            rw [List.length_cons] at hl
            omega)
        rw [hd]
        exact takeLine_append_drop _ _
  exact H l.length l le_rfl

/-- One compaction step grows the rewritten file by at most the length of
the line just read: a valid line is copied verbatim, anything else is
dropped. -/
theorem compactStep_fst_len (acc : List Char × BPlusTree) (buf : List Char) :
    (compactStep acc buf).1.length ≤ acc.1.length + buf.length := by
  cases buf with
  | nil =>
    simp only [compactStep]
    simp
  | cons m rest =>
    simp only [compactStep]
    by_cases hm : m ≠ DELETED_MARKER ∧ m = ' '
    · rw [if_pos hm]
      cases hsc : strtokFirstCol rest with
      | none =>
        simp only [hsc]
        simp
      | some fc =>
        simp only [hsc]
        simp [List.length_append]
    · rw [if_neg hm]
      simp

/-- The compaction fold writes at most as many bytes as the reads it
consumed held together. -/
theorem foldl_compactStep_len : ∀ (bufs : List (List Char))
    (acc : List Char × BPlusTree),
    (bufs.foldl compactStep acc).1.length ≤ acc.1.length + bufs.flatten.length := by
  intro bufs
  induction bufs with
  | nil =>
    intro acc
    simp
  | cons b bs ih =>
    intro acc
    rw [List.foldl_cons, List.flatten_cons, List.length_append]
    have h1 := compactStep_fst_len acc b
    have h2 := ih (compactStep acc b)
    omega

/-- C3 (amended): compact_table never grows the data file — the compacted
file's byte length is at most the old file's, since every line is either
copied verbatim or dropped.  The claim's stronger guarantee that every
previously live key still reads back its values is refuted by
C3_counterexample: the rebuilt index keys each surviving row by the atoi
of its first column, which need not equal the key it was stored under.
The remove/rename/reopen of the on-disk file is abstracted into the
in-memory replacement of the file contents and the index. -/
theorem C3_compact_no_growth (t : TableM) :
    (compact_table t).file.length ≤ t.file.length := by
  have h := foldl_compactStep_len (chunksFrom t.file) ([], initialize_tree)
  rw [chunksFrom_flatten] at h
  rw [compact_table]
  simpa using h

/-- C3 counterexample: key 5 is inserted with first column "7" and reads
back its values, but compact_table re-keys the surviving row by the atoi
of its first column (7), so read_row at the still-live key 5 afterwards
returns not-found instead of the same values. -/
theorem C3_counterexample :
    read_row (insert_row (table0 2) 5 [some "7", some "x"]).2 5 =
      some [['7'], ['x']] ∧
    read_row (compact_table (insert_row (table0 2) 5 [some "7", some "x"]).2) 5 =
      none := by
  have h0 : search_key (table0 2).index 5 = -1 := by
    simp only [table0, initialize_tree, search_key]
    rw [find_leaf_node]
    rfl
  have h1 : (insert_row (table0 2) 5 [some "7", some "x"]).2 =
      ⟨2, [' ', '7', '|', 'x', '\n'], ⟨.leaf [5] [0]⟩⟩ := by
    rw [insert_row_fresh_eq h0]
    show (⟨2, [] ++ encodeRow 2 [some "7", some "x"],
      insert_key (table0 2).index 5 (((table0 2).file.length : Int))⟩ : TableM) = _
    rw [List.nil_append]
    rw [show encodeRow 2 [some "7", some "x"] = [' ', '7', '|', 'x', '\n'] from rfl]
    rfl
  have hs : search_key (⟨.leaf [5] [0]⟩ : BPlusTree) 5 = 0 := by
    simp only [search_key]
    rw [find_leaf_node]
    rfl
  have e1 : tokenize ['7', '|', 'x', '\n'] = ['7'] :: tokenize ['|', 'x', '\n'] := by
    rw [tokenize, dif_neg (by decide)]
    rfl
  have e2 : tokenize ['|', 'x', '\n'] = tokenize ['x', '\n'] := by
    rw [tokenize, dif_pos (by decide)]
  have e3 : tokenize ['x', '\n'] = ['x'] :: tokenize ['\n'] := by
    rw [tokenize, dif_neg (by decide)]
    rfl
  have e4 : tokenize ['\n'] = ([] : List (List Char)) := by
    rw [tokenize, dif_pos (by decide), tokenize]
  have htok : tokenize ['7', '|', 'x', '\n'] = [['7'], ['x']] := by
    rw [e1, e2, e3, e4]
  refine ⟨?_, ?_⟩
  · rw [h1]
    have h := read_row_some_of ⟨2, [' ', '7', '|', 'x', '\n'], ⟨.leaf [5] [0]⟩⟩ 5 0
      ['7', '|', 'x', '\n'] hs (by decide) (by rfl) (by rw [htok]; decide)
    rw [htok] at h
    exact h
  · rw [h1]
    have hch : chunksFrom [' ', '7', '|', 'x', '\n'] = [[' ', '7', '|', 'x', '\n']] := by
      rw [chunksFrom]
      rw [show takeLine [' ', '7', '|', 'x', '\n'] (MAX_ROW_LEN - 1) =
        [' ', '7', '|', 'x', '\n'] from rfl]
      rw [show ([' ', '7', '|', 'x', '\n'] : List Char).drop
        ([' ', '7', '|', 'x', '\n'] : List Char).length = ([] : List Char) from rfl]
      rw [show chunksFrom ([] : List Char) = [] from by rw [chunksFrom]]
    have h2 : compact_table ⟨2, [' ', '7', '|', 'x', '\n'], ⟨.leaf [5] [0]⟩⟩ =
        ⟨2, [' ', '7', '|', 'x', '\n'], ⟨.leaf [7] [0]⟩⟩ := by
      rw [compact_table]
      rw [show chunksFrom
        (⟨2, [' ', '7', '|', 'x', '\n'], ⟨.leaf [5] [0]⟩⟩ : TableM).file =
        [[' ', '7', '|', 'x', '\n']] from hch]
      rfl
    rw [h2]
    have hs2 : search_key (⟨.leaf [7] [0]⟩ : BPlusTree) 5 = -1 := by
      simp only [search_key]
      rw [find_leaf_node]
      rfl
    rw [read_row]
    simp only [hs2]
    exact if_pos trivial

end Cerver
